import Mathlib

/-!
Smoothing kernels of `dune/istl/paamg/fastamgsmoother.hh`

A shallow embedding of the Gauss-Seidel and Jacobi sweep kernels and of their
pre-smoothing and post-smoothing drivers, over exact rational scalars.

* A sparse matrix is the list of its rows; row `i` is the list of its stored
  entries `(column index, value)` in storage order.  `row.index()` is the
  position of the row in the matrix.
* A forward column iterator is the list of entries from its position to the end
  of the row (so `row->end()` is `[]`); a backward column iterator is the list
  of entries from its position down to the first one (so `beforeBegin()` is
  `[]`).  Dereferencing an iterator that is at the end, and indexing a vector
  out of range, is undefined in the source and yields `none` here.
* The vector iterators `dIter`, `xIter`, `bIter` move in lockstep with the row
  iterator.  In the forward kernels they start at `begin()`, so at row `i` they
  point at position `i`.  In the backward kernels each starts at `beforeEnd()`
  of its own vector, so at row `i` of `n` it points at position
  `size - n + i` (`backwardAt`), which is `i` only for a vector with one entry
  per row.
* The value `*dIter` of the current row is carried in an accumulator and stored
  into `d` where the source leaves the row (or, with `compDef`, before the
  transposed update loop runs).
* The drivers instantiate the kernels at `M::blocklevel`, which is positive for
  a sparse matrix, so the generic templates are the ones embedded; the
  specialisation `GaussSeidelStepWithDefect<0>` (a bare `A.solve(x, d)` on a
  scalar block) is reached by no call in the file.
* The C++ `int num_iter` is a 32-bit two's complement integer.  The loop bounds
  `num_iter - 2` and `num_iter - 1` are computed by `intSub`, which wraps
  around below `-2^31` (the result modulo `2^32`), as the unoptimised build
  does; the loop counter itself stays below `2^31` and never wraps.
-/

namespace Dune
namespace Amg

/-- A stored matrix entry: column index and scalar value. -/
abbrev Entry := Nat × ℚ

/-- A sparse row: its stored entries in storage order. -/
abbrev Row := List Entry

/-- A sparse matrix: the list of its rows. -/
abbrev Matrix := List Row

/-- A block vector with scalar blocks. -/
abbrev Vec := List ℚ

/-- The pair `(x, d)` of the two vectors the kernels mutate. -/
abbrev State := Vec × Vec

/-- Modelled from the spec: the block-algebra capability `a.mmv(x, r)`
    ("multiply-and-subtract-into", `r -= a * x`); the scalar block type is not
    part of the source file. -/
def mmv (a x r : ℚ) : ℚ := r - a * x

/-- Modelled from the spec: the block-algebra capability `a.umv(x, r)`
    ("multiply-and-add-into", `r += a * x`); the scalar block type is not part
    of the source file. -/
def umv (a x r : ℚ) : ℚ := r + a * x

/-- Modelled from the spec: the block-algebra capability `a.solve(x, r)` for a
    scalar block, returning the new `x = r / a` (field division of `ℚ`, which
    is `0` for `a = 0`); the scalar block type is not part of the source
    file. -/
def solve (a r : ℚ) : ℚ := r / a

/-- The triangular scan that opens every row:
    `for (; col.index() < row.index(); ++col) (*col).mmv(x[col.index()], r);`
    in the forward kernels (`before j` is `j < i`, `col` a forward iterator)
    and `for (; col.index() > row.index(); --col) ...` in the backward kernels
    (`before j` is `j > i`, `col` a backward iterator).  Returns the entry the
    scan stops at (`diag`), the iterator advanced past it, and the
    accumulator. -/
def triangularLoop (before : Nat → Bool) (x : Vec) : Row → ℚ → Option (Entry × Row × ℚ)
  | [], _ => none
  | (j, a) :: rest, r =>
    if before j then
      match x[j]? with
      | none => none
      | some xj => triangularLoop before x rest (mmv a xj r)
    else some ((j, a), rest, r)

/-- The scan over the rest of a row,
    `for (...; col != colEnd; ++col) (*col).op(x[col.index()], r);`
    with `op` one of `mmv`, `umv`. -/
def restLoop (op : ℚ → ℚ → ℚ → ℚ) (x : Vec) : Row → ℚ → Option ℚ
  | [], r => some r
  | (j, a) :: rest, r =>
    match x[j]? with
    | none => none
    | some xj => restLoop op x rest (op a xj r)

/-- The transposed defect update of the forward Gauss-Seidel kernel:
    `for (col = (*row).begin(); col.index() < row.index(); ++col)
       col->mmv(*xIter, d[col.index()]);` -/
def defectLoop (i : Nat) (xi : ℚ) : Row → Vec → Option Vec
  | [], _ => none
  | (j, a) :: rest, d =>
    if j < i then
      match d[j]? with
      | none => none
      | some dj => defectLoop i xi rest (d.set j (mmv a xi dj))
    else some d

/-- Body of the row loop of `GaussSeidelStepWithDefect<level>::forward_apply`
    for the row with index `i`. -/
def gsForwardRow (first compDef : Bool) (b : Vec) (i : Nat) (row : Row) (s : State) :
    Option State :=
  match b[i]?, s.1[i]?, s.2[i]? with
  | some bi, some _, some _ =>
    match triangularLoop (fun j => decide (j < i)) s.1 row bi with
    | none => none
    | some (diag, col, r) =>
      match (if first then some 0 else restLoop umv s.1 col 0) with
      | none => none
      | some v =>
        let xi := solve diag.2 (r - v)
        if compDef then
          match defectLoop i xi row (s.2.set i v) with
          | none => none
          | some d => some (s.1.set i xi, d)
        else some (s.1.set i xi, s.2.set i (r - v))
  | _, _, _ => none

/-- A vector iterator of the backward kernels when the row loop is at row `i`
    of `n`: it started at `v.beforeEnd()` (position `v.size() - 1`) and has
    stepped back once per row visited (`n - 1 - i` times), so it points at
    position `v.size() - n + i`.  Returns that position and the entry there,
    or `none` when the iterator has moved before the first entry. -/
def backwardAt (v : Vec) (n i : Nat) : Option (Nat × ℚ) :=
  if n ≤ v.length + i then
    match v[v.length + i - n]? with
    | none => none
    | some a => some (v.length + i - n, a)
  else none

/-- Body of the row loop of `GaussSeidelStepWithDefect<level>::backward_apply`
    for the row with index `i` of a matrix with `n` rows; the row is traversed
    from its last entry.  `*bIter`, `*xIter`, `*dIter` are the entries the
    three backward iterators point at, `x[col.index()]` is indexed by
    column. -/
def gsBackwardRow (n : Nat) (b : Vec) (i : Nat) (row : Row) (s : State) : Option State :=
  match backwardAt b n i, backwardAt s.1 n i, backwardAt s.2 n i with
  | some (_, bi), some (px, _), some (pd, _) =>
    match triangularLoop (fun j => decide (j > i)) s.1 row.reverse bi with
    | none => none
    | some (diag, col, r) =>
      match restLoop mmv s.1 col r with
      | none => none
      | some r => some (s.1.set px (solve diag.2 r), s.2.set pd r)
  | _, _, _ => none

/-- Body of the row loop of `JacobiStepWithDefect<level>::forward_apply` for the
    row with index `i`; `xold` is the copy `const X xold(x)` taken on entry.
    The parameter `first` is not read by the source.  The accumulator `r` is a
    local of the source, so `dIter` is dereferenced only with `compDef`. -/
def jacobiForwardRow (compDef : Bool) (xold b : Vec) (i : Nat) (row : Row) (s : State) :
    Option State :=
  match b[i]?, s.1[i]? with
  | some bi, some _ =>
    match triangularLoop (fun j => decide (j < i)) xold row bi with
    | none => none
    | some (diag, col, r) =>
      match restLoop mmv xold col r with
      | none => none
      | some r =>
        let x := s.1.set i (solve diag.2 r)
        if compDef then
          match s.2[i]?, restLoop mmv x row bi with
          | some _, some di => some (x, s.2.set i di)
          | _, _ => none
        else some (x, s.2)
  | _, _ => none

/-- Body of the row loop of `JacobiStepWithDefect<level>::backward_apply` for
    the row with index `i` of a matrix with `n` rows; `*bIter` and `*xIter` are
    the entries the backward iterators point at, `dIter` is moved but never
    dereferenced. -/
def jacobiBackwardRow (n : Nat) (xold b : Vec) (i : Nat) (row : Row) (s : State) :
    Option State :=
  match backwardAt b n i, backwardAt s.1 n i with
  | some (_, bi), some (px, _) =>
    match triangularLoop (fun j => decide (j > i)) xold row.reverse bi with
    | none => none
    | some (diag, col, r) =>
      match restLoop mmv xold col r with
      | none => none
      | some r => some (s.1.set px (solve diag.2 r), s.2)
  | _, _ => none

/-- A row loop: the rows are visited in the order of the list, each with its
    index, and the first undefined step aborts the sweep. -/
def sweepRows (step : Nat → Row → State → Option State) : List (Nat × Row) → State → Option State
  | [], s => some s
  | (i, row) :: rows, s =>
    match step i row s with
    | none => none
    | some s1 => sweepRows step rows s1

/-- Rows in the order of `for (row = A.begin(); row != A.end(); ++row)`. -/
def forwardOrder (A : Matrix) : List (Nat × Row) := A.enum

/-- Rows in the order of
    `for (row = A.beforeEnd(); row != A.beforeBegin(); --row)`. -/
def backwardOrder (A : Matrix) : List (Nat × Row) := A.enum.reverse

/-- The generic template `GaussSeidelStepWithDefect<level>::forward_apply`. -/
def GaussSeidelStepWithDefect.forward_apply (A : Matrix) (x d b : Vec)
    (first compDef : Bool) : Option State :=
  sweepRows (gsForwardRow first compDef b) (forwardOrder A) (x, d)

/-- The generic template `GaussSeidelStepWithDefect<level>::backward_apply`. -/
def GaussSeidelStepWithDefect.backward_apply (A : Matrix) (x d b : Vec) : Option State :=
  sweepRows (gsBackwardRow A.length b) (backwardOrder A) (x, d)

/-- The kernel `JacobiStepWithDefect<level>::forward_apply`.  With `compDef`,
    the debug block that follows the row loop recomputes `b - A x` into a copy
    of `b` and prints it next to `d`; it changes neither `x` nor `d`, and once
    the row loop has run through, all its reads are in range except `d[i]` for
    `i < b.size()`, which needs `d` to be at least as long as `b`. -/
def JacobiStepWithDefect.forward_apply (A : Matrix) (x d b : Vec)
    (_first compDef : Bool) : Option State :=
  match sweepRows (jacobiForwardRow compDef x b) (forwardOrder A) (x, d) with
  | none => none
  | some s => if compDef = true ∧ s.2.length < b.length then none else some s

/-- The kernel `JacobiStepWithDefect<level>::backward_apply`. -/
def JacobiStepWithDefect.backward_apply (A : Matrix) (x d b : Vec) : Option State :=
  sweepRows (jacobiBackwardRow A.length x b) (backwardOrder A) (x, d)

/-- A counted loop `for (int i = 0; i < k; i++) sweep(x, d);`. -/
def repeatSweep (sweep : State → Option State) : Nat → State → Option State
  | 0, s => some s
  | k + 1, s =>
    match sweep s with
    | none => none
    | some s1 => repeatSweep sweep k s1

/-- The C++ expression `a - k` on 32-bit `int`s for a small constant `k >= 0`:
    a difference below `-2^31` wraps around by `2^32`.  (For an `int` argument
    `a` the difference cannot exceed `2^31 - 1`, so that is the only wrap.) -/
def intSub (a k : Int) : Int :=
  if a - k < -2147483648 then a - k + 4294967296 else a - k

/-- The driver `GaussSeidelPresmoothDefect::apply`.  The bound of the interior
    loop is the `int` expression `num_iter - 2`; a bound that is not positive
    gives no iteration. -/
def GaussSeidelPresmoothDefect.apply (A : Matrix) (x d b : Vec) (num_iter : Int) :
    Option State :=
  if num_iter = 1 then
    GaussSeidelStepWithDefect.forward_apply A x d b true true
  else
    match GaussSeidelStepWithDefect.forward_apply A x d b true false with
    | none => none
    | some s1 =>
      match repeatSweep (fun s => GaussSeidelStepWithDefect.forward_apply A s.1 s.2 b false false)
          (intSub num_iter 2).toNat s1 with
      | none => none
      | some s2 => GaussSeidelStepWithDefect.forward_apply A s2.1 s2.2 b false true

/-- The driver `GaussSeidelPostsmoothDefect::apply`. -/
def GaussSeidelPostsmoothDefect.apply (A : Matrix) (x d b : Vec) (num_iter : Int) :
    Option State :=
  repeatSweep (fun s => GaussSeidelStepWithDefect.backward_apply A s.1 s.2 b)
    num_iter.toNat (x, d)

/-- The driver `JacobiPresmoothDefect::apply`.  The bound of the loop is the
    `int` expression `num_iter - 1`. -/
def JacobiPresmoothDefect.apply (A : Matrix) (x d b : Vec) (num_iter : Int) : Option State :=
  match repeatSweep (fun s => JacobiStepWithDefect.forward_apply A s.1 s.2 b false false)
      (intSub num_iter 1).toNat (x, d) with
  | none => none
  | some s1 => JacobiStepWithDefect.forward_apply A s1.1 s1.2 b false true

/-- The driver `JacobiPostsmoothDefect::apply`. -/
def JacobiPostsmoothDefect.apply (A : Matrix) (x d b : Vec) (num_iter : Int) : Option State :=
  repeatSweep (fun s => JacobiStepWithDefect.backward_apply A s.1 s.2 b)
    num_iter.toNat (x, d)

/-! ## Reference notions the properties are stated with -/

/-- The coefficient a row stores for column `k`; an absent entry counts as
    zero. -/
def coef : Row → Nat → ℚ
  | [], _ => 0
  | (j, a) :: rest, k => if j = k then a else coef rest k

/-- The matrix entry `a_ij`, absent entries (and absent rows) counting as
    zero. -/
def entry (A : Matrix) (i j : Nat) : ℚ := coef (A.getD i []) j

/-- The sum of `a * x_j` over the stored entries `(j, a)` of a row whose column
    index satisfies `p`. -/
def rowSum (p : Nat → Bool) (row : Row) (x : Vec) : ℚ :=
  ((row.filter (fun e => p e.1)).map (fun e => e.2 * x.getD e.1 0)).sum

/-- The sum of `a * x_j` over all stored entries `(j, a)` of a row. -/
def rowDot (row : Row) (x : Vec) : ℚ :=
  (row.map (fun e => e.2 * x.getD e.1 0)).sum

/-- The product `A * x`. -/
def matVec (A : Matrix) (x : Vec) : Vec := A.map (fun row => rowDot row x)

/-- The residual `b - A * x`. -/
def residual (A : Matrix) (x b : Vec) : Vec :=
  List.zipWith (fun bi ri => bi - ri) b (matVec A x)

/-- The column indices of a row are strictly ascending. -/
def SortedRow (row : Row) : Prop := row.Pairwise (fun e f => e.1 < f.1)

/-- The data-model precondition on a square sparse matrix: every row has
    strictly ascending column indices, all below the number of rows, and
    stores an entry on the diagonal. -/
def WellFormed (A : Matrix) : Prop :=
  ∀ i < A.length, SortedRow (A.getD i []) ∧ (∀ e ∈ A.getD i [], e.1 < A.length) ∧
    (∃ e ∈ A.getD i [], e.1 = i)

/-- Every diagonal entry is nonzero. -/
def NonzeroDiag (A : Matrix) : Prop := ∀ i < A.length, entry A i i ≠ 0

/-- Symmetry, `a_ij = a_ji`, absent entries counting as zero. -/
def IsSymmetric (A : Matrix) : Prop :=
  ∀ i < A.length, ∀ j < A.length, entry A i j = entry A j i

instance (row : Row) : Decidable (SortedRow row) :=
  inferInstanceAs (Decidable (row.Pairwise (fun (e f : Entry) => e.1 < f.1)))

instance (A : Matrix) : Decidable (WellFormed A) :=
  inferInstanceAs (Decidable (∀ i < A.length, SortedRow (A.getD i []) ∧
    (∀ e ∈ A.getD i [], e.1 < A.length) ∧ (∃ e ∈ A.getD i [], e.1 = i)))

instance (A : Matrix) : Decidable (NonzeroDiag A) :=
  inferInstanceAs (Decidable (∀ i < A.length, entry A i i ≠ 0))

instance (A : Matrix) : Decidable (IsSymmetric A) :=
  inferInstanceAs (Decidable (∀ i < A.length, ∀ j < A.length, entry A i j = entry A j i))

/-- The documented `(first, compDef)` flags of a pre-smoothing call with `k`
    sweeps: `(true, true)` for a single sweep; otherwise `(true, false)` once,
    `(false, false)` for the `k - 2` interior sweeps, and `(false, true)`
    last. -/
def presmoothFlags (k : Nat) : List (Bool × Bool) :=
  if k = 1 then [(true, true)]
  else (true, false) :: (List.replicate (k - 2) (false, false) ++ [(false, true)])

/-- Calling a forward kernel by hand, once per flag pair, in sequence. -/
def runKernel (kernel : Vec → Vec → Bool → Bool → Option State) :
    List (Bool × Bool) → State → Option State
  | [], s => some s
  | (first, compDef) :: rest, s =>
    match kernel s.1 s.2 first compDef with
    | none => none
    | some s1 => runKernel kernel rest s1

/-- The tridiagonal matrix `[[4,-1,0],[-1,4,-1],[0,-1,4]]` in sparse storage. -/
def tridiag3 : Matrix := [[(0, 4), (1, -1)], [(0, -1), (1, 4), (2, -1)], [(1, -1), (2, 4)]]

/-- The symmetric matrix `[[2,1],[1,2]]` in sparse storage. -/
def sym2 : Matrix := [[(0, 2), (1, 1)], [(0, 1), (1, 2)]]

/-- The lower-triangular, non-symmetric matrix `[[1,0],[1,1]]` in sparse
    storage. -/
def lower2 : Matrix := [[(0, 1)], [(0, 1), (1, 1)]]

/-- The upper-triangular accumulator `v` of the forward Gauss-Seidel kernel for
    row `i`: skipped (zero) on a first sweep, otherwise the sum of `a_ij * x_j`
    over the stored columns `j > i`. -/
def gsUpper (first : Bool) (i : Nat) (row : Row) (x : Vec) : ℚ :=
  if first then 0 else rowSum (fun j => decide (i < j)) row x

/-- The value the forward Gauss-Seidel kernel solves for in row `i`, read off
    the vector `x` as it stands when the row is reached. -/
def gsValue (first : Bool) (b : Vec) (i : Nat) (row : Row) (x : Vec) : ℚ :=
  (b.getD i 0 - rowSum (fun j => decide (j < i)) row x - gsUpper first i row x) / coef row i

/-- The reference Jacobi sweep, which reads only the snapshot `xold`:
    `x_new_i = (b_i - sum over stored j != i of a_ij * xold_j) / a_ii`. -/
def jacobiReference (A : Matrix) (xold b : Vec) : Vec :=
  A.enum.map (fun p =>
    (b.getD p.1 0 - rowSum (fun j => decide (j ≠ p.1)) p.2 xold) / coef p.2 p.1)

/-- Applying a sweep `k` times in sequence; an undefined sweep leaves the whole
    sequence undefined. -/
def applyTimes (sweep : State → Option State) (k : Nat) (s : State) : Option State :=
  Nat.iterate (fun o => o.bind sweep) k (some s)

/-- Two results of a kernel are related: both undefined, or both defined with
    related states. -/
def OptRel (R : State → State → Prop) : Option State → Option State → Prop
  | some s, some t => R s t
  | none, none => True
  | _, _ => False

/-- A row of an `n`-column matrix with every column index `j` mapped to
    `n - 1 - j`; reversing the list puts the entries of a sorted row back into
    ascending order. -/
def revRow (n : Nat) (row : Row) : Row := (row.map (fun e => (n - 1 - e.1, e.2))).reverse

/-- The matrix with row and column indices both mapped `i -> n - 1 - i`. -/
def revMatrix (A : Matrix) : Matrix := (A.map (revRow A.length)).reverse

/-- The upper bidiagonal matrix `[[1,1,0],[0,1,1],[0,0,1]]` in sparse
    storage. -/
def chain3 : Matrix := [[(0, 1), (1, 1)], [(1, 1), (2, 1)], [(2, 1)]]

/-! ## Rows: splitting at the diagonal -/

theorem row_split {i : Nat} {row : Row} (hs : SortedRow row) (hd : ∃ e ∈ row, e.1 = i) :
    ∃ lo a up, row = lo ++ (i, a) :: up ∧ (∀ e ∈ lo, e.1 < i) ∧ (∀ e ∈ up, i < e.1) := by
  obtain ⟨e, he, rfl⟩ := hd
  obtain ⟨lo, up, rfl⟩ := List.append_of_mem he
  refine ⟨lo, e.2, up, rfl, ?_, ?_⟩
  · intro f hf
    have h := (List.pairwise_append.1 hs).2.2
    exact h f hf e (List.mem_cons_self _ _)
  · intro f hf
    have h := (List.pairwise_append.1 hs).2.1
    exact (List.pairwise_cons.1 h).1 f hf

/-! ## Sums over rows -/

theorem rowDot_nil (x : Vec) : rowDot [] x = 0 := rfl

theorem rowDot_cons (e : Entry) (l : Row) (x : Vec) :
    rowDot (e :: l) x = e.2 * x.getD e.1 0 + rowDot l x := by
  simp [rowDot]

theorem rowDot_append (l1 l2 : Row) (x : Vec) :
    rowDot (l1 ++ l2) x = rowDot l1 x + rowDot l2 x := by
  simp [rowDot]

theorem rowDot_reverse (l : Row) (x : Vec) : rowDot l.reverse x = rowDot l x := by
  induction l with
  | nil => rfl
  | cons e l ih => rw [List.reverse_cons, rowDot_append, rowDot_cons, rowDot_cons, ih, rowDot_nil]; ring

theorem rowSum_append (p : Nat → Bool) (l1 l2 : Row) (x : Vec) :
    rowSum p (l1 ++ l2) x = rowSum p l1 x + rowSum p l2 x := by
  simp [rowSum]

theorem rowSum_cons (p : Nat → Bool) (e : Entry) (l : Row) (x : Vec) :
    rowSum p (e :: l) x = (if p e.1 then e.2 * x.getD e.1 0 else 0) + rowSum p l x := by
  by_cases h : p e.1 <;> simp [rowSum, h]

theorem rowSum_all (p : Nat → Bool) (l : Row) (x : Vec) (h : ∀ e ∈ l, p e.1 = true) :
    rowSum p l x = rowDot l x := by
  induction l with
  | nil => rfl
  | cons e l ih =>
    rw [rowSum_cons, rowDot_cons, ih (fun f hf => h f (List.mem_cons_of_mem _ hf)),
      h e (List.mem_cons_self _ _)]
    simp

theorem rowSum_none (p : Nat → Bool) (l : Row) (x : Vec) (h : ∀ e ∈ l, p e.1 = false) :
    rowSum p l x = 0 := by
  induction l with
  | nil => rfl
  | cons e l ih =>
    rw [rowSum_cons, ih (fun f hf => h f (List.mem_cons_of_mem _ hf)),
      h e (List.mem_cons_self _ _)]
    simp

/-- A row sum only reads the vector at the selected stored columns. -/
theorem rowSum_congr (p : Nat → Bool) (l : Row) (x y : Vec)
    (h : ∀ e ∈ l, p e.1 = true → x.getD e.1 0 = y.getD e.1 0) :
    rowSum p l x = rowSum p l y := by
  induction l with
  | nil => rfl
  | cons e l ih =>
    rw [rowSum_cons, rowSum_cons, ih (fun f hf => h f (List.mem_cons_of_mem _ hf))]
    by_cases hp : p e.1 = true
    · rw [h e (List.mem_cons_self _ _) hp]
    · simp [hp]

theorem rowDot_congr (l : Row) (x y : Vec)
    (h : ∀ e ∈ l, x.getD e.1 0 = y.getD e.1 0) : rowDot l x = rowDot l y := by
  induction l with
  | nil => rfl
  | cons e l ih =>
    rw [rowDot_cons, rowDot_cons, ih (fun f hf => h f (List.mem_cons_of_mem _ hf)),
      h e (List.mem_cons_self _ _)]

theorem coef_append_of_not_mem (l1 l2 : Row) (k : Nat) (h : ∀ e ∈ l1, e.1 ≠ k) :
    coef (l1 ++ l2) k = coef l2 k := by
  induction l1 with
  | nil => rfl
  | cons e l ih =>
    obtain ⟨j, a⟩ := e
    have hj : j ≠ k := h (j, a) (List.mem_cons_self _ _)
    simp only [List.cons_append, coef, hj, if_false]
    exact ih (fun f hf => h f (List.mem_cons_of_mem _ hf))

theorem coef_of_not_mem (l : Row) (k : Nat) (h : ∀ e ∈ l, e.1 ≠ k) : coef l k = 0 := by
  have := coef_append_of_not_mem l [] k h
  simpa [coef] using this

theorem coef_append_left (l1 l2 : Row) (k : Nat) (h : ∀ e ∈ l2, e.1 ≠ k) :
    coef (l1 ++ l2) k = coef l1 k := by
  induction l1 with
  | nil => simpa using coef_of_not_mem l2 k h
  | cons e l ih =>
    obtain ⟨j, a⟩ := e
    by_cases hj : j = k
    · simp [coef, hj]
    · simp only [List.cons_append, coef, hj, if_false]; exact ih

/-! ## The column loops on a row split at the diagonal -/

theorem triangularLoop_split (before : Nat → Bool) (x : Vec) (e : Entry) (up : Row)
    (he : before e.1 = false) :
    ∀ (lo : Row) (r : ℚ), (∀ f ∈ lo, before f.1 = true ∧ f.1 < x.length) →
      triangularLoop before x (lo ++ e :: up) r = some (e, up, r - rowDot lo x) := by
  intro lo
  induction lo with
  | nil =>
    intro r _
    obtain ⟨j, a⟩ := e
    simp only [List.nil_append, triangularLoop, rowDot_nil, sub_zero]
    simp only [] at he
    simp [he]
  | cons f lo ih =>
    intro r h
    obtain ⟨j, a⟩ := f
    have hf := h (j, a) (List.mem_cons_self _ _)
    have hx : x[j]? = some (x.getD j 0) := by
      simp [List.getD_eq_getElem?_getD, List.getElem?_eq_getElem hf.2]
    simp only [List.cons_append, triangularLoop, hf.1, if_true, hx, List.append_eq]
    rw [ih _ (fun g hg => h g (List.mem_cons_of_mem _ hg)), rowDot_cons, mmv]
    congr 3
    simp only []
    ring

theorem restLoop_mmv (x : Vec) :
    ∀ (l : Row) (r : ℚ), (∀ f ∈ l, f.1 < x.length) →
      restLoop mmv x l r = some (r - rowDot l x) := by
  intro l
  induction l with
  | nil => intro r _; simp [restLoop, rowDot_nil]
  | cons f l ih =>
    intro r h
    obtain ⟨j, a⟩ := f
    have hf := h (j, a) (List.mem_cons_self _ _)
    have hx : x[j]? = some (x.getD j 0) := by
      simp [List.getD_eq_getElem?_getD, List.getElem?_eq_getElem hf]
    simp only [restLoop, hx]
    rw [ih _ (fun g hg => h g (List.mem_cons_of_mem _ hg)), rowDot_cons, mmv]
    congr 1
    simp only []
    ring

theorem restLoop_umv (x : Vec) :
    ∀ (l : Row) (r : ℚ), (∀ f ∈ l, f.1 < x.length) →
      restLoop umv x l r = some (r + rowDot l x) := by
  intro l
  induction l with
  | nil => intro r _; simp [restLoop, rowDot_nil]
  | cons f l ih =>
    intro r h
    obtain ⟨j, a⟩ := f
    have hf := h (j, a) (List.mem_cons_self _ _)
    have hx : x[j]? = some (x.getD j 0) := by
      simp [List.getD_eq_getElem?_getD, List.getElem?_eq_getElem hf]
    simp only [restLoop, hx]
    rw [ih _ (fun g hg => h g (List.mem_cons_of_mem _ hg)), rowDot_cons, umv]
    congr 1
    simp only []
    ring

/-! ## Vectors -/

theorem getD_set_self (v : Vec) (i : Nat) (a : ℚ) (h : i < v.length) :
    (v.set i a).getD i 0 = a := by
  simp [List.getElem?_set, h]

theorem getD_set_ne (v : Vec) (i k : Nat) (a : ℚ) (h : k ≠ i) :
    (v.set i a).getD k 0 = v.getD k 0 := by
  simp [List.getElem?_set, Ne.symm h]

theorem getElem?_eq_some_getD (v : Vec) (j : Nat) (h : j < v.length) :
    v[j]? = some (v.getD j 0) := by
  simp [List.getElem?_eq_getElem h]

theorem backwardAt_eq (v : Vec) {n i : Nat} (h : v.length = n) (hi : i < n) :
    backwardAt v n i = some (i, v.getD i 0) := by
  have h1 : v.length + i - n = i := by omega
  have h2 : n ≤ v.length + i := by omega
  simp only [backwardAt, h2, if_true, h1, getElem?_eq_some_getD v i (h ▸ hi)]

theorem vec_ext (v w : Vec) (hl : v.length = w.length)
    (h : ∀ k < v.length, v.getD k 0 = w.getD k 0) : v = w := by
  apply List.ext_getElem hl
  intro k h1 h2
  have := h k h1
  simpa [List.getElem?_eq_getElem h1, List.getElem?_eq_getElem h2] using this

theorem defectLoop_split (i : Nat) (xi : ℚ) (e : Entry) (up : Row) (he : ¬ e.1 < i) :
    ∀ (lo : Row) (d : Vec), (∀ f ∈ lo, f.1 < i ∧ f.1 < d.length) → SortedRow lo →
      ∃ d1, defectLoop i xi (lo ++ e :: up) d = some d1 ∧ d1.length = d.length ∧
        ∀ k, d1.getD k 0 = d.getD k 0 - coef lo k * xi := by
  intro lo
  induction lo with
  | nil =>
    intro d _ _
    obtain ⟨j, a⟩ := e
    refine ⟨d, ?_, rfl, ?_⟩
    · simp only [] at he
      simp [defectLoop, he]
    · intro k; simp [coef]
  | cons f lo ih =>
    intro d h hs
    obtain ⟨j, a⟩ := f
    have hf := h (j, a) (List.mem_cons_self _ _)
    have hs1 := List.pairwise_cons.1 hs
    obtain ⟨d1, h1, h2, h3⟩ := ih (d.set j (mmv a xi (d.getD j 0)))
      (fun g hg => by
        have := h g (List.mem_cons_of_mem _ hg)
        simpa using this) hs1.2
    refine ⟨d1, ?_, ?_, ?_⟩
    · simp only [List.cons_append, defectLoop, hf.1, if_true, getElem?_eq_some_getD d j hf.2,
        List.append_eq]
      exact h1
    · simpa using h2
    · intro k
      rw [h3 k]
      by_cases hk : k = j
      · subst hk
        have h0 : coef lo k = 0 :=
          coef_of_not_mem lo k (fun g hg => Nat.ne_of_gt (hs1.1 g hg))
        rw [getD_set_self _ _ _ hf.2, h0]
        simp [coef, mmv]
      · rw [getD_set_ne _ _ _ _ hk]
        simp [coef, Ne.symm hk]

/-! ## The row loops -/

theorem sweepRows_enumFrom (step : Nat → Row → State → Option State)
    (I : Nat → State → Prop) :
    ∀ (rows : List Row) (i : Nat) (s : State), I i s →
      (∀ k (hk : k < rows.length) (s : State), I (i + k) s →
        ∃ s1, step (i + k) rows[k] s = some s1 ∧ I (i + k + 1) s1) →
      ∃ s1, sweepRows step (rows.enumFrom i) s = some s1 ∧ I (i + rows.length) s1 := by
  intro rows
  induction rows with
  | nil => intro i s h _; exact ⟨s, rfl, h⟩
  | cons r rows ih =>
    intro i s h hstep
    obtain ⟨s1, h1, h2⟩ := hstep 0 (by simp) s h
    simp only [Nat.add_zero, List.getElem_cons_zero] at h1 h2
    obtain ⟨s2, h3, h4⟩ := ih (i + 1) s1 h2 (fun k hk t ht => by
      have := hstep (k + 1) (by simpa using hk) t (by rwa [show i + (k + 1) = i + 1 + k by omega])
      rw [show i + 1 + k = i + (k + 1) by omega]
      simpa using this)
    refine ⟨s2, ?_, ?_⟩
    · simp only [List.enumFrom_cons, sweepRows, h1]; exact h3
    · rw [List.length_cons, show i + (rows.length + 1) = i + 1 + rows.length by omega]; exact h4

/-- Invariant rule for a forward sweep: an invariant indexed by the number of
    rows already visited. -/
theorem sweepRows_forward (step : Nat → Row → State → Option State)
    (I : Nat → State → Prop) (A : Matrix) (s : State) (h0 : I 0 s)
    (hstep : ∀ i, i < A.length → ∀ (s : State), I i s →
      ∃ s1, step i (A.getD i []) s = some s1 ∧ I (i + 1) s1) :
    ∃ s1, sweepRows step (forwardOrder A) s = some s1 ∧ I A.length s1 := by
  have := sweepRows_enumFrom step I A 0 s h0 (fun k hk t ht => by
    have h := hstep k hk t (by simpa using ht)
    rw [List.getD_eq_getElem _ _ hk] at h
    simpa using h)
  simpa [forwardOrder, List.enum_eq_enumFrom] using this

/-- Invariant rule for a backward sweep: an invariant indexed by the index of
    the last row visited. -/
theorem sweepRows_backward (step : Nat → Row → State → Option State)
    (I : Nat → State → Prop) :
    ∀ (A : Matrix) (s : State), I A.length s →
      (∀ i, i < A.length → ∀ (s : State), I (i + 1) s →
        ∃ s1, step i (A.getD i []) s = some s1 ∧ I i s1) →
      ∃ s1, sweepRows step (backwardOrder A) s = some s1 ∧ I 0 s1 := by
  intro A
  induction A using List.reverseRecOn with
  | nil => intro s h _; exact ⟨s, rfl, h⟩
  | append_singleton A r ih =>
    intro s h hstep
    obtain ⟨s1, h1, h2⟩ := hstep A.length (by simp) s (by simpa using h)
    rw [List.getD_eq_getElem _ _ (by simp)] at h1
    simp only [List.getElem_concat_length] at h1
    obtain ⟨s2, h3, h4⟩ := ih s1 h2 (fun i hi t ht => by
      have := hstep i (by simp; omega) t ht
      rw [List.getD_eq_getElem _ _ (by simp; omega), List.getElem_append_left hi] at this
      rwa [List.getD_eq_getElem _ _ hi])
    refine ⟨s2, ?_, h4⟩
    simp only [backwardOrder, List.enum_append, List.enumFrom_singleton, List.reverse_append,
      List.reverse_cons, List.reverse_nil, List.nil_append, List.singleton_append, sweepRows, h1]
    exact h3

/-! ## Rows of a well-formed matrix -/

theorem wf_split {A : Matrix} (hA : WellFormed A) {i : Nat} (hi : i < A.length) :
    ∃ lo a up, A.getD i [] = lo ++ (i, a) :: up ∧ (∀ f ∈ lo, f.1 < i) ∧ (∀ f ∈ up, i < f.1) ∧
      (∀ f ∈ up, f.1 < A.length) ∧ SortedRow lo := by
  have h := hA i hi
  obtain ⟨lo, a, up, h1, h2, h3⟩ := row_split h.1 h.2.2
  refine ⟨lo, a, up, h1, h2, h3, ?_, ?_⟩
  · intro f hf
    apply h.2.1 f
    rw [h1]; simp [hf]
  · have := h.1
    rw [h1] at this
    exact (List.pairwise_append.1 this).1

section Split

variable {i : Nat} {lo up : Row} {a : ℚ}

theorem split_lt (hlo : ∀ f ∈ lo, f.1 < i) (hup : ∀ f ∈ up, i < f.1) (x : Vec) :
    rowSum (fun j => decide (j < i)) (lo ++ (i, a) :: up) x = rowDot lo x := by
  rw [rowSum_append, rowSum_cons, rowSum_all _ lo x (fun f hf => by simpa using hlo f hf),
    rowSum_none _ up x (fun f hf => by simpa using Nat.le_of_lt (hup f hf))]
  simp

theorem split_gt (hlo : ∀ f ∈ lo, f.1 < i) (hup : ∀ f ∈ up, i < f.1) (x : Vec) :
    rowSum (fun j => decide (i < j)) (lo ++ (i, a) :: up) x = rowDot up x := by
  rw [rowSum_append, rowSum_cons, rowSum_all _ up x (fun f hf => by simpa using hup f hf),
    rowSum_none _ lo x (fun f hf => by simpa using Nat.le_of_lt (hlo f hf))]
  simp

theorem split_dot (x : Vec) :
    rowDot (lo ++ (i, a) :: up) x = rowDot lo x + a * x.getD i 0 + rowDot up x := by
  rw [rowDot_append, rowDot_cons]; ring

theorem split_diag (hlo : ∀ f ∈ lo, f.1 < i) : coef (lo ++ (i, a) :: up) i = a := by
  rw [coef_append_of_not_mem lo _ i (fun f hf => Nat.ne_of_lt (hlo f hf))]
  simp [coef]

theorem split_coef (hlo : ∀ f ∈ lo, f.1 < i) (hup : ∀ f ∈ up, i < f.1) (k : Nat) :
    coef lo k = if k < i then coef (lo ++ (i, a) :: up) k else 0 := by
  by_cases hk : k < i
  · rw [if_pos hk, coef_append_left]
    intro f hf
    rcases List.mem_cons.1 hf with h | h
    · rw [h]; exact Nat.ne_of_gt hk
    · exact Nat.ne_of_gt (Nat.lt_trans hk (hup f h))
  · rw [if_neg hk]
    exact coef_of_not_mem lo k (fun f hf h => hk (h ▸ hlo f hf))

end Split

/-- One row of the forward Gauss-Seidel kernel on a well-formed matrix: the
    step is defined, writes `gsValue` into `x_i`, and leaves in `d` either the
    scratch value of the row or, with `compDef`, the accumulator `v` in `d_i`
    and the transposed updates in the earlier rows. -/
theorem gsForwardRow_wf {A : Matrix} (hA : WellFormed A) {i : Nat} (hi : i < A.length)
    (first compDef : Bool) (b x d : Vec) (hx : x.length = A.length)
    (hd : d.length = A.length) (hb : b.length = A.length) :
    ∃ d1, gsForwardRow first compDef b i (A.getD i []) (x, d)
        = some (x.set i (gsValue first b i (A.getD i []) x), d1) ∧ d1.length = A.length ∧
      ∀ k, d1.getD k 0 =
        if compDef then
          (if k = i then gsUpper first i (A.getD i []) x
           else d.getD k 0 - (if k < i then coef (A.getD i []) k else 0) * gsValue first b i (A.getD i []) x)
        else
          (if k = i then b.getD i 0 - rowSum (fun j => decide (j < i)) (A.getD i []) x
              - gsUpper first i (A.getD i []) x
           else d.getD k 0) := by
  obtain ⟨lo, a, up, hrow, hlo, hup, hupn, hslo⟩ := wf_split hA hi
  have hv : (if first then some 0 else restLoop umv x up 0) = some (gsUpper first i (A.getD i []) x) := by
    cases first
    · simp only [gsUpper, Bool.false_eq_true, if_false]
      rw [restLoop_umv x up 0 (fun f hf => hx ▸ hupn f hf), hrow, split_gt hlo hup]
      simp
    · simp [gsUpper]
  have htri : triangularLoop (fun j => decide (j < i)) x (A.getD i []) (b.getD i 0)
      = some ((i, a), up, b.getD i 0 - rowSum (fun j => decide (j < i)) (A.getD i []) x) := by
    rw [hrow, split_lt hlo hup]
    exact triangularLoop_split _ x (i, a) up (by simp) lo _
      (fun f hf => ⟨by simpa using hlo f hf, by rw [hx]; exact Nat.lt_trans (hlo f hf) hi⟩)
  have hdiag : coef (A.getD i []) i = a := by rw [hrow]; exact split_diag hlo
  have hxi : solve a (b.getD i 0 - rowSum (fun j => decide (j < i)) (A.getD i []) x
      - gsUpper first i (A.getD i []) x) = gsValue first b i (A.getD i []) x := by
    rw [solve, gsValue, hdiag]
  cases compDef
  · refine ⟨d.set i (b.getD i 0 - rowSum (fun j => decide (j < i)) (A.getD i []) x
      - gsUpper first i (A.getD i []) x), ?_, by simpa using hd, ?_⟩
    · simp only [gsForwardRow, getElem?_eq_some_getD b i (hb ▸ hi),
        getElem?_eq_some_getD x i (hx ▸ hi), getElem?_eq_some_getD d i (hd ▸ hi), htri, hv, hxi,
        Bool.false_eq_true, if_false]
    · intro k
      by_cases hk : k = i
      · subst hk; rw [getD_set_self _ _ _ (hd ▸ hi)]; simp
      · simp only [Bool.false_eq_true, if_false, hk]
        exact getD_set_ne _ _ _ _ hk
  · obtain ⟨d1, h1, h2, h3⟩ := defectLoop_split i (gsValue first b i (A.getD i []) x) (i, a) up
      (by simp) lo (d.set i (gsUpper first i (A.getD i []) x))
      (fun f hf => ⟨hlo f hf, by simp [hd]; exact Nat.lt_trans (hlo f hf) hi⟩) hslo
    refine ⟨d1, ?_, by simpa [hd] using h2, ?_⟩
    · simp only [gsForwardRow, getElem?_eq_some_getD b i (hb ▸ hi),
        getElem?_eq_some_getD x i (hx ▸ hi), getElem?_eq_some_getD d i (hd ▸ hi), htri, hv, hxi,
        if_true]
      rw [← hrow] at h1
      simp only [h1]
    · intro k
      rw [h3 k, split_coef hlo hup k, ← hrow]
      by_cases hk : k = i
      · subst hk; rw [getD_set_self _ _ _ (hd ▸ hi)]; simp
      · simp only [if_true, hk, if_false]
        rw [getD_set_ne _ _ _ _ hk]

/-! ## Dense sums over a sorted row -/

theorem sum_coef_mul (n : Nat) (g : Nat → ℚ) :
    ∀ (l : Row), SortedRow l → (∀ f ∈ l, f.1 < n) →
      (∑ m in Finset.range n, coef l m * g m) = (l.map (fun f => f.2 * g f.1)).sum := by
  intro l
  induction l with
  | nil => intro _ _; simp [coef]
  | cons e l ih =>
    intro hs hn
    obtain ⟨j, a⟩ := e
    have hs1 := List.pairwise_cons.1 hs
    have h0 : coef l j = 0 := coef_of_not_mem l j (fun f hf => Nat.ne_of_gt (hs1.1 f hf))
    have hj : j < n := hn (j, a) (List.mem_cons_self _ _)
    have hpt : ∀ m ∈ Finset.range n, coef ((j, a) :: l) m * g m
        = coef l m * g m + (if j = m then a * g m else 0) := by
      intro m _
      by_cases hm : j = m
      · subst hm; simp [coef, h0]
      · simp [coef, hm]
    rw [Finset.sum_congr rfl hpt, Finset.sum_add_distrib,
      ih hs1.2 (fun f hf => hn f (List.mem_cons_of_mem _ hf)), Finset.sum_ite_eq]
    simp [hj]
    ring

theorem map_mask_sum (p : Nat → Bool) (x : Vec) (l : Row) :
    (l.map (fun f => f.2 * (if p f.1 then x.getD f.1 0 else 0))).sum = rowSum p l x := by
  induction l with
  | nil => rfl
  | cons e l ih =>
    rw [rowSum_cons, List.map_cons, List.sum_cons, ih]
    by_cases h : p e.1 = true <;> simp [h]

/-- A row sum over selected stored columns is the dense sum of
    `a_ij * x_j` over the selected column indices. -/
theorem sum_coef_mask (n : Nat) (p : Nat → Bool) (x : Vec) (l : Row) (hs : SortedRow l)
    (hn : ∀ f ∈ l, f.1 < n) :
    (∑ m in Finset.range n, if p m then coef l m * x.getD m 0 else 0) = rowSum p l x := by
  rw [← map_mask_sum, ← sum_coef_mul n (fun m => if p m then x.getD m 0 else 0) l hs hn]
  apply Finset.sum_congr rfl
  intro m _
  by_cases h : p m = true <;> simp [h]

theorem wf_rowSum_le {A : Matrix} (hA : WellFormed A) {i : Nat} (hi : i < A.length) (x : Vec) :
    rowSum (fun j => decide (j ≤ i)) (A.getD i []) x
      = rowSum (fun j => decide (j < i)) (A.getD i []) x + entry A i i * x.getD i 0 := by
  obtain ⟨lo, a, up, hrow, hlo, hup, _, _⟩ := wf_split hA hi
  rw [entry, hrow, split_lt hlo hup, split_diag hlo, rowSum_append, rowSum_cons,
    rowSum_all _ lo x (fun f hf => by simpa using Nat.le_of_lt (hlo f hf)),
    rowSum_none _ up x (fun f hf => by simpa using hup f hf)]
  simp

theorem wf_rowDot {A : Matrix} (hA : WellFormed A) {i : Nat} (hi : i < A.length) (x : Vec) :
    rowDot (A.getD i []) x
      = rowSum (fun j => decide (j < i)) (A.getD i []) x + entry A i i * x.getD i 0
        + rowSum (fun j => decide (i < j)) (A.getD i []) x := by
  obtain ⟨lo, a, up, hrow, hlo, hup, _, _⟩ := wf_split hA hi
  rw [entry, hrow, split_lt hlo hup, split_gt hlo hup, split_diag hlo, split_dot]

theorem gsValue_mul {row : Row} {i : Nat} (h : coef row i ≠ 0) (first : Bool) (b x : Vec) :
    coef row i * gsValue first b i row x
      = b.getD i 0 - rowSum (fun j => decide (j < i)) row x - gsUpper first i row x := by
  rw [gsValue]; field_simp

theorem residual_length (A : Matrix) (x b : Vec) (hb : b.length = A.length) :
    (residual A x b).length = A.length := by
  simp [residual, matVec, hb]

theorem residual_getD (A : Matrix) (x b : Vec) (hb : b.length = A.length) (k : Nat)
    (hk : k < A.length) :
    (residual A x b).getD k 0 = b.getD k 0 - rowDot (A.getD k []) x := by
  have hk1 : k < b.length := hb ▸ hk
  simp [residual, matVec, List.getElem?_zipWith, List.getElem?_eq_getElem hk,
    List.getElem?_eq_getElem hk1]

/-! ## The defect of the forward Gauss-Seidel kernel -/

/-- What the forward Gauss-Seidel kernel leaves in `d` with `compDef`, for any
    well-formed matrix: row `k` holds `b_k` minus the part of row `k` up to the
    diagonal, minus the part of *column* `k` below the diagonal. -/
theorem gs_forward_defect_transposed {A : Matrix} (hA : WellFormed A) (hD : NonzeroDiag A)
    (first : Bool) (x d b : Vec) (hx : x.length = A.length) (hd : d.length = A.length)
    (hb : b.length = A.length) :
    ∃ x1 d1, GaussSeidelStepWithDefect.forward_apply A x d b first true = some (x1, d1) ∧
      x1.length = A.length ∧ d1.length = A.length ∧
      ∀ k < A.length, d1.getD k 0 =
        b.getD k 0 - rowSum (fun j => decide (j ≤ k)) (A.getD k []) x1
          - ∑ m in Finset.range A.length, if k < m then entry A m k * x1.getD m 0 else 0 := by
  have key := sweepRows_forward (gsForwardRow first true b)
    (fun i s => s.1.length = A.length ∧ s.2.length = A.length ∧
      ∀ k < i, s.2.getD k 0 =
        b.getD k 0 - rowSum (fun j => decide (j ≤ k)) (A.getD k []) s.1
          - ∑ m in Finset.range i, if k < m then entry A m k * s.1.getD m 0 else 0)
    A (x, d) ⟨hx, hd, fun k hk => absurd hk (Nat.not_lt_zero k)⟩ ?_
  · obtain ⟨⟨x1, d1⟩, h1, h2, h3, h4⟩ := key
    exact ⟨x1, d1, h1, h2, h3, h4⟩
  · rintro i hi ⟨x0, d0⟩ ⟨h1, h2, h3⟩
    simp only [] at h1 h2 h3
    obtain ⟨d1, e1, e2, e3⟩ := gsForwardRow_wf hA hi first true b x0 d0 h1 h2 hb
    refine ⟨_, e1, by simpa using h1, e2, ?_⟩
    intro k hk
    have hxi : i < x0.length := h1 ▸ hi
    simp only []
    rw [e3 k]
    simp only [if_true]
    by_cases hki : k = i
    · subst hki
      have hz : (∑ m in Finset.range (k + 1),
          if k < m then entry A m k * (x0.set k (gsValue first b k (A.getD k []) x0)).getD m 0
          else 0) = 0 := by
        apply Finset.sum_eq_zero
        intro m hm
        have : ¬ k < m := by
          have := Finset.mem_range.1 hm
          omega
        simp [this]
      rw [if_pos rfl, hz, wf_rowSum_le hA hi, getD_set_self _ _ _ hxi,
        rowSum_congr (fun j => decide (j < k)) (A.getD k []) _ x0
          (fun e _ he => getD_set_ne _ _ _ _ (Nat.ne_of_lt (by simpa using he))),
        entry, gsValue_mul (hD k hi)]
      ring
    · have hlt : k < i := by omega
      have hs : (∑ m in Finset.range i,
          if k < m then entry A m k * (x0.set i (gsValue first b i (A.getD i []) x0)).getD m 0
          else 0)
          = ∑ m in Finset.range i, if k < m then entry A m k * x0.getD m 0 else 0 := by
        apply Finset.sum_congr rfl
        intro m hm
        rw [getD_set_ne _ _ _ _ (Nat.ne_of_lt (Finset.mem_range.1 hm))]
      rw [if_neg hki, if_pos hlt, h3 k hlt, Finset.sum_range_succ, if_pos hlt, hs,
        getD_set_self _ _ _ hxi,
        rowSum_congr (fun j => decide (j ≤ k)) (A.getD k []) _ x0
          (fun e _ he => getD_set_ne _ _ _ _ (by
            have : e.1 ≤ k := by simpa using he
            omega)), entry]
      ring

/-- For a symmetric matrix the forward Gauss-Seidel kernel with `compDef`
    leaves the true residual of the returned `x` in `d`, whatever `first` and
    the incoming `x` are. -/
theorem gs_forward_defect_symmetric {A : Matrix} (hA : WellFormed A) (hD : NonzeroDiag A)
    (hS : IsSymmetric A) (first : Bool) (x d b : Vec) (hx : x.length = A.length)
    (hd : d.length = A.length) (hb : b.length = A.length) :
    ∃ x1 d1, GaussSeidelStepWithDefect.forward_apply A x d b first true = some (x1, d1) ∧
      x1.length = A.length ∧ d1 = residual A x1 b := by
  obtain ⟨x1, d1, h1, h2, h3, h4⟩ := gs_forward_defect_transposed hA hD first x d b hx hd hb
  refine ⟨x1, d1, h1, h2, ?_⟩
  apply vec_ext _ _ (by rw [h3, residual_length A x1 b hb])
  intro k hk
  rw [h3] at hk
  have hsym : (∑ m in Finset.range A.length, if k < m then entry A m k * x1.getD m 0 else 0)
      = rowSum (fun j => decide (k < j)) (A.getD k []) x1 := by
    rw [← sum_coef_mask A.length (fun j => decide (k < j)) x1 (A.getD k []) (hA k hk).1
      (hA k hk).2.1]
    apply Finset.sum_congr rfl
    intro m hm
    rw [hS m (Finset.mem_range.1 hm) k hk]
    simp [entry]
  rw [h4 k hk, residual_getD A x1 b hb k hk, wf_rowDot hA hk, wf_rowSum_le hA hk, hsym]
  ring

/-! ## The other three kernels, one row -/

theorem triangularLoop_backward_wf {A : Matrix} (hA : WellFormed A) {i : Nat}
    (hi : i < A.length) (x : Vec) (hx : x.length = A.length) (r : ℚ) :
    ∃ diag col, triangularLoop (fun j => decide (j > i)) x (A.getD i []).reverse r
        = some (diag, col, r - rowSum (fun j => decide (i < j)) (A.getD i []) x) ∧
      diag.2 = coef (A.getD i []) i ∧
      ∀ t, restLoop mmv x col t
        = some (t - rowSum (fun j => decide (j < i)) (A.getD i []) x) := by
  obtain ⟨lo, a, up, hrow, hlo, hup, hupn, _⟩ := wf_split hA hi
  refine ⟨(i, a), lo.reverse, ?_, ?_, ?_⟩
  · rw [hrow, split_gt hlo hup, List.reverse_append, List.reverse_cons, List.append_assoc,
      List.singleton_append, ← rowDot_reverse up x]
    exact triangularLoop_split _ x (i, a) lo.reverse (by simp) up.reverse _
      (fun f hf => by
        have hf1 := List.mem_reverse.1 hf
        exact ⟨by simpa using hup f hf1, hx ▸ hupn f hf1⟩)
  · rw [hrow, split_diag hlo]
  · intro t
    rw [hrow, split_lt hlo hup, ← rowDot_reverse lo x]
    exact restLoop_mmv x lo.reverse t (fun f hf => by
      have hf1 := List.mem_reverse.1 hf
      rw [hx]; exact Nat.lt_trans (hlo f hf1) hi)

theorem triangularLoop_forward_wf {A : Matrix} (hA : WellFormed A) {i : Nat}
    (hi : i < A.length) (x : Vec) (hx : x.length = A.length) (r : ℚ) :
    ∃ diag col, triangularLoop (fun j => decide (j < i)) x (A.getD i []) r
        = some (diag, col, r - rowSum (fun j => decide (j < i)) (A.getD i []) x) ∧
      diag.2 = coef (A.getD i []) i ∧
      ∀ t, restLoop mmv x col t
        = some (t - rowSum (fun j => decide (i < j)) (A.getD i []) x) := by
  obtain ⟨lo, a, up, hrow, hlo, hup, hupn, _⟩ := wf_split hA hi
  refine ⟨(i, a), up, ?_, ?_, ?_⟩
  · rw [hrow, split_lt hlo hup]
    exact triangularLoop_split _ x (i, a) up (by simp) lo _
      (fun f hf => ⟨by simpa using hlo f hf, by rw [hx]; exact Nat.lt_trans (hlo f hf) hi⟩)
  · rw [hrow, split_diag hlo]
  · intro t
    rw [hrow, split_gt hlo hup]
    exact restLoop_mmv x up t (fun f hf => hx ▸ hupn f hf)

theorem gsValue_false (b : Vec) (i : Nat) (row : Row) (x : Vec) :
    gsValue false b i row x
      = (b.getD i 0 - rowSum (fun j => decide (j < i)) row x
          - rowSum (fun j => decide (i < j)) row x) / coef row i := by
  simp [gsValue, gsUpper]

/-- One row of the backward Gauss-Seidel kernel on a well-formed matrix. -/
theorem gsBackwardRow_wf {A : Matrix} (hA : WellFormed A) {i : Nat} (hi : i < A.length)
    (b x d : Vec) (hx : x.length = A.length) (hd : d.length = A.length)
    (hb : b.length = A.length) :
    gsBackwardRow A.length b i (A.getD i []) (x, d)
      = some (x.set i (gsValue false b i (A.getD i []) x),
          d.set i (b.getD i 0 - rowSum (fun j => decide (i < j)) (A.getD i []) x
            - rowSum (fun j => decide (j < i)) (A.getD i []) x)) := by
  obtain ⟨diag, col, h1, h2, h3⟩ := triangularLoop_backward_wf hA hi x hx (b.getD i 0)
  simp only [gsBackwardRow, backwardAt_eq b hb hi, backwardAt_eq x hx hi, backwardAt_eq d hd hi,
    h1, h3, h2, solve, gsValue_false]
  congr 4
  ring

/-- One row of the forward Jacobi kernel on a well-formed matrix. -/
theorem jacobiForwardRow_wf {A : Matrix} (hA : WellFormed A) {i : Nat} (hi : i < A.length)
    (compDef : Bool) (xold b x d : Vec) (ho : xold.length = A.length)
    (hx : x.length = A.length) (hd : d.length = A.length) (hb : b.length = A.length) :
    jacobiForwardRow compDef xold b i (A.getD i []) (x, d)
      = some (x.set i (gsValue false b i (A.getD i []) xold),
          if compDef then
            d.set i (b.getD i 0
              - rowDot (A.getD i []) (x.set i (gsValue false b i (A.getD i []) xold)))
          else d) := by
  obtain ⟨diag, col, h1, h2, h3⟩ := triangularLoop_forward_wf hA hi xold ho (b.getD i 0)
  have h4 := restLoop_mmv (x.set i (gsValue false b i (A.getD i []) xold)) (A.getD i [])
    (b.getD i 0) (fun f hf => by
      rw [List.length_set, hx]; exact (hA i hi).2.1 f hf)
  simp only [jacobiForwardRow, getElem?_eq_some_getD b i (hb ▸ hi),
    getElem?_eq_some_getD x i (hx ▸ hi), getElem?_eq_some_getD d i (hd ▸ hi), h1, h3, h2, solve,
    ← gsValue_false, h4]
  cases compDef <;> rfl

/-- One row of the backward Jacobi kernel on a well-formed matrix. -/
theorem jacobiBackwardRow_wf {A : Matrix} (hA : WellFormed A) {i : Nat} (hi : i < A.length)
    (xold b x d : Vec) (ho : xold.length = A.length)
    (hx : x.length = A.length) (hb : b.length = A.length) :
    jacobiBackwardRow A.length xold b i (A.getD i []) (x, d)
      = some (x.set i (gsValue false b i (A.getD i []) xold), d) := by
  obtain ⟨diag, col, h1, h2, h3⟩ := triangularLoop_backward_wf hA hi xold ho (b.getD i 0)
  simp only [jacobiBackwardRow, backwardAt_eq b hb hi, backwardAt_eq x hx hi, h1, h3, h2,
    solve, gsValue_false]
  congr 4
  ring

/-! ## The solution of a Gauss-Seidel sweep -/

/-- The forward Gauss-Seidel kernel on a well-formed matrix returns, and its
    `x` solves the lower-triangular system row by row; entries not yet visited
    are read from the incoming vector. -/
theorem gs_forward_solution {A : Matrix} (hA : WellFormed A) (hD : NonzeroDiag A)
    (first compDef : Bool) (x d b : Vec) (hx : x.length = A.length) (hd : d.length = A.length)
    (hb : b.length = A.length) :
    ∃ x1 d1, GaussSeidelStepWithDefect.forward_apply A x d b first compDef = some (x1, d1) ∧
      x1.length = A.length ∧ d1.length = A.length ∧
      ∀ k < A.length, entry A k k * x1.getD k 0 =
        b.getD k 0 - rowSum (fun j => decide (j < k)) (A.getD k []) x1
          - gsUpper first k (A.getD k []) x := by
  have key := sweepRows_forward (gsForwardRow first compDef b)
    (fun i s => s.1.length = A.length ∧ s.2.length = A.length ∧
      (∀ k < i, entry A k k * s.1.getD k 0 =
        b.getD k 0 - rowSum (fun j => decide (j < k)) (A.getD k []) s.1
          - gsUpper first k (A.getD k []) x) ∧
      ∀ k, i ≤ k → s.1.getD k 0 = x.getD k 0)
    A (x, d) ⟨hx, hd, fun k hk => absurd hk (Nat.not_lt_zero k), fun _ _ => rfl⟩ ?_
  · obtain ⟨⟨x1, d1⟩, h1, h2, h3, h4, _⟩ := key
    exact ⟨x1, d1, h1, h2, h3, h4⟩
  · rintro i hi ⟨x0, d0⟩ ⟨h1, h2, h3, h4⟩
    simp only [] at h1 h2 h3 h4
    obtain ⟨d1, e1, e2, _⟩ := gsForwardRow_wf hA hi first compDef b x0 d0 h1 h2 hb
    have hxi : i < x0.length := h1 ▸ hi
    have hup : gsUpper first i (A.getD i []) x0 = gsUpper first i (A.getD i []) x := by
      cases first
      · simp only [gsUpper, Bool.false_eq_true, if_false]
        exact rowSum_congr _ _ _ _ (fun e _ he => h4 e.1 (Nat.le_of_lt (by simpa using he)))
      · rfl
    refine ⟨_, e1, by simpa using h1, e2, ?_, ?_⟩
    · intro k hk
      simp only []
      rw [rowSum_congr (fun j => decide (j < k)) (A.getD k []) _ x0
          (fun e _ he => getD_set_ne _ _ _ _ (by
            have : e.1 < k := by simpa using he
            omega))]
      by_cases hki : k = i
      · subst hki
        rw [getD_set_self _ _ _ hxi, entry, gsValue_mul (hD k hi), hup]
      · rw [getD_set_ne _ _ _ _ hki]
        exact h3 k (by omega)
    · intro k hk
      simp only []
      rw [getD_set_ne _ _ _ _ (by omega)]
      exact h4 k (by omega)

/-- The lower-triangular system of a forward sweep has at most one solution. -/
theorem lower_system_unique {A : Matrix} (hD : NonzeroDiag A) (u : Nat → ℚ) (y z : Vec)
    (hy : y.length = A.length) (hz : z.length = A.length)
    (ey : ∀ k < A.length, entry A k k * y.getD k 0 =
      u k - rowSum (fun j => decide (j < k)) (A.getD k []) y)
    (ez : ∀ k < A.length, entry A k k * z.getD k 0 =
      u k - rowSum (fun j => decide (j < k)) (A.getD k []) z) : y = z := by
  have h : ∀ k, k < A.length → y.getD k 0 = z.getD k 0 := by
    intro k
    induction k using Nat.strong_induction_on with
    | _ k ih =>
      intro hk
      have h1 := ey k hk
      rw [rowSum_congr (fun j => decide (j < k)) (A.getD k []) y z
        (fun e _ he => by
          have h2 : e.1 < k := by simpa using he
          exact ih e.1 h2 (Nat.lt_trans h2 hk)), ← ez k hk] at h1
      exact mul_left_cancel₀ (hD k hk) h1
  exact vec_ext y z (hy.trans hz.symm) (fun k hk => h k (hy ▸ hk))

/-- The backward Gauss-Seidel kernel on a well-formed matrix returns, and its
    `x` solves the upper-triangular system row by row; entries not yet visited
    are read from the incoming vector. -/
theorem gs_backward_solution {A : Matrix} (hA : WellFormed A) (hD : NonzeroDiag A)
    (x d b : Vec) (hx : x.length = A.length) (hd : d.length = A.length)
    (hb : b.length = A.length) :
    ∃ x1 d1, GaussSeidelStepWithDefect.backward_apply A x d b = some (x1, d1) ∧
      x1.length = A.length ∧ d1.length = A.length ∧
      ∀ k < A.length, entry A k k * x1.getD k 0 =
        b.getD k 0 - rowSum (fun j => decide (k < j)) (A.getD k []) x1
          - rowSum (fun j => decide (j < k)) (A.getD k []) x := by
  have key := sweepRows_backward (gsBackwardRow A.length b)
    (fun i s => s.1.length = A.length ∧ s.2.length = A.length ∧
      (∀ k < A.length, i ≤ k → entry A k k * s.1.getD k 0 =
        b.getD k 0 - rowSum (fun j => decide (k < j)) (A.getD k []) s.1
          - rowSum (fun j => decide (j < k)) (A.getD k []) x) ∧
      ∀ k < i, s.1.getD k 0 = x.getD k 0)
    A (x, d) ⟨hx, hd, fun k hk hk1 => absurd hk (Nat.not_lt_of_le hk1), fun _ _ => rfl⟩ ?_
  · obtain ⟨⟨x1, d1⟩, h1, h2, h3, h4, _⟩ := key
    exact ⟨x1, d1, h1, h2, h3, fun k hk => h4 k hk (Nat.zero_le k)⟩
  · rintro i hi ⟨x0, d0⟩ ⟨h1, h2, h3, h4⟩
    simp only [] at h1 h2 h3 h4
    have e1 := gsBackwardRow_wf hA hi b x0 d0 h1 h2 hb
    have hxi : i < x0.length := h1 ▸ hi
    have hlo : rowSum (fun j => decide (j < i)) (A.getD i []) x0
        = rowSum (fun j => decide (j < i)) (A.getD i []) x :=
      rowSum_congr _ _ _ _ (fun e _ he => h4 e.1 (by
        have : e.1 < i := by simpa using he
        omega))
    refine ⟨_, e1, by simpa using h1, by simpa using h2, ?_, ?_⟩
    · intro k hk hik
      simp only []
      rw [rowSum_congr (fun j => decide (k < j)) (A.getD k []) _ x0
          (fun e _ he => getD_set_ne _ _ _ _ (by
            have : k < e.1 := by simpa using he
            omega))]
      by_cases hki : k = i
      · subst hki
        rw [getD_set_self _ _ _ hxi, entry, gsValue_mul (hD k hi), ← hlo]
        simp only [gsUpper, Bool.false_eq_true, if_false]
        ring
      · rw [getD_set_ne _ _ _ _ hki]
        exact h3 k hk (by omega)
    · intro k hk
      simp only []
      rw [getD_set_ne _ _ _ _ (by omega)]
      exact h4 k (by omega)

/-- The upper-triangular system of a backward sweep has at most one solution. -/
theorem upper_system_unique {A : Matrix} (hD : NonzeroDiag A) (hA : WellFormed A)
    (u : Nat → ℚ) (y z : Vec)
    (hy : y.length = A.length) (hz : z.length = A.length)
    (ey : ∀ k < A.length, entry A k k * y.getD k 0 =
      u k - rowSum (fun j => decide (k < j)) (A.getD k []) y)
    (ez : ∀ k < A.length, entry A k k * z.getD k 0 =
      u k - rowSum (fun j => decide (k < j)) (A.getD k []) z) : y = z := by
  have h : ∀ m k, k < A.length → A.length - k ≤ m → y.getD k 0 = z.getD k 0 := by
    intro m
    induction m with
    | zero => intro k hk hm; omega
    | succ m ih =>
      intro k hk _
      have h1 := ey k hk
      rw [rowSum_congr (fun j => decide (k < j)) (A.getD k []) y z
        (fun e hmem he => by
          have h2 : k < e.1 := by simpa using he
          have h3 : e.1 < A.length := (hA k hk).2.1 e hmem
          exact ih e.1 h3 (by omega)), ← ez k hk] at h1
      exact mul_left_cancel₀ (hD k hk) h1
  exact vec_ext y z (hy.trans hz.symm) (fun k hk => h A.length k (hy ▸ hk) (by omega))

/-! ## The Jacobi kernels -/

theorem wf_rowSum_ne {A : Matrix} (hA : WellFormed A) {i : Nat} (hi : i < A.length) (x : Vec) :
    rowSum (fun j => decide (j ≠ i)) (A.getD i []) x
      = rowSum (fun j => decide (j < i)) (A.getD i []) x
        + rowSum (fun j => decide (i < j)) (A.getD i []) x := by
  obtain ⟨lo, a, up, hrow, hlo, hup, _, _⟩ := wf_split hA hi
  rw [hrow, split_lt hlo hup, split_gt hlo hup, rowSum_append, rowSum_cons,
    rowSum_all _ lo x (fun f hf => by simpa using Nat.ne_of_lt (hlo f hf)),
    rowSum_all _ up x (fun f hf => by simpa using Nat.ne_of_gt (hup f hf))]
  simp

theorem jacobiReference_length (A : Matrix) (xold b : Vec) :
    (jacobiReference A xold b).length = A.length := by
  simp [jacobiReference]

theorem jacobiReference_getD {A : Matrix} (hA : WellFormed A) (xold b : Vec) {k : Nat}
    (hk : k < A.length) :
    (jacobiReference A xold b).getD k 0 = gsValue false b k (A.getD k []) xold := by
  rw [gsValue_false, sub_sub, ← wf_rowSum_ne hA hk]
  simp [jacobiReference, List.getElem?_enum, List.getElem?_eq_getElem hk]

/-- The forward Jacobi kernel on a well-formed matrix returns the reference
    sweep in `x`; with `compDef`, row `k` of `d` is computed from the vector as
    it stands when row `k` has just been written. -/
theorem jacobi_forward_result {A : Matrix} (hA : WellFormed A) (first compDef : Bool)
    (x d b : Vec) (hx : x.length = A.length) (hd : d.length = A.length)
    (hb : b.length = A.length) :
    ∃ d1, JacobiStepWithDefect.forward_apply A x d b first compDef
        = some (jacobiReference A x b, d1) ∧ d1.length = A.length ∧
      (compDef = true → ∀ k < A.length, d1.getD k 0 =
        b.getD k 0 - rowSum (fun j => decide (j ≤ k)) (A.getD k []) (jacobiReference A x b)
          - rowSum (fun j => decide (k < j)) (A.getD k []) x) := by
  have key := sweepRows_forward (jacobiForwardRow compDef x b)
    (fun i s => s.1.length = A.length ∧ s.2.length = A.length ∧
      (∀ k < A.length, s.1.getD k 0 =
        if k < i then gsValue false b k (A.getD k []) x else x.getD k 0) ∧
      (compDef = true → ∀ k < i, s.2.getD k 0 =
        b.getD k 0 - rowSum (fun j => decide (j ≤ k)) (A.getD k []) s.1
          - rowSum (fun j => decide (k < j)) (A.getD k []) x))
    A (x, d) ⟨hx, hd, fun k _ => by simp, fun _ k hk => absurd hk (Nat.not_lt_zero k)⟩ ?_
  · obtain ⟨⟨x1, d1⟩, h1, h2, h3, h4, h5⟩ := key
    simp only [] at h2 h3 h4 h5
    have hx1 : x1 = jacobiReference A x b := by
      apply vec_ext _ _ (by rw [h2, jacobiReference_length])
      intro k hk
      rw [h2] at hk
      rw [h4 k hk, if_pos hk, jacobiReference_getD hA x b hk]
    subst hx1
    refine ⟨d1, ?_, h3, h5⟩
    have hg : ¬ (compDef = true ∧ d1.length < b.length) := by
      rw [h3, hb]; exact fun h => Nat.lt_irrefl _ h.2
    simp only [JacobiStepWithDefect.forward_apply, h1, hg, if_false]
  · rintro i hi ⟨x0, d0⟩ ⟨h1, h2, h3, h4⟩
    simp only [] at h1 h2 h3 h4
    have e1 := jacobiForwardRow_wf hA hi compDef x b x0 d0 hx h1 h2 hb
    have hxi : i < x0.length := h1 ▸ hi
    refine ⟨_, e1, by simpa using h1, by cases compDef <;> simpa using h2, ?_, ?_⟩
    · intro k hk
      simp only []
      by_cases hki : k = i
      · subst hki
        rw [getD_set_self _ _ _ hxi, if_pos (Nat.lt_succ_self k)]
      · rw [getD_set_ne _ _ _ _ hki, h3 k hk]
        by_cases hlt : k < i
        · rw [if_pos hlt, if_pos (by omega)]
        · rw [if_neg hlt, if_neg (by omega)]
    · intro hc k hk
      subst hc
      simp only [if_true]
      by_cases hki : k = i
      · subst hki
        rw [getD_set_self _ _ _ (h2 ▸ hi), wf_rowDot hA hi, wf_rowSum_le hA hi,
          rowSum_congr (fun j => decide (k < j)) (A.getD k []) _ x
            (fun e hmem he => by
              have h6 : k < e.1 := by simpa using he
              rw [getD_set_ne _ _ _ _ (by omega), h3 e.1 ((hA k hi).2.1 e hmem),
                if_neg (by omega)])]
        ring
      · rw [getD_set_ne _ _ _ _ hki, h4 rfl k (by omega),
          rowSum_congr (fun j => decide (j ≤ k)) (A.getD k []) _ x0
            (fun e _ he => getD_set_ne _ _ _ _ (by
              have : e.1 ≤ k := by simpa using he
              omega))]

/-- The backward Jacobi kernel on a well-formed matrix returns the reference
    sweep in `x` and does not touch `d`. -/
theorem jacobi_backward_result {A : Matrix} (hA : WellFormed A)
    (x d b : Vec) (hx : x.length = A.length) (hb : b.length = A.length) :
    JacobiStepWithDefect.backward_apply A x d b = some (jacobiReference A x b, d) := by
  have key := sweepRows_backward (jacobiBackwardRow A.length x b)
    (fun i s => s.1.length = A.length ∧ s.2 = d ∧
      (∀ k < A.length, s.1.getD k 0 =
        if i ≤ k then gsValue false b k (A.getD k []) x else x.getD k 0))
    A (x, d) ⟨hx, rfl, fun k hk => by rw [if_neg (by omega)]⟩ ?_
  · obtain ⟨⟨x1, d1⟩, h1, h2, h3, h4⟩ := key
    simp only [] at h2 h3 h4
    have hx1 : x1 = jacobiReference A x b := by
      apply vec_ext _ _ (by rw [h2, jacobiReference_length])
      intro k hk
      rw [h2] at hk
      rw [h4 k hk, if_pos (Nat.zero_le k), jacobiReference_getD hA x b hk]
    subst hx1 h3
    exact h1
  · rintro i hi ⟨x0, d0⟩ ⟨h1, h2, h3⟩
    simp only [] at h1 h2 h3
    have e1 := jacobiBackwardRow_wf hA hi x b x0 d0 hx h1 hb
    have hxi : i < x0.length := h1 ▸ hi
    refine ⟨_, e1, by simpa using h1, h2, ?_⟩
    intro k hk
    simp only []
    by_cases hki : k = i
    · subst hki
      rw [getD_set_self _ _ _ hxi, if_pos (Nat.le_refl k)]
    · rw [getD_set_ne _ _ _ _ hki, h3 k hk]
      by_cases hlt : i + 1 ≤ k
      · rw [if_pos hlt, if_pos (by omega)]
      · rw [if_neg hlt, if_neg (by omega)]

/-! ## Two sweeps that agree row by row -/

theorem sweepRows_enumFrom_congr (step1 step2 : Nat → Row → State → Option State)
    (I : Nat → State → Prop) :
    ∀ (rows : List Row) (i : Nat) (s : State), I i s →
      (∀ k (hk : k < rows.length) (s : State), I (i + k) s →
        step1 (i + k) rows[k] s = step2 (i + k) rows[k] s ∧
        ∀ s1, step2 (i + k) rows[k] s = some s1 → I (i + k + 1) s1) →
      sweepRows step1 (rows.enumFrom i) s = sweepRows step2 (rows.enumFrom i) s := by
  intro rows
  induction rows with
  | nil => intro i s _ _; rfl
  | cons r rows ih =>
    intro i s h hstep
    obtain ⟨h1, h2⟩ := hstep 0 (by simp) s h
    simp only [Nat.add_zero, List.getElem_cons_zero] at h1 h2
    simp only [List.enumFrom_cons, sweepRows, h1]
    cases hs : step2 i r s with
    | none => rfl
    | some s1 =>
      simp only []
      apply ih (i + 1) s1 (h2 s1 hs)
      intro k hk t ht
      have := hstep (k + 1) (by simpa using hk) t (by rwa [show i + (k + 1) = i + 1 + k by omega])
      rw [show i + 1 + k = i + (k + 1) by omega]
      simpa using this

theorem sweepRows_forward_congr (step1 step2 : Nat → Row → State → Option State)
    (I : Nat → State → Prop) (A : Matrix) (s : State) (h0 : I 0 s)
    (hstep : ∀ i, i < A.length → ∀ (s : State), I i s →
      step1 i (A.getD i []) s = step2 i (A.getD i []) s ∧
      ∀ s1, step2 i (A.getD i []) s = some s1 → I (i + 1) s1) :
    sweepRows step1 (forwardOrder A) s = sweepRows step2 (forwardOrder A) s := by
  have := sweepRows_enumFrom_congr step1 step2 I A 0 s h0 (fun k hk t ht => by
    have h := hstep k hk t (by simpa using ht)
    rw [List.getD_eq_getElem _ _ hk] at h
    simpa using h)
  simpa [forwardOrder, List.enum_eq_enumFrom] using this

theorem rowSum_eq_zero (p : Nat → Bool) (l : Row) (x : Vec)
    (h : ∀ e ∈ l, p e.1 = true → x.getD e.1 0 = 0) : rowSum p l x = 0 := by
  induction l with
  | nil => rfl
  | cons e l ih =>
    rw [rowSum_cons, ih (fun f hf => h f (List.mem_cons_of_mem _ hf))]
    by_cases hp : p e.1 = true
    · rw [if_pos hp, h e (List.mem_cons_self _ _) hp]; simp
    · rw [if_neg hp]; simp

/-- When every entry of `x` from row `i` on is zero, the `first` flag makes no
    difference to row `i` of the forward Gauss-Seidel kernel. -/
theorem gsForwardRow_first_irrelevant {A : Matrix} (hA : WellFormed A) {i : Nat}
    (hi : i < A.length) (compDef : Bool) (b x d : Vec) (hx : x.length = A.length)
    (hd : d.length = A.length) (hb : b.length = A.length)
    (hz : ∀ k, i ≤ k → x.getD k 0 = 0) :
    gsForwardRow true compDef b i (A.getD i []) (x, d)
      = gsForwardRow false compDef b i (A.getD i []) (x, d) := by
  obtain ⟨d1, e1, l1, f1⟩ := gsForwardRow_wf hA hi true compDef b x d hx hd hb
  obtain ⟨d2, e2, l2, f2⟩ := gsForwardRow_wf hA hi false compDef b x d hx hd hb
  have hu : gsUpper false i (A.getD i []) x = gsUpper true i (A.getD i []) x := by
    simp only [gsUpper, Bool.false_eq_true, if_false, if_true]
    exact rowSum_eq_zero _ _ _ (fun e _ he => hz e.1 (Nat.le_of_lt (by simpa using he)))
  have hv : gsValue false b i (A.getD i []) x = gsValue true b i (A.getD i []) x := by
    rw [gsValue, gsValue, hu]
  have hdd : d1 = d2 := by
    apply vec_ext _ _ (l1.trans l2.symm)
    intro k _
    rw [f1 k, f2 k, hu, hv]
  rw [e1, e2, hv, hdd]

/-- On a zero incoming vector the forward Gauss-Seidel sweeps with
    `first = true` and `first = false` coincide. -/
theorem gs_forward_first_zero {A : Matrix} (hA : WellFormed A) (compDef : Bool)
    (x d b : Vec) (hx : x.length = A.length) (hd : d.length = A.length)
    (hb : b.length = A.length) (hz : ∀ k, x.getD k 0 = 0) :
    GaussSeidelStepWithDefect.forward_apply A x d b true compDef
      = GaussSeidelStepWithDefect.forward_apply A x d b false compDef := by
  apply sweepRows_forward_congr _ _
    (fun i s => s.1.length = A.length ∧ s.2.length = A.length ∧ ∀ k, i ≤ k → s.1.getD k 0 = 0)
    A (x, d) ⟨hx, hd, fun k _ => hz k⟩
  rintro i hi ⟨x0, d0⟩ ⟨h1, h2, h3⟩
  simp only [] at h1 h2 h3
  refine ⟨gsForwardRow_first_irrelevant hA hi compDef b x0 d0 h1 h2 hb h3, ?_⟩
  intro s1 hs1
  obtain ⟨d2, e2, l2, _⟩ := gsForwardRow_wf hA hi false compDef b x0 d0 h1 h2 hb
  rw [e2] at hs1
  cases hs1
  refine ⟨by simpa using h1, l2, ?_⟩
  intro k hk
  simp only []
  rw [getD_set_ne _ _ _ _ (by omega)]
  exact h3 k (by omega)

/-! ## A vector that already solves the system -/

theorem matVec_getD (A : Matrix) (x : Vec) {k : Nat} (hk : k < A.length) :
    (matVec A x).getD k 0 = rowDot (A.getD k []) x := by
  simp [matVec, List.getElem?_eq_getElem hk]

theorem set_getD_self (x : Vec) (i : Nat) : x.set i (x.getD i 0) = x := by
  apply vec_ext _ _ (by simp)
  intro k hk0
  by_cases hk : k = i
  · subst hk
    rw [getD_set_self _ _ _ (by simpa using hk0)]
  · rw [getD_set_ne _ _ _ _ hk]

theorem gsValue_fixed {A : Matrix} (hA : WellFormed A) (hD : NonzeroDiag A) (x b : Vec)
    (h : matVec A x = b) {i : Nat} (hi : i < A.length) :
    gsValue false b i (A.getD i []) x = x.getD i 0 := by
  have hne : coef (A.getD i []) i ≠ 0 := hD i hi
  have hq : ∀ (l a u y : ℚ), a ≠ 0 → (l + a * y + u - l - u) / a = y := by
    intro l a u y ha
    field_simp
    ring
  rw [gsValue_false, ← h, matVec_getD A x hi, wf_rowDot hA hi, entry]
  exact hq _ _ _ _ hne

theorem jacobiReference_fixed {A : Matrix} (hA : WellFormed A) (hD : NonzeroDiag A) (x b : Vec)
    (hx : x.length = A.length) (h : matVec A x = b) : jacobiReference A x b = x := by
  apply vec_ext _ _ (by rw [jacobiReference_length, hx])
  intro k hk
  rw [jacobiReference_length] at hk
  rw [jacobiReference_getD hA x b hk, gsValue_fixed hA hD x b h hk]

theorem gs_forward_fixed {A : Matrix} (hA : WellFormed A) (hD : NonzeroDiag A)
    (compDef : Bool) (x d b : Vec) (hx : x.length = A.length) (hd : d.length = A.length)
    (hb : b.length = A.length) (h : matVec A x = b) :
    ∃ d1, GaussSeidelStepWithDefect.forward_apply A x d b false compDef = some (x, d1) := by
  have key := sweepRows_forward (gsForwardRow false compDef b)
    (fun _ s => s.1 = x ∧ s.2.length = A.length) A (x, d) ⟨rfl, hd⟩ ?_
  · obtain ⟨⟨x1, d1⟩, h1, h2, _⟩ := key
    simp only [] at h2
    subst h2
    exact ⟨d1, h1⟩
  · rintro i hi ⟨x0, d0⟩ ⟨h1, h2⟩
    simp only [] at h1 h2
    subst h1
    obtain ⟨d1, e1, l1, _⟩ := gsForwardRow_wf hA hi false compDef b x0 d0 hx h2 hb
    rw [gsValue_fixed hA hD x0 b h hi, set_getD_self] at e1
    exact ⟨_, e1, rfl, l1⟩

theorem gs_backward_fixed {A : Matrix} (hA : WellFormed A) (hD : NonzeroDiag A)
    (x d b : Vec) (hx : x.length = A.length) (hd : d.length = A.length)
    (hb : b.length = A.length) (h : matVec A x = b) :
    ∃ d1, GaussSeidelStepWithDefect.backward_apply A x d b = some (x, d1) := by
  have key := sweepRows_backward (gsBackwardRow A.length b)
    (fun _ s => s.1 = x ∧ s.2.length = A.length) A (x, d) ⟨rfl, hd⟩ ?_
  · obtain ⟨⟨x1, d1⟩, h1, h2, _⟩ := key
    simp only [] at h2
    subst h2
    exact ⟨d1, h1⟩
  · rintro i hi ⟨x0, d0⟩ ⟨h1, h2⟩
    simp only [] at h1 h2
    subst h1
    have e1 := gsBackwardRow_wf hA hi b x0 d0 hx h2 hb
    rw [gsValue_fixed hA hD x0 b h hi, set_getD_self] at e1
    exact ⟨_, e1, rfl, by simpa using h2⟩

theorem residual_fixed (A : Matrix) (x b : Vec) (h : matVec A x = b) :
    residual A x b = List.replicate A.length 0 := by
  have hb : b.length = A.length := by rw [← h]; simp [matVec]
  apply vec_ext _ _ (by rw [residual_length A x b hb]; simp)
  intro k hk
  rw [residual_length A x b hb] at hk
  rw [residual_getD A x b hb k hk, ← h, matVec_getD A x hk]
  simp [List.getElem?_replicate, hk]

/-- The forward Gauss-Seidel kernel on a well-formed matrix is defined on all
    vectors of matching length. -/
theorem gs_forward_defined {A : Matrix} (hA : WellFormed A) (first compDef : Bool)
    (x d b : Vec) (hx : x.length = A.length) (hd : d.length = A.length)
    (hb : b.length = A.length) :
    ∃ s, GaussSeidelStepWithDefect.forward_apply A x d b first compDef = some s := by
  have key := sweepRows_forward (gsForwardRow first compDef b)
    (fun _ s => s.1.length = A.length ∧ s.2.length = A.length) A (x, d) ⟨hx, hd⟩ ?_
  · obtain ⟨s, h1, _⟩ := key
    exact ⟨s, h1⟩
  · rintro i hi ⟨x0, d0⟩ ⟨h1, h2⟩
    obtain ⟨d1, e1, l1, _⟩ := gsForwardRow_wf hA hi first compDef b x0 d0 h1 h2 hb
    exact ⟨_, e1, by simpa using h1, l1⟩

theorem getD_replicate_zero (n k : Nat) : (List.replicate n (0 : ℚ)).getD k 0 = 0 := by
  by_cases h : k < n
  · simp [List.getElem?_replicate, h]
  · simp [List.getElem?_replicate, h]

/-! ## The drivers -/

theorem runKernel_singleton (kernel : Vec → Vec → Bool → Bool → Option State)
    (f c : Bool) (s : State) : runKernel kernel [(f, c)] s = kernel s.1 s.2 f c := by
  simp only [runKernel]
  cases kernel s.1 s.2 f c <;> rfl

theorem runKernel_replicate (kernel : Vec → Vec → Bool → Bool → Option State)
    (f c : Bool) (rest : List (Bool × Bool)) :
    ∀ (m : Nat) (s : State),
      runKernel kernel (List.replicate m (f, c) ++ rest) s =
        match repeatSweep (fun t => kernel t.1 t.2 f c) m s with
        | none => none
        | some s1 => runKernel kernel rest s1 := by
  intro m
  induction m with
  | zero => intro s; simp [repeatSweep]
  | succ m ih =>
    intro s
    simp only [List.replicate_succ, List.cons_append, runKernel, repeatSweep]
    cases kernel s.1 s.2 f c with
    | none => rfl
    | some s1 => exact ih s1

theorem presmoothFlags_length (k : Nat) (hk : 1 ≤ k) : (presmoothFlags k).length = k := by
  unfold presmoothFlags
  by_cases h : k = 1
  · simp [h]
  · simp [h]; omega

/-! ## The claims -/

/-- C1 (counterexample): the residual identity fails for the forward
    Gauss-Seidel kernel on the non-symmetric matrix `[[1,0],[1,1]]` (it returns
    `d = [-1, 0]` although `b - A x = [0, 0]`), and for the forward Jacobi
    kernel on the symmetric matrix `[[2,1],[1,2]]` (it returns `d = [0, -1]`
    although `b - A x = [-1, -1]`). -/
theorem c1_residual_identity_fails :
    (WellFormed lower2 ∧ NonzeroDiag lower2 ∧
      GaussSeidelStepWithDefect.forward_apply lower2 [0, 0] [0, 0] [1, 2] false true
        = some ([1, 1], [-1, 0]) ∧
      residual lower2 [1, 1] [1, 2] = [0, 0] ∧ ([-1, 0] : Vec) ≠ [0, 0]) ∧
    (WellFormed sym2 ∧ NonzeroDiag sym2 ∧
      JacobiStepWithDefect.forward_apply sym2 [0, 0] [0, 0] [2, 2] false true
        = some ([1, 1], [0, -1]) ∧
      residual sym2 [1, 1] [2, 2] = [-1, -1] ∧ ([0, -1] : Vec) ≠ [-1, -1]) := by
  refine ⟨⟨by decide, by decide, ?_, ?_, by decide⟩, ⟨by decide, by decide, ?_, ?_, by decide⟩⟩
  · norm_num [GaussSeidelStepWithDefect.forward_apply, lower2, forwardOrder, List.enum,
      List.enumFrom, sweepRows, gsForwardRow, triangularLoop, restLoop, defectLoop, mmv, umv,
      solve, List.getElem_cons]
  · norm_num [residual, matVec, rowDot, lower2, List.getElem_cons]
  · norm_num [JacobiStepWithDefect.forward_apply, sym2, forwardOrder, List.enum,
      List.enumFrom, sweepRows, jacobiForwardRow, triangularLoop, restLoop, mmv, solve, List.getElem_cons]
  · norm_num [residual, matVec, rowDot, sym2, List.getElem_cons]

/-- C1 (amended): over exact rationals, for every well-formed symmetric matrix
    with nonzero diagonal and all `x`, `d`, `b` of matching length, the forward
    Gauss-Seidel kernel called with `compDef = true` (either value of `first`)
    returns, and the returned `d` equals `b - A x` for the returned `x`. -/
theorem c1_gs_residual_identity_symmetric (A : Matrix) (x d b : Vec) (first : Bool)
    (hA : WellFormed A) (hD : NonzeroDiag A) (hS : IsSymmetric A)
    (hx : x.length = A.length) (hd : d.length = A.length) (hb : b.length = A.length) :
    ∃ x1 d1, GaussSeidelStepWithDefect.forward_apply A x d b first true = some (x1, d1) ∧
      d1 = residual A x1 b := by
  obtain ⟨x1, d1, h1, _, h3⟩ := gs_forward_defect_symmetric hA hD hS first x d b hx hd hb
  exact ⟨x1, d1, h1, h3⟩

/-- Witness for C1 (amended): the symmetric matrix `[[2,1],[1,2]]` with
    `x = [5, 7]`, `d = [0, 0]`, `b = [2, 2]` and `first = true`. -/
theorem c1_gs_residual_identity_symmetric_witness :
    (WellFormed sym2 ∧ NonzeroDiag sym2 ∧ IsSymmetric sym2) ∧
    ∃ x1 d1, GaussSeidelStepWithDefect.forward_apply sym2 [5, 7] [0, 0] [2, 2] true true
        = some (x1, d1) ∧ d1 = residual sym2 x1 [2, 2] :=
  ⟨⟨by decide, by decide, by decide⟩,
    c1_gs_residual_identity_symmetric sym2 [5, 7] [0, 0] [2, 2] true (by decide) (by decide)
      (by decide) rfl rfl rfl⟩

/-- C2: for a symmetric well-formed matrix with nonzero diagonal, if
    `first = false`, or `first = true` and the incoming `x` is the zero vector,
    the forward Gauss-Seidel kernel with `compDef = true` returns `d = b - A x`
    for the returned `x`; row `k` of `d` is the upper-triangular accumulator
    `v_k = sum over stored j > k of a_kj * xold_j` minus the later
    subtractions `a_ik * x_i` for the rows `i > k`. -/
theorem c2_symmetric_gs_defect (A : Matrix) (x d b : Vec) (first : Bool)
    (hA : WellFormed A) (hD : NonzeroDiag A) (hS : IsSymmetric A)
    (hx : x.length = A.length) (hd : d.length = A.length) (hb : b.length = A.length)
    (hfirst : first = false ∨ (first = true ∧ x = List.replicate A.length 0)) :
    ∃ x1 d1, GaussSeidelStepWithDefect.forward_apply A x d b first true = some (x1, d1) ∧
      d1 = residual A x1 b ∧
      ∀ k < A.length, d1.getD k 0 =
        rowSum (fun j => decide (k < j)) (A.getD k []) x
          - ∑ m in Finset.range A.length, if k < m then entry A m k * x1.getD m 0 else 0 := by
  obtain ⟨x1, d1, h1, _, h3⟩ := gs_forward_defect_symmetric hA hD hS first x d b hx hd hb
  obtain ⟨x2, d2, g1, _, _, g4⟩ := gs_forward_defect_transposed hA hD first x d b hx hd hb
  obtain ⟨x3, d3, f1, _, _, f4⟩ := gs_forward_solution hA hD first true x d b hx hd hb
  rw [h1] at g1 f1
  cases g1
  cases f1
  refine ⟨x1, d1, h1, h3, ?_⟩
  intro k hk
  have hu : gsUpper first k (A.getD k []) x
      = rowSum (fun j => decide (k < j)) (A.getD k []) x := by
    rcases hfirst with h | ⟨h, hz⟩
    · subst h; simp [gsUpper]
    · subst h
      simp only [gsUpper, if_true]
      exact (rowSum_eq_zero _ _ _ (fun e _ _ => by rw [hz]; exact getD_replicate_zero _ _)).symm
  have e1 := g4 k hk
  have e2 := f4 k hk
  rw [wf_rowSum_le hA hk] at e1
  rw [hu] at e2
  rw [e1]
  linarith

/-- Witness for C2: the symmetric matrix `[[2,1],[1,2]]` with a zero incoming
    `x` and `first = true`. -/
theorem c2_symmetric_gs_defect_witness :
    (WellFormed sym2 ∧ NonzeroDiag sym2 ∧ IsSymmetric sym2) ∧
    ∃ x1 d1, GaussSeidelStepWithDefect.forward_apply sym2 [0, 0] [9, 9] [2, 2] true true
        = some (x1, d1) ∧ d1 = residual sym2 x1 [2, 2] ∧
      ∀ k < sym2.length, d1.getD k 0 =
        rowSum (fun j => decide (k < j)) (sym2.getD k []) [0, 0]
          - ∑ m in Finset.range sym2.length,
              if k < m then entry sym2 m k * x1.getD m 0 else 0 :=
  ⟨⟨by decide, by decide, by decide⟩,
    c2_symmetric_gs_defect sym2 [0, 0] [9, 9] [2, 2] true (by decide) (by decide) (by decide)
      rfl rfl rfl (Or.inr ⟨rfl, rfl⟩)⟩

/-- C3: for the tridiagonal matrix `[[4,-1,0],[-1,4,-1],[0,-1,4]]`,
    `b = [1,2,3]`, `x0 = [0,0,0]` and any initial `d` of length 3, one forward
    Gauss-Seidel sweep with `first = true`, `compDef = true` returns
    `x = [1/4, 9/16, 57/64] = [0.25, 0.5625, 0.890625]` and
    `d = [9/16, 57/64, 0]`, which is `b - A x`. -/
theorem c3_concrete_scenario (d : Vec) (hd : d.length = 3) :
    GaussSeidelStepWithDefect.forward_apply tridiag3 [0, 0, 0] d [1, 2, 3] true true
      = some ([1 / 4, 9 / 16, 57 / 64], [9 / 16, 57 / 64, 0]) ∧
    residual tridiag3 [1 / 4, 9 / 16, 57 / 64] [1, 2, 3] = [9 / 16, 57 / 64, 0] ∧
    ([1 / 4, 9 / 16, 57 / 64] : Vec) = [0.25, 0.5625, 0.890625] := by
  obtain ⟨d0, d1, d2, rfl⟩ := List.length_eq_three.1 hd
  refine ⟨?_, ?_, ?_⟩
  · norm_num [GaussSeidelStepWithDefect.forward_apply, tridiag3, forwardOrder, List.enum,
      List.enumFrom, sweepRows, gsForwardRow, triangularLoop, restLoop, defectLoop, mmv, umv,
      solve, List.getElem_cons]
  · norm_num [residual, matVec, rowDot, tridiag3, List.getElem_cons]
  · norm_num

/-- Witness for C3: the initial defect vector `[7, -3, 1/2]`. -/
theorem c3_concrete_scenario_witness :
    ([7, -3, 1 / 2] : Vec).length = 3 ∧
    GaussSeidelStepWithDefect.forward_apply tridiag3 [0, 0, 0] [7, -3, 1 / 2] [1, 2, 3] true true
      = some ([1 / 4, 9 / 16, 57 / 64], [9 / 16, 57 / 64, 0]) ∧
    residual tridiag3 [1 / 4, 9 / 16, 57 / 64] [1, 2, 3] = [9 / 16, 57 / 64, 0] ∧
    ([1 / 4, 9 / 16, 57 / 64] : Vec) = [0.25, 0.5625, 0.890625] :=
  ⟨rfl, c3_concrete_scenario [7, -3, 1 / 2] rfl⟩

/-- C4: on a well-formed matrix with nonzero diagonal, the forward Gauss-Seidel
    kernel with `first = false` (either `compDef`) returns, and the returned
    `x` is the unique vector of length `n` with, for every row `i`,
    `a_ii * x_i = b_i - (sum over stored j < i of a_ij * x_j)
      - (sum over stored j > i of a_ij * xold_j)`,
    that is `(D + L) x = b - U xold`. -/
theorem c4_forward_gauss_seidel_reference (A : Matrix) (x d b : Vec) (compDef : Bool)
    (hA : WellFormed A) (hD : NonzeroDiag A)
    (hx : x.length = A.length) (hd : d.length = A.length) (hb : b.length = A.length) :
    ∃ x1 d1, GaussSeidelStepWithDefect.forward_apply A x d b false compDef = some (x1, d1) ∧
      x1.length = A.length ∧
      (∀ i < A.length, entry A i i * x1.getD i 0 =
        b.getD i 0 - rowSum (fun j => decide (j < i)) (A.getD i []) x1
          - rowSum (fun j => decide (i < j)) (A.getD i []) x) ∧
      ∀ y : Vec, y.length = A.length →
        (∀ i < A.length, entry A i i * y.getD i 0 =
          b.getD i 0 - rowSum (fun j => decide (j < i)) (A.getD i []) y
            - rowSum (fun j => decide (i < j)) (A.getD i []) x) →
        y = x1 := by
  obtain ⟨x1, d1, h1, h2, _, h4⟩ := gs_forward_solution hA hD false compDef x d b hx hd hb
  have h5 : ∀ i < A.length, entry A i i * x1.getD i 0 =
      b.getD i 0 - rowSum (fun j => decide (j < i)) (A.getD i []) x1
        - rowSum (fun j => decide (i < j)) (A.getD i []) x := by
    intro i hi
    have := h4 i hi
    simpa [gsUpper] using this
  refine ⟨x1, d1, h1, h2, h5, ?_⟩
  intro y hy ey
  apply lower_system_unique hD
    (fun i => b.getD i 0 - rowSum (fun j => decide (i < j)) (A.getD i []) x) y x1 hy h2
  · intro k hk
    rw [ey k hk]; ring
  · intro k hk
    rw [h5 k hk]; ring

/-- Witness for C4: the tridiagonal matrix with `x = [1, 2, 3]`. -/
theorem c4_forward_gauss_seidel_reference_witness :
    (WellFormed tridiag3 ∧ NonzeroDiag tridiag3) ∧
    ∃ x1 d1, GaussSeidelStepWithDefect.forward_apply tridiag3 [1, 2, 3] [0, 0, 0] [1, 2, 3]
        false true = some (x1, d1) ∧
      x1.length = tridiag3.length ∧
      (∀ i < tridiag3.length, entry tridiag3 i i * x1.getD i 0 =
        ([1, 2, 3] : Vec).getD i 0 - rowSum (fun j => decide (j < i)) (tridiag3.getD i []) x1
          - rowSum (fun j => decide (i < j)) (tridiag3.getD i []) [1, 2, 3]) ∧
      ∀ y : Vec, y.length = tridiag3.length →
        (∀ i < tridiag3.length, entry tridiag3 i i * y.getD i 0 =
          ([1, 2, 3] : Vec).getD i 0 - rowSum (fun j => decide (j < i)) (tridiag3.getD i []) y
            - rowSum (fun j => decide (i < j)) (tridiag3.getD i []) [1, 2, 3]) →
        y = x1 :=
  ⟨⟨by decide, by decide⟩,
    c4_forward_gauss_seidel_reference tridiag3 [1, 2, 3] [0, 0, 0] [1, 2, 3] true (by decide)
      (by decide) rfl rfl rfl⟩

/-- C5: on a well-formed matrix with nonzero diagonal, the backward
    Gauss-Seidel kernel returns, and the returned `x` is the unique vector of
    length `n` with, for every row `i`,
    `a_ii * x_i = b_i - (sum over stored j > i of a_ij * x_j)
      - (sum over stored j < i of a_ij * xold_j)`,
    that is `(D + U) x = b - L xold`; a forward sweep with `first = false` run
    on that result returns `x2` with `(D + L) x2 = b - U x`, the symmetric
    Gauss-Seidel composite. -/
theorem c5_backward_gauss_seidel_reference (A : Matrix) (x d b : Vec) (compDef : Bool)
    (hA : WellFormed A) (hD : NonzeroDiag A)
    (hx : x.length = A.length) (hd : d.length = A.length) (hb : b.length = A.length) :
    ∃ x1 d1, GaussSeidelStepWithDefect.backward_apply A x d b = some (x1, d1) ∧
      x1.length = A.length ∧
      (∀ i < A.length, entry A i i * x1.getD i 0 =
        b.getD i 0 - rowSum (fun j => decide (i < j)) (A.getD i []) x1
          - rowSum (fun j => decide (j < i)) (A.getD i []) x) ∧
      (∀ y : Vec, y.length = A.length →
        (∀ i < A.length, entry A i i * y.getD i 0 =
          b.getD i 0 - rowSum (fun j => decide (i < j)) (A.getD i []) y
            - rowSum (fun j => decide (j < i)) (A.getD i []) x) →
        y = x1) ∧
      ∃ x2 d2, GaussSeidelStepWithDefect.forward_apply A x1 d1 b false compDef
          = some (x2, d2) ∧
        ∀ i < A.length, entry A i i * x2.getD i 0 =
          b.getD i 0 - rowSum (fun j => decide (j < i)) (A.getD i []) x2
            - rowSum (fun j => decide (i < j)) (A.getD i []) x1 := by
  obtain ⟨x1, d1, h1, h2, h3, h4⟩ := gs_backward_solution hA hD x d b hx hd hb
  obtain ⟨x2, d2, g1, _, _, g4⟩ := gs_forward_solution hA hD false compDef x1 d1 b h2 h3 hb
  refine ⟨x1, d1, h1, h2, h4, ?_, x2, d2, g1, ?_⟩
  · intro y hy ey
    apply upper_system_unique hD hA
      (fun i => b.getD i 0 - rowSum (fun j => decide (j < i)) (A.getD i []) x) y x1 hy h2
    · intro k hk
      rw [ey k hk]; ring
    · intro k hk
      rw [h4 k hk]; ring
  · intro i hi
    have := g4 i hi
    simpa [gsUpper] using this

/-- Witness for C5: the tridiagonal matrix with `x = [1, 2, 3]`. -/
theorem c5_backward_gauss_seidel_reference_witness :
    (WellFormed tridiag3 ∧ NonzeroDiag tridiag3) ∧
    ∃ x1 d1, GaussSeidelStepWithDefect.backward_apply tridiag3 [1, 2, 3] [0, 0, 0] [1, 2, 3]
        = some (x1, d1) ∧
      x1.length = tridiag3.length ∧
      (∀ i < tridiag3.length, entry tridiag3 i i * x1.getD i 0 =
        ([1, 2, 3] : Vec).getD i 0 - rowSum (fun j => decide (i < j)) (tridiag3.getD i []) x1
          - rowSum (fun j => decide (j < i)) (tridiag3.getD i []) [1, 2, 3]) ∧
      (∀ y : Vec, y.length = tridiag3.length →
        (∀ i < tridiag3.length, entry tridiag3 i i * y.getD i 0 =
          ([1, 2, 3] : Vec).getD i 0 - rowSum (fun j => decide (i < j)) (tridiag3.getD i []) y
            - rowSum (fun j => decide (j < i)) (tridiag3.getD i []) [1, 2, 3]) →
        y = x1) ∧
      ∃ x2 d2, GaussSeidelStepWithDefect.forward_apply tridiag3 x1 d1 [1, 2, 3] false false
          = some (x2, d2) ∧
        ∀ i < tridiag3.length, entry tridiag3 i i * x2.getD i 0 =
          ([1, 2, 3] : Vec).getD i 0 - rowSum (fun j => decide (j < i)) (tridiag3.getD i []) x2
            - rowSum (fun j => decide (i < j)) (tridiag3.getD i []) x1 :=
  ⟨⟨by decide, by decide⟩,
    c5_backward_gauss_seidel_reference tridiag3 [1, 2, 3] [0, 0, 0] [1, 2, 3] false (by decide)
      (by decide) rfl rfl rfl⟩

/-- C6: on a well-formed matrix with nonzero diagonal, the forward Jacobi
    kernel (for every value of `first` and `compDef`) and the backward Jacobi
    kernel both return, and both return in `x` the reference sweep
    `x_i = (b_i - sum over stored j != i of a_ij * xold_j) / a_ii`, which reads
    only the snapshot; so the two directions return the same `x`. -/
theorem c6_jacobi_snapshot_isolation (A : Matrix) (x d b : Vec)
    (hA : WellFormed A) (_hD : NonzeroDiag A)
    (hx : x.length = A.length) (hd : d.length = A.length) (hb : b.length = A.length) :
    (∀ first compDef : Bool, ∃ d1,
      JacobiStepWithDefect.forward_apply A x d b first compDef
        = some (jacobiReference A x b, d1)) ∧
    ∃ d2, JacobiStepWithDefect.backward_apply A x d b = some (jacobiReference A x b, d2) := by
  refine ⟨fun first compDef => ?_, d, jacobi_backward_result hA x d b hx hb⟩
  obtain ⟨d1, h1, _⟩ := jacobi_forward_result hA first compDef x d b hx hd hb
  exact ⟨d1, h1⟩

/-- Witness for C6: the tridiagonal matrix with `x = [1, 2, 3]`. -/
theorem c6_jacobi_snapshot_isolation_witness :
    (WellFormed tridiag3 ∧ NonzeroDiag tridiag3) ∧
    (∀ first compDef : Bool, ∃ d1,
      JacobiStepWithDefect.forward_apply tridiag3 [1, 2, 3] [0, 0, 0] [1, 2, 3] first compDef
        = some (jacobiReference tridiag3 [1, 2, 3] [1, 2, 3], d1)) ∧
    ∃ d2, JacobiStepWithDefect.backward_apply tridiag3 [1, 2, 3] [0, 0, 0] [1, 2, 3]
      = some (jacobiReference tridiag3 [1, 2, 3] [1, 2, 3], d2) :=
  ⟨⟨by decide, by decide⟩,
    c6_jacobi_snapshot_isolation tridiag3 [1, 2, 3] [0, 0, 0] [1, 2, 3] (by decide) (by decide)
      rfl rfl rfl⟩

/-- C7: on a well-formed matrix (sorted rows with a diagonal entry), for every
    `b`, every initial `d` and either `compDef`, when the incoming `x` is the
    zero vector the forward Gauss-Seidel kernel returns with `first = true`
    exactly the `(x, d)` it returns with `first = false`. -/
theorem c7_first_iteration_equivalence (A : Matrix) (d b : Vec) (compDef : Bool)
    (hA : WellFormed A) (hd : d.length = A.length) (hb : b.length = A.length) :
    ∃ s, GaussSeidelStepWithDefect.forward_apply A (List.replicate A.length 0) d b true compDef
        = some s ∧
      GaussSeidelStepWithDefect.forward_apply A (List.replicate A.length 0) d b false compDef
        = some s := by
  have hx : (List.replicate A.length (0 : ℚ)).length = A.length := by simp
  obtain ⟨s, hs⟩ := gs_forward_defined hA false compDef _ d b hx hd hb
  refine ⟨s, ?_, hs⟩
  rw [gs_forward_first_zero hA compDef _ d b hx hd hb (fun k => getD_replicate_zero _ k)]
  exact hs

/-- Witness for C7: the tridiagonal matrix with `b = [1, 2, 3]`. -/
theorem c7_first_iteration_equivalence_witness :
    WellFormed tridiag3 ∧
    ∃ s, GaussSeidelStepWithDefect.forward_apply tridiag3
          (List.replicate tridiag3.length 0) [5, 6, 7] [1, 2, 3] true true = some s ∧
      GaussSeidelStepWithDefect.forward_apply tridiag3
          (List.replicate tridiag3.length 0) [5, 6, 7] [1, 2, 3] false true = some s :=
  ⟨by decide, c7_first_iteration_equivalence tridiag3 [5, 6, 7] [1, 2, 3] true (by decide)
    rfl rfl⟩

/-- C8 (counterexample): `x = [1, 1]` solves `[[2,1],[1,2]] x = [3, 3]` exactly,
    yet the forward Gauss-Seidel kernel with `first = true` returns
    `x = [3/2, 3/4]`. -/
theorem c8_first_sweep_moves_exact_solution :
    WellFormed sym2 ∧ NonzeroDiag sym2 ∧ matVec sym2 [1, 1] = [3, 3] ∧
    GaussSeidelStepWithDefect.forward_apply sym2 [1, 1] [0, 0] [3, 3] true false
      = some ([3 / 2, 3 / 4], [3, 3 / 2]) ∧
    ([3 / 2, 3 / 4] : Vec) ≠ [1, 1] := by
  refine ⟨by decide, by decide, ?_, ?_, ?_⟩
  · norm_num [matVec, rowDot, sym2, List.getElem_cons]
  · norm_num [GaussSeidelStepWithDefect.forward_apply, sym2, forwardOrder, List.enum,
      List.enumFrom, sweepRows, gsForwardRow, triangularLoop, restLoop, defectLoop, mmv, umv,
      solve, List.getElem_cons]
  · norm_num

/-- C8 (amended): on a well-formed matrix with nonzero diagonal, if the incoming
    `x` satisfies `A x = b` exactly, then the forward Gauss-Seidel kernel with
    `first = false` (either `compDef`), the backward Gauss-Seidel kernel, the
    forward Jacobi kernel (all flag values) and the backward Jacobi kernel all
    return, with `x` unchanged. -/
theorem c8_exact_solution_unchanged (A : Matrix) (x d b : Vec)
    (hA : WellFormed A) (hD : NonzeroDiag A)
    (hx : x.length = A.length) (hd : d.length = A.length) (h : matVec A x = b) :
    (∀ compDef : Bool, ∃ d1,
      GaussSeidelStepWithDefect.forward_apply A x d b false compDef = some (x, d1)) ∧
    (∃ d1, GaussSeidelStepWithDefect.backward_apply A x d b = some (x, d1)) ∧
    (∀ first compDef : Bool, ∃ d1,
      JacobiStepWithDefect.forward_apply A x d b first compDef = some (x, d1)) ∧
    (∃ d1, JacobiStepWithDefect.backward_apply A x d b = some (x, d1)) := by
  have hb : b.length = A.length := by rw [← h]; simp [matVec]
  refine ⟨fun c => gs_forward_fixed hA hD c x d b hx hd hb h,
    gs_backward_fixed hA hD x d b hx hd hb h, fun first c => ?_, d, ?_⟩
  · obtain ⟨d1, h1, _⟩ := jacobi_forward_result hA first c x d b hx hd hb
    rw [jacobiReference_fixed hA hD x b hx h] at h1
    exact ⟨d1, h1⟩
  · have h1 := jacobi_backward_result hA x d b hx hb
    rwa [jacobiReference_fixed hA hD x b hx h] at h1

/-- Witness for C8 (amended): `x = [1, 1]` solves `[[2,1],[1,2]] x = [3, 3]`. -/
theorem c8_exact_solution_unchanged_witness :
    (WellFormed sym2 ∧ NonzeroDiag sym2 ∧ matVec sym2 [1, 1] = [3, 3]) ∧
    (∀ compDef : Bool, ∃ d1,
      GaussSeidelStepWithDefect.forward_apply sym2 [1, 1] [0, 0] [3, 3] false compDef
        = some ([1, 1], d1)) ∧
    (∃ d1, GaussSeidelStepWithDefect.backward_apply sym2 [1, 1] [0, 0] [3, 3]
      = some ([1, 1], d1)) ∧
    (∀ first compDef : Bool, ∃ d1,
      JacobiStepWithDefect.forward_apply sym2 [1, 1] [0, 0] [3, 3] first compDef
        = some ([1, 1], d1)) ∧
    (∃ d1, JacobiStepWithDefect.backward_apply sym2 [1, 1] [0, 0] [3, 3]
      = some ([1, 1], d1)) :=
  have hm : matVec sym2 [1, 1] = [3, 3] := by
    norm_num [matVec, rowDot, sym2, List.getElem_cons]
  ⟨⟨by decide, by decide, hm⟩,
    c8_exact_solution_unchanged sym2 [1, 1] [0, 0] [3, 3] (by decide) (by decide) rfl rfl hm⟩

/-- C9 (counterexample): with `A x = b` exactly, the forward Gauss-Seidel kernel
    with `compDef = true` returns a nonzero `d` on the non-symmetric matrix
    `[[1,0],[1,1]]` (with `first = false`: `d = [-1, 0]`), and on the symmetric
    matrix `[[2,1],[1,2]]` when `first = true` (`d = [-3/4, 0]`). -/
theorem c9_defect_not_zero :
    (WellFormed lower2 ∧ NonzeroDiag lower2 ∧ matVec lower2 [1, 1] = [1, 2] ∧
      GaussSeidelStepWithDefect.forward_apply lower2 [1, 1] [0, 0] [1, 2] false true
        = some ([1, 1], [-1, 0]) ∧ ([-1, 0] : Vec) ≠ [0, 0]) ∧
    (WellFormed sym2 ∧ NonzeroDiag sym2 ∧ IsSymmetric sym2 ∧ matVec sym2 [1, 1] = [3, 3] ∧
      GaussSeidelStepWithDefect.forward_apply sym2 [1, 1] [0, 0] [3, 3] true true
        = some ([3 / 2, 3 / 4], [-3 / 4, 0]) ∧ ([-3 / 4, 0] : Vec) ≠ [0, 0]) := by
  refine ⟨⟨by decide, by decide, ?_, ?_, by decide⟩,
    ⟨by decide, by decide, by decide, ?_, ?_, ?_⟩⟩
  · norm_num [matVec, rowDot, lower2, List.getElem_cons]
  · norm_num [GaussSeidelStepWithDefect.forward_apply, lower2, forwardOrder, List.enum,
      List.enumFrom, sweepRows, gsForwardRow, triangularLoop, restLoop, defectLoop, mmv, umv,
      solve, List.getElem_cons]
  · norm_num [matVec, rowDot, sym2, List.getElem_cons]
  · norm_num [GaussSeidelStepWithDefect.forward_apply, sym2, forwardOrder, List.enum,
      List.enumFrom, sweepRows, gsForwardRow, triangularLoop, restLoop, defectLoop, mmv, umv,
      solve, List.getElem_cons]
  · norm_num

/-- C9 (amended): on a well-formed matrix with nonzero diagonal, if the incoming
    `x` satisfies `A x = b` exactly, then the forward Jacobi kernel with
    `compDef = true` (either `first`) returns `x` unchanged and the zero vector
    in `d`, and so does the forward Gauss-Seidel kernel with `first = false`,
    `compDef = true` when the matrix is symmetric. -/
theorem c9_exact_solution_zero_defect (A : Matrix) (x d b : Vec)
    (hA : WellFormed A) (hD : NonzeroDiag A)
    (hx : x.length = A.length) (hd : d.length = A.length) (h : matVec A x = b) :
    (IsSymmetric A →
      GaussSeidelStepWithDefect.forward_apply A x d b false true
        = some (x, List.replicate A.length 0)) ∧
    (∀ first : Bool, JacobiStepWithDefect.forward_apply A x d b first true
        = some (x, List.replicate A.length 0)) := by
  have hb : b.length = A.length := by rw [← h]; simp [matVec]
  constructor
  · intro hS
    obtain ⟨x1, d1, h1, _, h3⟩ := gs_forward_defect_symmetric hA hD hS false x d b hx hd hb
    obtain ⟨d2, h4⟩ := gs_forward_fixed hA hD true x d b hx hd hb h
    rw [h1] at h4
    cases h4
    rw [h1, h3, residual_fixed A x b h]
  · intro first
    obtain ⟨d1, h1, h2, h3⟩ := jacobi_forward_result hA first true x d b hx hd hb
    rw [jacobiReference_fixed hA hD x b hx h] at h1 h3
    have hd1 : d1 = List.replicate A.length 0 := by
      apply vec_ext _ _ (by rw [h2]; simp)
      intro k hk
      rw [h2] at hk
      rw [h3 rfl k hk, getD_replicate_zero, ← h, matVec_getD A x hk, wf_rowDot hA hk,
        wf_rowSum_le hA hk]
      ring
    rw [h1, hd1]

/-- Witness for C9 (amended): `x = [1, 1]` solves `[[2,1],[1,2]] x = [3, 3]`. -/
theorem c9_exact_solution_zero_defect_witness :
    (WellFormed sym2 ∧ NonzeroDiag sym2 ∧ matVec sym2 [1, 1] = [3, 3]) ∧
    (IsSymmetric sym2 →
      GaussSeidelStepWithDefect.forward_apply sym2 [1, 1] [4, 5] [3, 3] false true
        = some ([1, 1], List.replicate sym2.length 0)) ∧
    (∀ first : Bool, JacobiStepWithDefect.forward_apply sym2 [1, 1] [4, 5] [3, 3] first true
        = some ([1, 1], List.replicate sym2.length 0)) :=
  have hm : matVec sym2 [1, 1] = [3, 3] := by
    norm_num [matVec, rowDot, sym2, List.getElem_cons]
  ⟨⟨by decide, by decide, hm⟩,
    c9_exact_solution_zero_defect sym2 [1, 1] [4, 5] [3, 3] (by decide) (by decide) rfl rfl hm⟩

/-- C10: for every sweep count `num_iter >= 1` and all `A`, `x`, `d`, `b`, the
    Gauss-Seidel and the Jacobi pre-smoothing drivers each return what calling
    the family's forward kernel by hand returns, once per documented flag
    pair in sequence: `(true, true)` for one sweep; otherwise `(true, false)`
    once, `(false, false)` for the `num_iter - 2` interior sweeps, and
    `(false, true)` last; that sequence has exactly `num_iter` calls. -/
theorem c10_presmooth_sweep_count (A : Matrix) (x d b : Vec) (num_iter : Int)
    (hk : 1 ≤ num_iter) :
    GaussSeidelPresmoothDefect.apply A x d b num_iter
      = runKernel (fun x1 d1 first compDef =>
          GaussSeidelStepWithDefect.forward_apply A x1 d1 b first compDef)
        (presmoothFlags num_iter.toNat) (x, d) ∧
    JacobiPresmoothDefect.apply A x d b num_iter
      = runKernel (fun x1 d1 first compDef =>
          JacobiStepWithDefect.forward_apply A x1 d1 b first compDef)
        (presmoothFlags num_iter.toNat) (x, d) ∧
    ((presmoothFlags num_iter.toNat).length : Int) = num_iter := by
  refine ⟨?_, ?_, ?_⟩
  · by_cases h1 : num_iter = 1
    · subst h1
      simp only [GaussSeidelPresmoothDefect.apply, if_true, presmoothFlags, Int.toNat_one]
      rw [runKernel_singleton]
    · have h2 : num_iter.toNat ≠ 1 := by omega
      have h3 : (intSub num_iter 2).toNat = num_iter.toNat - 2 := by
        unfold intSub; split <;> omega
      simp only [GaussSeidelPresmoothDefect.apply, h1, if_false, presmoothFlags, h2, runKernel,
        h3]
      cases GaussSeidelStepWithDefect.forward_apply A x d b true false with
      | none => rfl
      | some s1 =>
        simp only []
        rw [runKernel_replicate]
        cases repeatSweep (fun t => GaussSeidelStepWithDefect.forward_apply A t.1 t.2 b false false)
            (num_iter.toNat - 2) s1 with
        | none => rfl
        | some s2 => simp only []; rw [runKernel_singleton]
  · by_cases h1 : num_iter = 1
    · subst h1
      simp only [JacobiPresmoothDefect.apply, presmoothFlags, Int.toNat_one, if_true]
      rw [runKernel_singleton]
      rfl
    · have h2 : num_iter.toNat ≠ 1 := by omega
      have h3 : (intSub num_iter 1).toNat = (num_iter.toNat - 2) + 1 := by
        unfold intSub; split <;> omega
      simp only [JacobiPresmoothDefect.apply, presmoothFlags, h2, if_false, runKernel, h3,
        repeatSweep]
      have hf : JacobiStepWithDefect.forward_apply A x d b true false
          = JacobiStepWithDefect.forward_apply A x d b false false := rfl
      rw [hf]
      cases JacobiStepWithDefect.forward_apply A x d b false false with
      | none => rfl
      | some s1 =>
        simp only []
        rw [runKernel_replicate]
        cases repeatSweep (fun t => JacobiStepWithDefect.forward_apply A t.1 t.2 b false false)
            (num_iter.toNat - 2) s1 with
        | none => rfl
        | some s2 => simp only []; rw [runKernel_singleton]
  · rw [presmoothFlags_length _ (by omega)]
    omega

/-- Witness for C10: five sweeps on the tridiagonal matrix. -/
theorem c10_presmooth_sweep_count_witness :
    (1 : Int) ≤ 5 ∧
    GaussSeidelPresmoothDefect.apply tridiag3 [0, 0, 0] [0, 0, 0] [1, 2, 3] 5
      = runKernel (fun x1 d1 first compDef =>
          GaussSeidelStepWithDefect.forward_apply tridiag3 x1 d1 [1, 2, 3] first compDef)
        (presmoothFlags (5 : Int).toNat) ([0, 0, 0], [0, 0, 0]) ∧
    JacobiPresmoothDefect.apply tridiag3 [0, 0, 0] [0, 0, 0] [1, 2, 3] 5
      = runKernel (fun x1 d1 first compDef =>
          JacobiStepWithDefect.forward_apply tridiag3 x1 d1 [1, 2, 3] first compDef)
        (presmoothFlags (5 : Int).toNat) ([0, 0, 0], [0, 0, 0]) ∧
    ((presmoothFlags (5 : Int).toNat).length : Int) = 5 :=
  ⟨by decide, c10_presmooth_sweep_count tridiag3 [0, 0, 0] [0, 0, 0] [1, 2, 3] 5 (by decide)⟩

/-! ## Two sweeps run side by side -/

theorem OptRel_eq {o1 o2 : Option State} (h : OptRel (fun s t => s = t) o1 o2) : o1 = o2 := by
  cases o1 <;> cases o2 <;> simp_all [OptRel]

theorem OptRel_mono {R Q : State → State → Prop} (h : ∀ s t, R s t → Q s t)
    {o1 o2 : Option State} (hr : OptRel R o1 o2) : OptRel Q o1 o2 := by
  cases o1 <;> cases o2 <;> simp_all [OptRel]

theorem sweepRows_enumFrom_rel (step1 step2 : Nat → Row → State → Option State)
    (R : Nat → State → State → Prop) :
    ∀ (rows : List Row) (i : Nat) (s t : State), R i s t →
      (∀ k (hk : k < rows.length) (s t : State), R (i + k) s t →
        OptRel (R (i + k + 1)) (step1 (i + k) rows[k] s) (step2 (i + k) rows[k] t)) →
      OptRel (R (i + rows.length)) (sweepRows step1 (rows.enumFrom i) s)
        (sweepRows step2 (rows.enumFrom i) t) := by
  intro rows
  induction rows with
  | nil => intro i s t h _; exact h
  | cons r rows ih =>
    intro i s t h hstep
    have h1 := hstep 0 (by simp) s t h
    simp only [Nat.add_zero, List.getElem_cons_zero] at h1
    simp only [List.enumFrom_cons, sweepRows]
    cases hs : step1 i r s with
    | none =>
      cases ht : step2 i r t with
      | none => trivial
      | some t1 => rw [hs, ht] at h1; exact h1.elim
    | some s1 =>
      cases ht : step2 i r t with
      | none => rw [hs, ht] at h1; exact h1.elim
      | some t1 =>
        rw [hs, ht] at h1
        simp only []
        rw [List.length_cons, show i + (rows.length + 1) = i + 1 + rows.length by omega]
        apply ih (i + 1) s1 t1 h1
        intro k hk u v huv
        have := hstep (k + 1) (by simpa using hk) u v
          (by rwa [show i + (k + 1) = i + 1 + k by omega])
        rw [show i + 1 + k = i + (k + 1) by omega]
        simpa using this

/-- Relational rule for two forward sweeps over the same matrix. -/
theorem sweepRows_forward_rel (step1 step2 : Nat → Row → State → Option State)
    (R : Nat → State → State → Prop) (A : Matrix) (s t : State) (h0 : R 0 s t)
    (hstep : ∀ i, i < A.length → ∀ (s t : State), R i s t →
      OptRel (R (i + 1)) (step1 i (A.getD i []) s) (step2 i (A.getD i []) t)) :
    OptRel (R A.length) (sweepRows step1 (forwardOrder A) s)
      (sweepRows step2 (forwardOrder A) t) := by
  have := sweepRows_enumFrom_rel step1 step2 R A 0 s t h0 (fun k hk u v huv => by
    have h := hstep k hk u v (by simpa using huv)
    rw [List.getD_eq_getElem _ _ hk] at h
    simpa using h)
  simpa [forwardOrder, List.enum_eq_enumFrom] using this

/-- Relational rule for two backward sweeps over the same matrix. -/
theorem sweepRows_backward_rel (step1 step2 : Nat → Row → State → Option State)
    (R : Nat → State → State → Prop) :
    ∀ (A : Matrix) (s t : State), R A.length s t →
      (∀ i, i < A.length → ∀ (s t : State), R (i + 1) s t →
        OptRel (R i) (step1 i (A.getD i []) s) (step2 i (A.getD i []) t)) →
      OptRel (R 0) (sweepRows step1 (backwardOrder A) s)
        (sweepRows step2 (backwardOrder A) t) := by
  intro A
  induction A using List.reverseRecOn with
  | nil => intro s t h _; exact h
  | append_singleton A r ih =>
    intro s t h hstep
    have h1 := hstep A.length (by simp) s t (by simpa using h)
    rw [List.getD_eq_getElem _ _ (by simp)] at h1
    simp only [List.getElem_concat_length] at h1
    simp only [backwardOrder, List.enum_append, List.enumFrom_singleton, List.reverse_append,
      List.reverse_cons, List.reverse_nil, List.nil_append, List.singleton_append, sweepRows]
    cases hs : step1 A.length r s with
    | none =>
      cases ht : step2 A.length r t with
      | none => trivial
      | some t1 => rw [hs, ht] at h1; exact h1.elim
    | some s1 =>
      cases ht : step2 A.length r t with
      | none => rw [hs, ht] at h1; exact h1.elim
      | some t1 =>
        rw [hs, ht] at h1
        simp only []
        apply ih s1 t1 h1
        intro i hi u v huv
        have := hstep i (by simp; omega) u v huv
        rw [List.getD_eq_getElem _ _ (by simp; omega), List.getElem_append_left hi] at this
        rwa [List.getD_eq_getElem _ _ hi]

/-! ## Counted loops -/

theorem iterate_bind_none (f : State → Option State) (k : Nat) :
    Nat.iterate (fun o => o.bind f) k none = none := by
  induction k with
  | zero => rfl
  | succ k ih => rw [Function.iterate_succ_apply]; exact ih

theorem repeatSweep_eq_applyTimes (f : State → Option State) :
    ∀ (k : Nat) (s : State), repeatSweep f k s = applyTimes f k s := by
  intro k
  induction k with
  | zero => intro s; rfl
  | succ k ih =>
    intro s
    simp only [repeatSweep, applyTimes, Function.iterate_succ_apply, Option.some_bind]
    cases hf : f s with
    | none => simp only []; rw [iterate_bind_none]
    | some s1 => simp only []; rw [ih s1]; rfl

/-- C11: for every integer `num_iter`, the Gauss-Seidel and the Jacobi
    post-smoothing drivers return the result of applying the family's backward
    kernel `max(num_iter, 0)` times in sequence; for `num_iter <= 0` both `x`
    and `d` are returned unchanged. -/
theorem c11_postsmooth_sweep_count (A : Matrix) (x d b : Vec) (num_iter : Int) :
    GaussSeidelPostsmoothDefect.apply A x d b num_iter
      = applyTimes (fun s => GaussSeidelStepWithDefect.backward_apply A s.1 s.2 b)
          (max num_iter 0).toNat (x, d) ∧
    JacobiPostsmoothDefect.apply A x d b num_iter
      = applyTimes (fun s => JacobiStepWithDefect.backward_apply A s.1 s.2 b)
          (max num_iter 0).toNat (x, d) ∧
    (num_iter ≤ 0 →
      GaussSeidelPostsmoothDefect.apply A x d b num_iter = some (x, d) ∧
      JacobiPostsmoothDefect.apply A x d b num_iter = some (x, d)) := by
  have hm : (max num_iter 0).toNat = num_iter.toNat := by
    rcases le_total num_iter 0 with h | h
    · rw [max_eq_right h]; omega
    · rw [max_eq_left h]
  refine ⟨?_, ?_, ?_⟩
  · rw [hm, GaussSeidelPostsmoothDefect.apply, repeatSweep_eq_applyTimes]
  · rw [hm, JacobiPostsmoothDefect.apply, repeatSweep_eq_applyTimes]
  · intro h
    have h0 : num_iter.toNat = 0 := by omega
    simp only [GaussSeidelPostsmoothDefect.apply, JacobiPostsmoothDefect.apply, h0, repeatSweep,
      and_self]

/-- Witness for C11: the sweep count `-3` on the tridiagonal matrix. -/
theorem c11_postsmooth_sweep_count_witness :
    (-3 : Int) ≤ 0 ∧
    GaussSeidelPostsmoothDefect.apply tridiag3 [1, 2, 3] [4, 5, 6] [1, 2, 3] (-3)
      = some ([1, 2, 3], [4, 5, 6]) ∧
    JacobiPostsmoothDefect.apply tridiag3 [1, 2, 3] [4, 5, 6] [1, 2, 3] (-3)
      = some ([1, 2, 3], [4, 5, 6]) :=
  ⟨by decide,
    (c11_postsmooth_sweep_count tridiag3 [1, 2, 3] [4, 5, 6] [1, 2, 3] (-3)).2.2 (by decide)⟩

theorem intSub_of_ge (a k : Int) (h : -2147483648 ≤ a - k) : intSub a k = a - k := by
  unfold intSub; split <;> omega

theorem intSub_of_lt (a k : Int) (h : a - k < -2147483648) :
    intSub a k = a - k + 4294967296 := by
  unfold intSub; split <;> omega

/-- On the range of `int`, and for a constant `0 <= k <= 2^31`, `intSub` is the
    difference reduced modulo `2^32` into `[-2^31, 2^31)`. -/
theorem intSub_eq_mod (a k : Int) (h1 : -2147483648 ≤ a) (h2 : a < 2147483648)
    (h3 : 0 ≤ k) (h4 : k ≤ 2147483648) :
    intSub a k = (a - k + 2147483648) % 4294967296 - 2147483648 := by
  unfold intSub; split <;> omega

theorem repeatSweep_step (f : State → Option State) (k : Nat) {s s1 : State}
    (h : f s = some s1) : repeatSweep f (k + 1) s = repeatSweep f k s1 := by
  simp only [repeatSweep, h]

theorem repeatSweep_fixed (f : State → Option State) {s : State} (h : f s = some s) :
    ∀ k : Nat, repeatSweep f k s = some s := by
  intro k
  induction k with
  | zero => rfl
  | succ k ih => rw [repeatSweep_step f k h, ih]

theorem gs_presmooth_of_two_sweeps (A : Matrix) (x d b : Vec) (num_iter : Int)
    (h1 : num_iter ≠ 1) (h2 : num_iter ≤ 2) (h3 : -2147483646 ≤ num_iter) :
    GaussSeidelPresmoothDefect.apply A x d b num_iter
      = runKernel (fun x1 d1 first compDef =>
          GaussSeidelStepWithDefect.forward_apply A x1 d1 b first compDef)
        [(true, false), (false, true)] (x, d) := by
  have h0 : (intSub num_iter 2).toNat = 0 := by
    rw [intSub_of_ge _ _ (by omega)]; omega
  simp only [GaussSeidelPresmoothDefect.apply, h1, if_false, h0, repeatSweep, runKernel]
  cases GaussSeidelStepWithDefect.forward_apply A x d b true false with
  | none => rfl
  | some s1 =>
    simp only []
    cases GaussSeidelStepWithDefect.forward_apply A s1.1 s1.2 b false true <;> rfl

theorem jacobi_presmooth_of_one_sweep (A : Matrix) (x d b : Vec) (num_iter : Int)
    (h1 : num_iter ≤ 1) (h2 : -2147483647 ≤ num_iter) :
    JacobiPresmoothDefect.apply A x d b num_iter
      = JacobiStepWithDefect.forward_apply A x d b false true := by
  have h0 : (intSub num_iter 1).toNat = 0 := by
    rw [intSub_of_ge _ _ (by omega)]; omega
  simp only [JacobiPresmoothDefect.apply, h0, repeatSweep]

theorem gs_presmooth_unfold (A : Matrix) (x d b : Vec) (num_iter : Int) (h1 : num_iter ≠ 1)
    {s1 s2 : State}
    (e1 : GaussSeidelStepWithDefect.forward_apply A x d b true false = some s1)
    (e2 : repeatSweep (fun s => GaussSeidelStepWithDefect.forward_apply A s.1 s.2 b false false)
      (intSub num_iter 2).toNat s1 = some s2) :
    GaussSeidelPresmoothDefect.apply A x d b num_iter
      = GaussSeidelStepWithDefect.forward_apply A s2.1 s2.2 b false true := by
  simp only [GaussSeidelPresmoothDefect.apply, h1, if_false, e1, e2]

theorem jacobi_presmooth_unfold (A : Matrix) (x d b : Vec) (num_iter : Int) {s1 : State}
    (e1 : repeatSweep (fun s => JacobiStepWithDefect.forward_apply A s.1 s.2 b false false)
      (intSub num_iter 1).toNat (x, d) = some s1) :
    JacobiPresmoothDefect.apply A x d b num_iter
      = JacobiStepWithDefect.forward_apply A s1.1 s1.2 b false true := by
  simp only [JacobiPresmoothDefect.apply, e1]

/-- C18 (counterexample): at `num_iter = INT_MIN + 1` the bound `num_iter - 2` of
    the interior Gauss-Seidel loop wraps around to `2^31 - 1`, and at
    `num_iter = INT_MIN` the bound `num_iter - 1` of the Jacobi loop does.  On
    the upper bidiagonal matrix `[[1,1,0],[0,1,1],[0,0,1]]` with `x = [0,0,0]`,
    `b = [1,1,1]` the sweeps reach the exact solution `[1,0,1]` after three
    passes and stay there, so the drivers return `x = [1,0,1]`, not the
    `x = [0,0,1]` of two Gauss-Seidel sweeps resp. the `x = [1,1,1]` of one
    Jacobi sweep. -/
theorem c18_loop_bound_wraps_at_int_min :
    (-2147483647 : Int) ≤ 0 ∧
    GaussSeidelPresmoothDefect.apply chain3 [0, 0, 0] [0, 0, 0] [1, 1, 1] (-2147483647)
      = some ([1, 0, 1], [0, 1, 0]) ∧
    GaussSeidelPresmoothDefect.apply chain3 [0, 0, 0] [0, 0, 0] [1, 1, 1] 2
      = some ([0, 0, 1], [1, 1, 0]) ∧
    (-2147483648 : Int) ≤ 0 ∧
    GaussSeidelPresmoothDefect.apply chain3 [0, 0, 0] [0, 0, 0] [1, 1, 1] (-2147483648)
      = some ([1, 0, 1], [0, 1, 0]) ∧
    JacobiPresmoothDefect.apply chain3 [0, 0, 0] [0, 0, 0] [1, 1, 1] (-2147483648)
      = some ([1, 0, 1], [0, 0, 0]) ∧
    JacobiPresmoothDefect.apply chain3 [0, 0, 0] [0, 0, 0] [1, 1, 1] 1
      = some ([1, 1, 1], [0, 0, 0]) ∧
    ([1, 0, 1] : Vec) ≠ [0, 0, 1] ∧ ([1, 0, 1] : Vec) ≠ [1, 1, 1] := by
  have g1 : GaussSeidelStepWithDefect.forward_apply chain3 [0, 0, 0] [0, 0, 0] [1, 1, 1]
      true false = some ([1, 1, 1], [1, 1, 1]) := by
    norm_num [GaussSeidelStepWithDefect.forward_apply, chain3, forwardOrder, List.enum,
      List.enumFrom, sweepRows, gsForwardRow, triangularLoop, restLoop, defectLoop, mmv, umv,
      solve, List.getElem_cons]
  have g2 : (fun s : State => GaussSeidelStepWithDefect.forward_apply chain3 s.1 s.2 [1, 1, 1]
      false false) ([1, 1, 1], [1, 1, 1]) = some ([0, 0, 1], [0, 0, 1]) := by
    norm_num [GaussSeidelStepWithDefect.forward_apply, chain3, forwardOrder, List.enum,
      List.enumFrom, sweepRows, gsForwardRow, triangularLoop, restLoop, defectLoop, mmv, umv,
      solve, List.getElem_cons]
  have g3 : (fun s : State => GaussSeidelStepWithDefect.forward_apply chain3 s.1 s.2 [1, 1, 1]
      false false) ([0, 0, 1], [0, 0, 1]) = some ([1, 0, 1], [1, 0, 1]) := by
    norm_num [GaussSeidelStepWithDefect.forward_apply, chain3, forwardOrder, List.enum,
      List.enumFrom, sweepRows, gsForwardRow, triangularLoop, restLoop, defectLoop, mmv, umv,
      solve, List.getElem_cons]
  have g4 : (fun s : State => GaussSeidelStepWithDefect.forward_apply chain3 s.1 s.2 [1, 1, 1]
      false false) ([1, 0, 1], [1, 0, 1]) = some ([1, 0, 1], [1, 0, 1]) := by
    norm_num [GaussSeidelStepWithDefect.forward_apply, chain3, forwardOrder, List.enum,
      List.enumFrom, sweepRows, gsForwardRow, triangularLoop, restLoop, defectLoop, mmv, umv,
      solve, List.getElem_cons]
  have g5 : GaussSeidelStepWithDefect.forward_apply chain3 [1, 0, 1] [1, 0, 1] [1, 1, 1]
      false true = some ([1, 0, 1], [0, 1, 0]) := by
    norm_num [GaussSeidelStepWithDefect.forward_apply, chain3, forwardOrder, List.enum,
      List.enumFrom, sweepRows, gsForwardRow, triangularLoop, restLoop, defectLoop, mmv, umv,
      solve, List.getElem_cons]
  have g6 : GaussSeidelStepWithDefect.forward_apply chain3 [1, 1, 1] [1, 1, 1] [1, 1, 1]
      false true = some ([0, 0, 1], [1, 1, 0]) := by
    norm_num [GaussSeidelStepWithDefect.forward_apply, chain3, forwardOrder, List.enum,
      List.enumFrom, sweepRows, gsForwardRow, triangularLoop, restLoop, defectLoop, mmv, umv,
      solve, List.getElem_cons]
  have j1 : (fun s : State => JacobiStepWithDefect.forward_apply chain3 s.1 s.2 [1, 1, 1]
      false false) ([0, 0, 0], [0, 0, 0]) = some ([1, 1, 1], [0, 0, 0]) := by
    norm_num [JacobiStepWithDefect.forward_apply, chain3, forwardOrder, List.enum,
      List.enumFrom, sweepRows, jacobiForwardRow, triangularLoop, restLoop, mmv, solve,
      List.getElem_cons]
  have j2 : (fun s : State => JacobiStepWithDefect.forward_apply chain3 s.1 s.2 [1, 1, 1]
      false false) ([1, 1, 1], [0, 0, 0]) = some ([0, 0, 1], [0, 0, 0]) := by
    norm_num [JacobiStepWithDefect.forward_apply, chain3, forwardOrder, List.enum,
      List.enumFrom, sweepRows, jacobiForwardRow, triangularLoop, restLoop, mmv, solve,
      List.getElem_cons]
  have j3 : (fun s : State => JacobiStepWithDefect.forward_apply chain3 s.1 s.2 [1, 1, 1]
      false false) ([0, 0, 1], [0, 0, 0]) = some ([1, 0, 1], [0, 0, 0]) := by
    norm_num [JacobiStepWithDefect.forward_apply, chain3, forwardOrder, List.enum,
      List.enumFrom, sweepRows, jacobiForwardRow, triangularLoop, restLoop, mmv, solve,
      List.getElem_cons]
  have j4 : (fun s : State => JacobiStepWithDefect.forward_apply chain3 s.1 s.2 [1, 1, 1]
      false false) ([1, 0, 1], [0, 0, 0]) = some ([1, 0, 1], [0, 0, 0]) := by
    norm_num [JacobiStepWithDefect.forward_apply, chain3, forwardOrder, List.enum,
      List.enumFrom, sweepRows, jacobiForwardRow, triangularLoop, restLoop, mmv, solve,
      List.getElem_cons]
  have j5 : JacobiStepWithDefect.forward_apply chain3 [1, 0, 1] [0, 0, 0] [1, 1, 1]
      false true = some ([1, 0, 1], [0, 0, 0]) := by
    norm_num [JacobiStepWithDefect.forward_apply, chain3, forwardOrder, List.enum,
      List.enumFrom, sweepRows, jacobiForwardRow, triangularLoop, restLoop, mmv, solve,
      List.getElem_cons]
  have j6 : JacobiStepWithDefect.forward_apply chain3 [0, 0, 0] [0, 0, 0] [1, 1, 1]
      false true = some ([1, 1, 1], [0, 0, 0]) := by
    norm_num [JacobiStepWithDefect.forward_apply, chain3, forwardOrder, List.enum,
      List.enumFrom, sweepRows, jacobiForwardRow, triangularLoop, restLoop, mmv, solve,
      List.getElem_cons]
  have n1 : (intSub (-2147483647) 2).toNat = 2147483645 + 1 + 1 := by
    rw [intSub_of_lt _ _ (by norm_num)]; omega
  have n2 : (intSub (-2147483648) 2).toNat = 2147483644 + 1 + 1 := by
    rw [intSub_of_lt _ _ (by norm_num)]; omega
  have n3 : (intSub (-2147483648) 1).toNat = 2147483644 + 1 + 1 + 1 := by
    rw [intSub_of_lt _ _ (by norm_num)]; omega
  have r1 : repeatSweep (fun s : State =>
      GaussSeidelStepWithDefect.forward_apply chain3 s.1 s.2 [1, 1, 1] false false)
      (intSub (-2147483647) 2).toNat ([1, 1, 1], [1, 1, 1]) = some ([1, 0, 1], [1, 0, 1]) := by
    rw [n1, repeatSweep_step (fun s : State =>
      GaussSeidelStepWithDefect.forward_apply chain3 s.1 s.2 [1, 1, 1] false false) _ g2,
      repeatSweep_step (fun s : State =>
      GaussSeidelStepWithDefect.forward_apply chain3 s.1 s.2 [1, 1, 1] false false) _ g3,
      repeatSweep_fixed (fun s : State =>
      GaussSeidelStepWithDefect.forward_apply chain3 s.1 s.2 [1, 1, 1] false false) g4]
  have r2 : repeatSweep (fun s : State =>
      GaussSeidelStepWithDefect.forward_apply chain3 s.1 s.2 [1, 1, 1] false false)
      (intSub (-2147483648) 2).toNat ([1, 1, 1], [1, 1, 1]) = some ([1, 0, 1], [1, 0, 1]) := by
    rw [n2, repeatSweep_step (fun s : State =>
      GaussSeidelStepWithDefect.forward_apply chain3 s.1 s.2 [1, 1, 1] false false) _ g2,
      repeatSweep_step (fun s : State =>
      GaussSeidelStepWithDefect.forward_apply chain3 s.1 s.2 [1, 1, 1] false false) _ g3,
      repeatSweep_fixed (fun s : State =>
      GaussSeidelStepWithDefect.forward_apply chain3 s.1 s.2 [1, 1, 1] false false) g4]
  have r3 : repeatSweep (fun s : State =>
      JacobiStepWithDefect.forward_apply chain3 s.1 s.2 [1, 1, 1] false false)
      (intSub (-2147483648) 1).toNat ([0, 0, 0], [0, 0, 0]) = some ([1, 0, 1], [0, 0, 0]) := by
    rw [n3, repeatSweep_step (fun s : State =>
      JacobiStepWithDefect.forward_apply chain3 s.1 s.2 [1, 1, 1] false false) _ j1,
      repeatSweep_step (fun s : State =>
      JacobiStepWithDefect.forward_apply chain3 s.1 s.2 [1, 1, 1] false false) _ j2,
      repeatSweep_step (fun s : State =>
      JacobiStepWithDefect.forward_apply chain3 s.1 s.2 [1, 1, 1] false false) _ j3,
      repeatSweep_fixed (fun s : State =>
      JacobiStepWithDefect.forward_apply chain3 s.1 s.2 [1, 1, 1] false false) j4]
  refine ⟨by norm_num, ?_, ?_, by norm_num, ?_, ?_, ?_, by decide, by decide⟩
  · rw [gs_presmooth_unfold chain3 _ _ _ (-2147483647) (by norm_num) g1 r1]
    exact g5
  · rw [gs_presmooth_of_two_sweeps _ _ _ _ 2 (by norm_num) (by norm_num) (by norm_num)]
    simp only [runKernel, g1, g6]
  · rw [gs_presmooth_unfold chain3 _ _ _ (-2147483648) (by norm_num) g1 r2]
    exact g5
  · rw [jacobi_presmooth_unfold chain3 _ _ _ (-2147483648) r3]
    exact j5
  · rw [jacobi_presmooth_of_one_sweep _ _ _ _ 1 (by norm_num) (by norm_num)]
    exact j6

/-- C18 (amended): for every sweep count `num_iter <= 0` down to `INT_MIN + 2`,
    the Gauss-Seidel pre-smoothing driver returns exactly what it returns for
    `num_iter = 2`, namely two forward sweeps with flags `(true, false)` then
    `(false, true)`; for every `num_iter <= 0` down to `INT_MIN + 1`, the
    Jacobi pre-smoothing driver returns exactly what it returns for
    `num_iter = 1`, namely one forward sweep with `compDef = true`; on the
    matrix `[[2,1],[1,2]]` with `x = [0, 0]`, `b = [2, 2]` both drivers change
    `x`. -/
theorem c18_nonpositive_sweep_count_smooths (A : Matrix) (x d b : Vec) (num_iter : Int)
    (h : num_iter ≤ 0) :
    (-2147483646 ≤ num_iter →
      GaussSeidelPresmoothDefect.apply A x d b num_iter
        = GaussSeidelPresmoothDefect.apply A x d b 2 ∧
      GaussSeidelPresmoothDefect.apply A x d b num_iter
        = runKernel (fun x1 d1 first compDef =>
            GaussSeidelStepWithDefect.forward_apply A x1 d1 b first compDef)
          [(true, false), (false, true)] (x, d) ∧
      GaussSeidelPresmoothDefect.apply sym2 [0, 0] [0, 0] [2, 2] num_iter
        = some ([3 / 4, 5 / 8], [-1 / 8, 0]) ∧ ([3 / 4, 5 / 8] : Vec) ≠ [0, 0]) ∧
    (-2147483647 ≤ num_iter →
      JacobiPresmoothDefect.apply A x d b num_iter = JacobiPresmoothDefect.apply A x d b 1 ∧
      JacobiPresmoothDefect.apply A x d b num_iter
        = JacobiStepWithDefect.forward_apply A x d b false true ∧
      JacobiPresmoothDefect.apply sym2 [0, 0] [0, 0] [2, 2] num_iter
        = some ([1, 1], [0, -1]) ∧ ([1, 1] : Vec) ≠ [0, 0]) := by
  have hg := gs_presmooth_of_two_sweeps
  have hj := jacobi_presmooth_of_one_sweep
  constructor
  · intro hlo
    refine ⟨?_, hg A x d b num_iter (by omega) (by omega) hlo, ?_, by norm_num⟩
    · rw [hg A x d b num_iter (by omega) (by omega) hlo,
        hg A x d b 2 (by decide) (by decide) (by decide)]
    · rw [hg _ _ _ _ num_iter (by omega) (by omega) hlo]
      norm_num [runKernel, GaussSeidelStepWithDefect.forward_apply, sym2, forwardOrder,
        List.enum, List.enumFrom, sweepRows, gsForwardRow, triangularLoop, restLoop,
        defectLoop, mmv, umv, solve, List.getElem_cons]
  · intro hlo
    refine ⟨?_, hj A x d b num_iter (by omega) hlo, ?_, by norm_num⟩
    · rw [hj A x d b num_iter (by omega) hlo, hj A x d b 1 (by decide) (by decide)]
    · rw [hj _ _ _ _ num_iter (by omega) hlo]
      norm_num [JacobiStepWithDefect.forward_apply, sym2, forwardOrder, List.enum,
        List.enumFrom, sweepRows, jacobiForwardRow, triangularLoop, restLoop, mmv, solve,
        List.getElem_cons]

/-- Witness for C18 (amended): the sweep count `INT_MIN + 2` on the tridiagonal
    matrix. -/
theorem c18_nonpositive_sweep_count_smooths_witness :
    ((-2147483646 : Int) ≤ 0 ∧ (-2147483646 : Int) ≤ -2147483646 ∧
      (-2147483647 : Int) ≤ -2147483646) ∧
    GaussSeidelPresmoothDefect.apply tridiag3 [1, 1, 1] [0, 0, 0] [1, 2, 3] (-2147483646)
      = GaussSeidelPresmoothDefect.apply tridiag3 [1, 1, 1] [0, 0, 0] [1, 2, 3] 2 ∧
    JacobiPresmoothDefect.apply tridiag3 [1, 1, 1] [0, 0, 0] [1, 2, 3] (-2147483646)
      = JacobiPresmoothDefect.apply tridiag3 [1, 1, 1] [0, 0, 0] [1, 2, 3] 1 :=
  have h := c18_nonpositive_sweep_count_smooths tridiag3 [1, 1, 1] [0, 0, 0] [1, 2, 3]
    (-2147483646) (by decide)
  ⟨⟨by decide, by decide, by decide⟩, (h.1 (by decide)).1, (h.2 (by decide)).1⟩

theorem rowSum_sub (p : Nat → Bool) (l : Row) (x y : Vec) :
    ((l.filter (fun e => p e.1)).map (fun e => e.2 * (x.getD e.1 0 - y.getD e.1 0))).sum
      = rowSum p l x - rowSum p l y := by
  induction l with
  | nil => simp [rowSum]
  | cons e l ih =>
    rw [rowSum_cons, rowSum_cons, ← sub_add_sub_comm, ← ih]
    by_cases h : p e.1 = true
    · simp only [List.filter_cons, h, if_true, List.map_cons, List.sum_cons]; ring
    · simp only [List.filter_cons, h, if_false]
      simp

/-- C13: on a well-formed matrix with nonzero diagonal, the forward Jacobi
    kernel with `compDef = true` returns, and every row `i` of the returned `d`
    is `b_i - (sum over stored j <= i of a_ij * xnew_j)
      - (sum over stored j > i of a_ij * xold_j)`,
    which equals the sum over stored `j < i` of `a_ij * (xold_j - xnew_j)`;
    `xnew` is the returned and `xold` the incoming `x`. -/
theorem c13_jacobi_defect_mixes_old_and_new (A : Matrix) (x d b : Vec) (first : Bool)
    (hA : WellFormed A) (hD : NonzeroDiag A)
    (hx : x.length = A.length) (hd : d.length = A.length) (hb : b.length = A.length) :
    ∃ x1 d1, JacobiStepWithDefect.forward_apply A x d b first true = some (x1, d1) ∧
      (∀ i < A.length, d1.getD i 0 =
        b.getD i 0 - rowSum (fun j => decide (j ≤ i)) (A.getD i []) x1
          - rowSum (fun j => decide (i < j)) (A.getD i []) x) ∧
      (∀ i < A.length, d1.getD i 0 =
        (((A.getD i []).filter (fun e => decide (e.1 < i))).map
          (fun e => e.2 * (x.getD e.1 0 - x1.getD e.1 0))).sum) := by
  obtain ⟨d1, h1, _, h3⟩ := jacobi_forward_result hA first true x d b hx hd hb
  refine ⟨_, d1, h1, h3 rfl, ?_⟩
  intro i hi
  have e1 := gsValue_mul (hD i hi) false b x
  rw [← jacobiReference_getD hA x b hi] at e1
  simp only [gsUpper, Bool.false_eq_true, if_false] at e1
  rw [h3 rfl i hi, wf_rowSum_le hA hi, entry, rowSum_sub (fun j => decide (j < i))]
  linarith

/-- Witness for C13: the tridiagonal matrix with `x = [1, 2, 3]`. -/
theorem c13_jacobi_defect_mixes_old_and_new_witness :
    (WellFormed tridiag3 ∧ NonzeroDiag tridiag3) ∧
    ∃ x1 d1, JacobiStepWithDefect.forward_apply tridiag3 [1, 2, 3] [0, 0, 0] [1, 2, 3]
        false true = some (x1, d1) ∧
      (∀ i < tridiag3.length, d1.getD i 0 =
        ([1, 2, 3] : Vec).getD i 0 - rowSum (fun j => decide (j ≤ i)) (tridiag3.getD i []) x1
          - rowSum (fun j => decide (i < j)) (tridiag3.getD i []) [1, 2, 3]) ∧
      (∀ i < tridiag3.length, d1.getD i 0 =
        (((tridiag3.getD i []).filter (fun e => decide (e.1 < i))).map
          (fun e => e.2 * (([1, 2, 3] : Vec).getD e.1 0 - x1.getD e.1 0))).sum) :=
  ⟨⟨by decide, by decide⟩,
    c13_jacobi_defect_mixes_old_and_new tridiag3 [1, 2, 3] [0, 0, 0] [1, 2, 3] false
      (by decide) (by decide) rfl rfl rfl⟩

/-! ## Definedness on well-formed input -/

theorem gs_backward_defined {A : Matrix} (hA : WellFormed A)
    (x d b : Vec) (hx : x.length = A.length) (hd : d.length = A.length)
    (hb : b.length = A.length) :
    ∃ s, GaussSeidelStepWithDefect.backward_apply A x d b = some s ∧
      s.1.length = A.length ∧ s.2.length = A.length := by
  have key := sweepRows_backward (gsBackwardRow A.length b)
    (fun _ s => s.1.length = A.length ∧ s.2.length = A.length) A (x, d) ⟨hx, hd⟩ ?_
  · obtain ⟨s, h1, h2⟩ := key
    exact ⟨s, h1, h2⟩
  · rintro i hi ⟨x0, d0⟩ ⟨h1, h2⟩
    exact ⟨_, gsBackwardRow_wf hA hi b x0 d0 h1 h2 hb, by simpa using h1, by simpa using h2⟩

theorem gs_forward_lengths {A : Matrix} (hA : WellFormed A) (first compDef : Bool)
    (x d b : Vec) (hx : x.length = A.length) (hd : d.length = A.length)
    (hb : b.length = A.length) :
    ∃ s, GaussSeidelStepWithDefect.forward_apply A x d b first compDef = some s ∧
      s.1.length = A.length ∧ s.2.length = A.length := by
  have key := sweepRows_forward (gsForwardRow first compDef b)
    (fun _ s => s.1.length = A.length ∧ s.2.length = A.length) A (x, d) ⟨hx, hd⟩ ?_
  · obtain ⟨s, h1, h2⟩ := key
    exact ⟨s, h1, h2⟩
  · rintro i hi ⟨x0, d0⟩ ⟨h1, h2⟩
    obtain ⟨d1, e1, l1, _⟩ := gsForwardRow_wf hA hi first compDef b x0 d0 h1 h2 hb
    exact ⟨_, e1, by simpa using h1, l1⟩

/-- On a well-formed matrix the forward scan of row `i` stops inside the row,
    at an entry with column index `i`. -/
theorem triangularLoop_forward_diag {A : Matrix} (hA : WellFormed A) {i : Nat}
    (hi : i < A.length) (y : Vec) (hy : y.length = A.length) (r : ℚ) :
    ∃ a col r1, triangularLoop (fun j => decide (j < i)) y (A.getD i []) r
      = some ((i, a), col, r1) := by
  obtain ⟨lo, a, up, hrow, hlo, _, _, _⟩ := wf_split hA hi
  refine ⟨a, up, r - rowDot lo y, ?_⟩
  rw [hrow]
  exact triangularLoop_split _ y (i, a) up (by simp) lo r
    (fun f hf => ⟨by simpa using hlo f hf, by rw [hy]; exact Nat.lt_trans (hlo f hf) hi⟩)

/-- On a well-formed matrix the backward scan of row `i` stops inside the row,
    at an entry with column index `i`. -/
theorem triangularLoop_backward_diag {A : Matrix} (hA : WellFormed A) {i : Nat}
    (hi : i < A.length) (y : Vec) (hy : y.length = A.length) (r : ℚ) :
    ∃ a col r1, triangularLoop (fun j => decide (j > i)) y (A.getD i []).reverse r
      = some ((i, a), col, r1) := by
  obtain ⟨lo, a, up, hrow, _, hup, hupn, _⟩ := wf_split hA hi
  refine ⟨a, lo.reverse, r - rowDot up.reverse y, ?_⟩
  rw [hrow, List.reverse_append, List.reverse_cons, List.append_assoc, List.singleton_append]
  exact triangularLoop_split _ y (i, a) lo.reverse (by simp) up.reverse r
    (fun f hf => by
      have hf1 := List.mem_reverse.1 hf
      exact ⟨by simpa using hup f hf1, hy ▸ hupn f hf1⟩)

/-- C15: in this embedding every vector access and every column-iterator
    dereference that is out of range makes the kernel return `none`.  For a
    well-formed matrix (every row `i` has strictly ascending column indices
    below `n` and stores an entry with column index `i`) and `x`, `d`, `b` of
    length `n`, none of the four kernels takes that branch, for any flag
    values; and in every row `i` the forward scan `col.index() < row.index()`
    and the backward scan `col.index() > row.index()` stop inside the row at
    an entry whose column index is `i`, which is the entry passed to
    `solve`. -/
theorem c15_diagonal_location_is_safe (A : Matrix) (x d b : Vec)
    (hA : WellFormed A)
    (hx : x.length = A.length) (hd : d.length = A.length) (hb : b.length = A.length) :
    (∀ first compDef : Bool, ∃ s,
      GaussSeidelStepWithDefect.forward_apply A x d b first compDef = some s) ∧
    (∃ s, GaussSeidelStepWithDefect.backward_apply A x d b = some s) ∧
    (∀ first compDef : Bool, ∃ s,
      JacobiStepWithDefect.forward_apply A x d b first compDef = some s) ∧
    (∃ s, JacobiStepWithDefect.backward_apply A x d b = some s) ∧
    (∀ i < A.length, ∀ y : Vec, y.length = A.length → ∀ r : ℚ, ∃ a col r1,
      triangularLoop (fun j => decide (j < i)) y (A.getD i []) r = some ((i, a), col, r1)) ∧
    (∀ i < A.length, ∀ y : Vec, y.length = A.length → ∀ r : ℚ, ∃ a col r1,
      triangularLoop (fun j => decide (j > i)) y (A.getD i []).reverse r
        = some ((i, a), col, r1)) := by
  refine ⟨fun first compDef => gs_forward_defined hA first compDef x d b hx hd hb, ?_,
    fun first compDef => ?_, ⟨_, jacobi_backward_result hA x d b hx hb⟩,
    fun i hi y hy r => triangularLoop_forward_diag hA hi y hy r,
    fun i hi y hy r => triangularLoop_backward_diag hA hi y hy r⟩
  · obtain ⟨s, h1, _⟩ := gs_backward_defined hA x d b hx hd hb
    exact ⟨s, h1⟩
  · obtain ⟨d1, h1, _⟩ := jacobi_forward_result hA first compDef x d b hx hd hb
    exact ⟨_, h1⟩

/-- Witness for C15: the tridiagonal matrix with vectors of length 3. -/
theorem c15_diagonal_location_is_safe_witness :
    WellFormed tridiag3 ∧
    (∀ first compDef : Bool, ∃ s,
      GaussSeidelStepWithDefect.forward_apply tridiag3 [1, 2, 3] [0, 0, 0] [1, 2, 3]
        first compDef = some s) ∧
    (∃ s, GaussSeidelStepWithDefect.backward_apply tridiag3 [1, 2, 3] [0, 0, 0] [1, 2, 3]
      = some s) ∧
    (∀ first compDef : Bool, ∃ s,
      JacobiStepWithDefect.forward_apply tridiag3 [1, 2, 3] [0, 0, 0] [1, 2, 3]
        first compDef = some s) ∧
    (∃ s, JacobiStepWithDefect.backward_apply tridiag3 [1, 2, 3] [0, 0, 0] [1, 2, 3]
      = some s) ∧
    (∀ i < tridiag3.length, ∀ y : Vec, y.length = tridiag3.length → ∀ r : ℚ, ∃ a col r1,
      triangularLoop (fun j => decide (j < i)) y (tridiag3.getD i []) r
        = some ((i, a), col, r1)) ∧
    (∀ i < tridiag3.length, ∀ y : Vec, y.length = tridiag3.length → ∀ r : ℚ, ∃ a col r1,
      triangularLoop (fun j => decide (j > i)) y (tridiag3.getD i []).reverse r
        = some ((i, a), col, r1)) :=
  ⟨by decide,
    c15_diagonal_location_is_safe tridiag3 [1, 2, 3] [0, 0, 0] [1, 2, 3] (by decide)
      rfl rfl rfl⟩

/-! ## What the flags and the incoming vectors can change -/

/-- The forward Gauss-Seidel sweeps with and without `compDef`, run from the
    same state, stay in step on `x`. -/
theorem gs_forward_compDef_rel {A : Matrix} (hA : WellFormed A) (first : Bool)
    (x d b : Vec) (hx : x.length = A.length) (hd : d.length = A.length)
    (hb : b.length = A.length) :
    OptRel (fun s t => s.1 = t.1)
      (GaussSeidelStepWithDefect.forward_apply A x d b first true)
      (GaussSeidelStepWithDefect.forward_apply A x d b first false) := by
  have key := sweepRows_forward_rel (gsForwardRow first true b) (gsForwardRow first false b)
    (fun _ s t => s.1 = t.1 ∧ s.1.length = A.length ∧ s.2.length = A.length ∧
      t.2.length = A.length) A (x, d) (x, d) ⟨rfl, hx, hd, hd⟩ ?_
  · exact OptRel_mono (fun s t h => h.1) key
  · rintro i hi ⟨x0, d0⟩ ⟨y0, e0⟩ ⟨h1, h2, h3, h4⟩
    simp only [] at h1 h2 h3 h4
    subst h1
    obtain ⟨d1, e1, l1, _⟩ := gsForwardRow_wf hA hi first true b x0 d0 h2 h3 hb
    obtain ⟨d2, e2, l2, _⟩ := gsForwardRow_wf hA hi first false b x0 e0 h2 h4 hb
    rw [e1, e2]
    exact ⟨rfl, by simpa using h2, l1, l2⟩

/-- C17: on a well-formed matrix (sorted rows with a diagonal entry), for every
    `x`, `d`, `b` of matching length and every value of `first`, the forward
    Gauss-Seidel kernel returns with `compDef = true` the same `x` as with
    `compDef = false`, and so does the forward Jacobi kernel; only the returned
    `d` may differ. -/
theorem c17_defect_request_keeps_solution (A : Matrix) (x d b : Vec) (first : Bool)
    (hA : WellFormed A)
    (hx : x.length = A.length) (hd : d.length = A.length) (hb : b.length = A.length) :
    (∃ x1 d1 d2,
      GaussSeidelStepWithDefect.forward_apply A x d b first true = some (x1, d1) ∧
      GaussSeidelStepWithDefect.forward_apply A x d b first false = some (x1, d2)) ∧
    (∃ x1 d1 d2,
      JacobiStepWithDefect.forward_apply A x d b first true = some (x1, d1) ∧
      JacobiStepWithDefect.forward_apply A x d b first false = some (x1, d2)) := by
  constructor
  · obtain ⟨⟨x1, d1⟩, h1⟩ := gs_forward_defined hA first true x d b hx hd hb
    obtain ⟨⟨x2, d2⟩, h2⟩ := gs_forward_defined hA first false x d b hx hd hb
    have h := gs_forward_compDef_rel hA first x d b hx hd hb
    rw [h1, h2] at h
    have h3 : x1 = x2 := h
    subst h3
    exact ⟨x1, d1, d2, h1, h2⟩
  · obtain ⟨d1, h1, _⟩ := jacobi_forward_result hA first true x d b hx hd hb
    obtain ⟨d2, h2, _⟩ := jacobi_forward_result hA first false x d b hx hd hb
    exact ⟨_, d1, d2, h1, h2⟩

/-- Witness for C17: the tridiagonal matrix with `x = [1, 2, 3]` and
    `first = true`. -/
theorem c17_defect_request_keeps_solution_witness :
    WellFormed tridiag3 ∧
    (∃ x1 d1 d2,
      GaussSeidelStepWithDefect.forward_apply tridiag3 [1, 2, 3] [0, 0, 0] [1, 2, 3] true true
        = some (x1, d1) ∧
      GaussSeidelStepWithDefect.forward_apply tridiag3 [1, 2, 3] [0, 0, 0] [1, 2, 3] true false
        = some (x1, d2)) ∧
    (∃ x1 d1 d2,
      JacobiStepWithDefect.forward_apply tridiag3 [1, 2, 3] [0, 0, 0] [1, 2, 3] true true
        = some (x1, d1) ∧
      JacobiStepWithDefect.forward_apply tridiag3 [1, 2, 3] [0, 0, 0] [1, 2, 3] true false
        = some (x1, d2)) :=
  ⟨by decide,
    c17_defect_request_keeps_solution tridiag3 [1, 2, 3] [0, 0, 0] [1, 2, 3] true (by decide)
      rfl rfl rfl⟩

/-- A forward Gauss-Seidel sweep with `first = true` returns the same state
    from any two incoming vectors `x`, `y` of matching length. -/
theorem gs_forward_first_discards {A : Matrix} (hA : WellFormed A) (compDef : Bool)
    (x y d b : Vec) (hx : x.length = A.length) (hy : y.length = A.length)
    (hd : d.length = A.length) (hb : b.length = A.length) :
    GaussSeidelStepWithDefect.forward_apply A x d b true compDef
      = GaussSeidelStepWithDefect.forward_apply A y d b true compDef := by
  have key := sweepRows_forward_rel (gsForwardRow true compDef b) (gsForwardRow true compDef b)
    (fun i s t => s.1.length = A.length ∧ t.1.length = A.length ∧ s.2 = t.2 ∧
      s.2.length = A.length ∧ ∀ k < i, s.1.getD k 0 = t.1.getD k 0)
    A (x, d) (y, d) ⟨hx, hy, rfl, hd, fun k hk => absurd hk (Nat.not_lt_zero k)⟩ ?_
  · apply OptRel_eq
    refine OptRel_mono ?_ key
    rintro ⟨x1, d1⟩ ⟨y1, e1⟩ ⟨h1, h2, h3, _, h5⟩
    simp only [] at h1 h2 h3 h5
    have : x1 = y1 := vec_ext x1 y1 (h1.trans h2.symm) (fun k hk => h5 k (h1 ▸ hk))
    rw [this, h3]
  · rintro i hi ⟨x0, d0⟩ ⟨y0, e0⟩ ⟨h1, h2, h3, h4, h5⟩
    simp only [] at h1 h2 h3 h4 h5
    subst h3
    obtain ⟨d1, e1, l1, f1⟩ := gsForwardRow_wf hA hi true compDef b x0 d0 h1 h4 hb
    obtain ⟨d2, e2, l2, f2⟩ := gsForwardRow_wf hA hi true compDef b y0 d0 h2 h4 hb
    have hlo : rowSum (fun j => decide (j < i)) (A.getD i []) x0
        = rowSum (fun j => decide (j < i)) (A.getD i []) y0 :=
      rowSum_congr _ _ _ _ (fun e _ he => h5 e.1 (by simpa using he))
    have hu : gsUpper true i (A.getD i []) x0 = gsUpper true i (A.getD i []) y0 := rfl
    have hv : gsValue true b i (A.getD i []) x0 = gsValue true b i (A.getD i []) y0 := by
      rw [gsValue, gsValue, hlo, hu]
    have hdd : d1 = d2 := by
      apply vec_ext _ _ (l1.trans l2.symm)
      intro k _
      rw [f1 k, f2 k, hlo, hu, hv]
    rw [e1, e2]
    refine ⟨by simpa using h1, by simpa using h2, hdd, l1, ?_⟩
    intro k hk
    simp only []
    by_cases hki : k = i
    · subst hki
      rw [getD_set_self _ _ _ (h1 ▸ hi), getD_set_self _ _ _ (h2 ▸ hi), hv]
    · rw [getD_set_ne _ _ _ _ hki, getD_set_ne _ _ _ _ hki]
      exact h5 k (by omega)

theorem repeatSweep_defined (P : State → Prop) (f : State → Option State)
    (hf : ∀ s, P s → ∃ s1, f s = some s1 ∧ P s1) :
    ∀ (k : Nat) (s : State), P s → ∃ s1, repeatSweep f k s = some s1 ∧ P s1 := by
  intro k
  induction k with
  | zero => intro s h; exact ⟨s, rfl, h⟩
  | succ k ih =>
    intro s h
    obtain ⟨s1, h1, h2⟩ := hf s h
    obtain ⟨s2, h3, h4⟩ := ih s1 h2
    exact ⟨s2, by simp only [repeatSweep, h1]; exact h3, h4⟩

/-- The Gauss-Seidel pre-smoothing driver is defined on well-formed input, for
    every sweep count. -/
theorem gs_presmooth_defined {A : Matrix} (hA : WellFormed A) (x d b : Vec) (num_iter : Int)
    (hx : x.length = A.length) (hd : d.length = A.length) (hb : b.length = A.length) :
    ∃ s, GaussSeidelPresmoothDefect.apply A x d b num_iter = some s := by
  by_cases h1 : num_iter = 1
  · simp only [GaussSeidelPresmoothDefect.apply, h1, if_true]
    exact gs_forward_defined hA true true x d b hx hd hb
  · obtain ⟨s1, e1, l1, l2⟩ := gs_forward_lengths hA true false x d b hx hd hb
    obtain ⟨s2, e2, m1, m2⟩ := repeatSweep_defined
      (fun s => s.1.length = A.length ∧ s.2.length = A.length)
      (fun s => GaussSeidelStepWithDefect.forward_apply A s.1 s.2 b false false)
      (fun s hs => gs_forward_lengths hA false false s.1 s.2 b hs.1 hs.2 hb)
      (intSub num_iter 2).toNat s1 ⟨l1, l2⟩
    obtain ⟨s3, e3⟩ := gs_forward_defined hA false true s2.1 s2.2 b m1 m2 hb
    exact ⟨s3, by simp only [GaussSeidelPresmoothDefect.apply, h1, if_false, e1, e2, e3]⟩

/-- C16: on a well-formed matrix (sorted rows with a diagonal entry), for every
    integer `num_iter`, every `b` and `d` and any two incoming solution vectors
    `x`, `y` of the matching length, the Gauss-Seidel pre-smoothing driver
    returns, and returns the same `(x, d)` from `y` as from `x`: its first
    sweep runs with `first = true`, which reads only entries of the solution
    vector already written in that pass. -/
theorem c16_presmooth_discards_incoming_iterate (A : Matrix) (x y d b : Vec) (num_iter : Int)
    (hA : WellFormed A) (hx : x.length = A.length) (hy : y.length = A.length)
    (hd : d.length = A.length) (hb : b.length = A.length) :
    ∃ s, GaussSeidelPresmoothDefect.apply A x d b num_iter = some s ∧
      GaussSeidelPresmoothDefect.apply A y d b num_iter = some s := by
  obtain ⟨s, hs⟩ := gs_presmooth_defined hA x d b num_iter hx hd hb
  refine ⟨s, hs, ?_⟩
  rw [← hs]
  simp only [GaussSeidelPresmoothDefect.apply,
    gs_forward_first_discards hA true y x d b hy hx hd hb,
    gs_forward_first_discards hA false y x d b hy hx hd hb]

/-- Witness for C16: three sweeps on the tridiagonal matrix from `[1, 2, 3]`
    and from `[-5, 0, 9]`. -/
theorem c16_presmooth_discards_incoming_iterate_witness :
    WellFormed tridiag3 ∧
    ∃ s, GaussSeidelPresmoothDefect.apply tridiag3 [1, 2, 3] [0, 0, 0] [1, 2, 3] 3 = some s ∧
      GaussSeidelPresmoothDefect.apply tridiag3 [-5, 0, 9] [0, 0, 0] [1, 2, 3] 3 = some s :=
  ⟨by decide,
    c16_presmooth_discards_incoming_iterate tridiag3 [1, 2, 3] [-5, 0, 9] [0, 0, 0] [1, 2, 3] 3
      (by decide) rfl rfl rfl rfl⟩

/-! ## The incoming defect vector -/

theorem getElem?_set_agree (e e1 : Vec) (hl : e.length = e1.length) (j k : Nat) (v : ℚ)
    (h : e[k]? = e1[k]?) : (e.set j v)[k]? = (e1.set j v)[k]? := by
  by_cases hjk : j = k
  · subst hjk
    simp [List.getElem?_set, hl]
  · simp [List.getElem?_set, hjk, h]

theorem defectLoop_rel (i : Nat) (xi : ℚ) :
    ∀ (row : Row) (e e1 : Vec), e.length = e1.length → (∀ k < i + 1, e[k]? = e1[k]?) →
      (defectLoop i xi row e = none ∧ defectLoop i xi row e1 = none) ∨
      ∃ f f1, defectLoop i xi row e = some f ∧ defectLoop i xi row e1 = some f1 ∧
        f.length = e.length ∧ f1.length = e1.length ∧ ∀ k < i + 1, f[k]? = f1[k]? := by
  intro row
  induction row with
  | nil => intro e e1 _ _; exact Or.inl ⟨rfl, rfl⟩
  | cons p rest ih =>
    intro e e1 hl h
    obtain ⟨j, a⟩ := p
    by_cases hj : j < i
    · have hje := h j (by omega)
      cases hv : e[j]? with
      | none =>
        rw [hv] at hje
        exact Or.inl ⟨by simp only [defectLoop, hj, if_true, hv],
          by simp only [defectLoop, hj, if_true, ← hje]⟩
      | some dj =>
        rw [hv] at hje
        have := ih (e.set j (mmv a xi dj)) (e1.set j (mmv a xi dj)) (by simpa using hl)
          (fun k hk => getElem?_set_agree e e1 hl j k _ (h k hk))
        simp only [defectLoop, hj, if_true, hv, ← hje]
        simpa using this
    · exact Or.inr ⟨e, e1, by simp only [defectLoop, hj, if_false],
        by simp only [defectLoop, hj, if_false], rfl, rfl, h⟩

/-- One row of the forward Gauss-Seidel kernel, run on the same `x` from two
    defect vectors that agree on the rows already visited. -/
theorem gsForwardRow_rel_d (first compDef : Bool) (b : Vec) (i : Nat) (row : Row)
    (x d d1 : Vec) (hl : d.length = d1.length) (h : ∀ k < i, d[k]? = d1[k]?) :
    OptRel (fun s t => s.1 = t.1 ∧ s.2.length = d.length ∧ t.2.length = d1.length ∧
        ∀ k < i + 1, s.2[k]? = t.2[k]?)
      (gsForwardRow first compDef b i row (x, d))
      (gsForwardRow first compDef b i row (x, d1)) := by
  have hset : ∀ v : ℚ, ∀ k < i + 1, (d.set i v)[k]? = (d1.set i v)[k]? := by
    intro v k hk
    by_cases hki : k = i
    · subst hki; simp [List.getElem?_set, hl]
    · exact getElem?_set_agree d d1 hl i k v (h k (by omega))
  by_cases hi : i < d.length
  · have hi1 : i < d1.length := hl ▸ hi
    simp only [gsForwardRow, List.getElem?_eq_getElem hi, List.getElem?_eq_getElem hi1]
    cases b[i]? with
    | none => trivial
    | some bi =>
      cases x[i]? with
      | none => trivial
      | some xi0 =>
        simp only []
        cases triangularLoop (fun j => decide (j < i)) x row bi with
        | none => trivial
        | some p =>
          obtain ⟨diag, col, r⟩ := p
          simp only []
          cases (if first = true then some (0 : ℚ) else restLoop umv x col 0) with
          | none => trivial
          | some v =>
            simp only []
            cases compDef
            · simp only [Bool.false_eq_true, if_false]
              exact ⟨rfl, by simp, by simp, hset _⟩
            · simp only [if_true]
              rcases defectLoop_rel i (solve diag.2 (r - v)) row (d.set i v) (d1.set i v)
                (by simpa using hl) (hset v) with ⟨e1, e2⟩ | ⟨f, f1, e1, e2, l1, l2, hk⟩
              · rw [e1, e2]; trivial
              · rw [e1, e2]
                exact ⟨rfl, by simpa using l1, by simpa using l2, hk⟩
  · have hi1 : ¬ i < d1.length := hl ▸ hi
    simp only [gsForwardRow, List.getElem?_eq_none (Nat.le_of_not_lt hi),
      List.getElem?_eq_none (Nat.le_of_not_lt hi1)]
    cases b[i]? <;> cases x[i]? <;> trivial

/-- One row of the backward Gauss-Seidel kernel, run on the same `x` from two
    defect vectors, of one entry per row, that agree on the rows already
    visited. -/
theorem gsBackwardRow_rel_d (n : Nat) (b : Vec) (i : Nat) (hi : i < n) (row : Row)
    (x d d1 : Vec) (hd : d.length = n) (hd1 : d1.length = n)
    (h : ∀ k, i + 1 ≤ k → d[k]? = d1[k]?) :
    OptRel (fun s t => s.1 = t.1 ∧ s.2.length = n ∧ t.2.length = n ∧
        ∀ k, i ≤ k → s.2[k]? = t.2[k]?)
      (gsBackwardRow n b i row (x, d)) (gsBackwardRow n b i row (x, d1)) := by
  have hl : d.length = d1.length := hd.trans hd1.symm
  have hset : ∀ v : ℚ, ∀ k, i ≤ k → (d.set i v)[k]? = (d1.set i v)[k]? := by
    intro v k hk
    by_cases hki : k = i
    · subst hki; simp [List.getElem?_set, hl]
    · exact getElem?_set_agree d d1 hl i k v (h k (by omega))
  simp only [gsBackwardRow, backwardAt_eq d hd hi, backwardAt_eq d1 hd1 hi]
  cases backwardAt b n i with
  | none => trivial
  | some pb =>
    obtain ⟨qb, bi⟩ := pb
    cases backwardAt x n i with
    | none => trivial
    | some px =>
      obtain ⟨qx, xi0⟩ := px
      simp only []
      cases triangularLoop (fun j => decide (j > i)) x row.reverse bi with
      | none => trivial
      | some p =>
        obtain ⟨diag, col, r⟩ := p
        simp only []
        cases restLoop mmv x col r with
        | none => trivial
        | some r1 => exact ⟨rfl, by simpa using hd, by simpa using hd1, hset _⟩

/-- One row of the forward Jacobi kernel with `compDef = true`, run on the same
    `x` from two defect vectors that agree on the rows already visited. -/
theorem jacobiForwardRow_rel_d (xold b : Vec) (i : Nat) (row : Row)
    (x d d1 : Vec) (hl : d.length = d1.length) (h : ∀ k < i, d[k]? = d1[k]?) :
    OptRel (fun s t => s.1 = t.1 ∧ s.2.length = d.length ∧ t.2.length = d1.length ∧
        ∀ k < i + 1, s.2[k]? = t.2[k]?)
      (jacobiForwardRow true xold b i row (x, d))
      (jacobiForwardRow true xold b i row (x, d1)) := by
  have hset : ∀ v : ℚ, ∀ k < i + 1, (d.set i v)[k]? = (d1.set i v)[k]? := by
    intro v k hk
    by_cases hki : k = i
    · subst hki; simp [List.getElem?_set, hl]
    · exact getElem?_set_agree d d1 hl i k v (h k (by omega))
  simp only [jacobiForwardRow, if_true]
  cases b[i]? with
  | none => trivial
  | some bi =>
    cases x[i]? with
    | none => trivial
    | some xi0 =>
      simp only []
      cases triangularLoop (fun j => decide (j < i)) xold row bi with
      | none => trivial
      | some p =>
        obtain ⟨diag, col, r⟩ := p
        simp only []
        cases restLoop mmv xold col r with
        | none => trivial
        | some r1 =>
          simp only []
          by_cases hi : i < d.length
          · have hi1 : i < d1.length := hl ▸ hi
            simp only [List.getElem?_eq_getElem hi, List.getElem?_eq_getElem hi1]
            cases restLoop mmv (x.set i (solve diag.2 r1)) row bi with
            | none => trivial
            | some di => exact ⟨rfl, by simp, by simp, hset _⟩
          · have hi1 : ¬ i < d1.length := hl ▸ hi
            simp only [List.getElem?_eq_none (Nat.le_of_not_lt hi),
              List.getElem?_eq_none (Nat.le_of_not_lt hi1)]
            trivial

/-- One row of the forward Jacobi kernel without `compDef`: `d` is passed
    through, and `x` does not depend on it. -/
theorem jacobiForwardRow_keeps_d (xold b : Vec) (i : Nat) (row : Row) (x d d1 : Vec) :
    OptRel (fun s t => s.1 = t.1 ∧ s.2 = d ∧ t.2 = d1)
      (jacobiForwardRow false xold b i row (x, d))
      (jacobiForwardRow false xold b i row (x, d1)) := by
  simp only [jacobiForwardRow, Bool.false_eq_true, if_false]
  cases b[i]? with
  | none => trivial
  | some bi =>
    cases x[i]? with
    | none => trivial
    | some xi0 =>
      simp only []
      cases triangularLoop (fun j => decide (j < i)) xold row bi with
      | none => trivial
      | some p =>
        obtain ⟨diag, col, r⟩ := p
        simp only []
        cases restLoop mmv xold col r with
        | none => trivial
        | some r1 => exact ⟨rfl, rfl, rfl⟩

/-- One row of the backward Jacobi kernel: `d` is passed through, and `x` does
    not depend on it. -/
theorem jacobiBackwardRow_keeps_d (n : Nat) (xold b : Vec) (i : Nat) (row : Row)
    (x d d1 : Vec) :
    OptRel (fun s t => s.1 = t.1 ∧ s.2 = d ∧ t.2 = d1)
      (jacobiBackwardRow n xold b i row (x, d)) (jacobiBackwardRow n xold b i row (x, d1)) := by
  simp only [jacobiBackwardRow]
  cases backwardAt b n i with
  | none => trivial
  | some pb =>
    obtain ⟨qb, bi⟩ := pb
    cases backwardAt x n i with
    | none => trivial
    | some px =>
      obtain ⟨qx, xi0⟩ := px
      simp only []
      cases triangularLoop (fun j => decide (j > i)) xold row.reverse bi with
      | none => trivial
      | some p =>
        obtain ⟨diag, col, r⟩ := p
        simp only []
        cases restLoop mmv xold col r with
        | none => trivial
        | some r1 => exact ⟨rfl, rfl, rfl⟩

theorem state_eq_of_agree {n : Nat} {s t : State} (h1 : s.1 = t.1) (h2 : s.2.length = n)
    (h3 : t.2.length = n) (h4 : ∀ k < n, s.2[k]? = t.2[k]?) : s = t := by
  have : s.2 = t.2 := by
    apply List.ext_getElem?
    intro k
    by_cases hk : k < n
    · exact h4 k hk
    · rw [List.getElem?_eq_none (by omega), List.getElem?_eq_none (by omega)]
  exact Prod.ext h1 this

theorem gs_forward_overwrites_d (A : Matrix) (x d d1 b : Vec) (first compDef : Bool)
    (hd : d.length = A.length) (hd1 : d1.length = A.length) :
    GaussSeidelStepWithDefect.forward_apply A x d b first compDef
      = GaussSeidelStepWithDefect.forward_apply A x d1 b first compDef := by
  have key := sweepRows_forward_rel (gsForwardRow first compDef b) (gsForwardRow first compDef b)
    (fun i s t => s.1 = t.1 ∧ s.2.length = A.length ∧ t.2.length = A.length ∧
      ∀ k < i, s.2[k]? = t.2[k]?)
    A (x, d) (x, d1) ⟨rfl, hd, hd1, fun k hk => absurd hk (Nat.not_lt_zero k)⟩ ?_
  · apply OptRel_eq
    exact OptRel_mono (fun s t h => state_eq_of_agree h.1 h.2.1 h.2.2.1 h.2.2.2) key
  · rintro i _ ⟨x0, d0⟩ ⟨y0, e0⟩ ⟨h1, h2, h3, h4⟩
    simp only [] at h1 h2 h3 h4
    subst h1
    refine OptRel_mono ?_ (gsForwardRow_rel_d first compDef b i (A.getD i []) x0 d0 e0
      (h2.trans h3.symm) h4)
    rintro s t ⟨g1, g2, g3, g4⟩
    exact ⟨g1, g2.trans h2, g3.trans h3, g4⟩

theorem gs_backward_overwrites_d (A : Matrix) (x d d1 b : Vec)
    (hd : d.length = A.length) (hd1 : d1.length = A.length) :
    GaussSeidelStepWithDefect.backward_apply A x d b
      = GaussSeidelStepWithDefect.backward_apply A x d1 b := by
  have key := sweepRows_backward_rel (gsBackwardRow A.length b) (gsBackwardRow A.length b)
    (fun i s t => s.1 = t.1 ∧ s.2.length = A.length ∧ t.2.length = A.length ∧
      ∀ k, i ≤ k → s.2[k]? = t.2[k]?)
    A (x, d) (x, d1) ⟨rfl, hd, hd1, fun k hk => by
      rw [List.getElem?_eq_none (by simp only []; omega),
        List.getElem?_eq_none (by simp only []; omega)]⟩ ?_
  · apply OptRel_eq
    refine OptRel_mono ?_ key
    rintro s t ⟨g1, g2, g3, g4⟩
    exact state_eq_of_agree g1 g2 g3 (fun k _ => g4 k (Nat.zero_le k))
  · rintro i hi ⟨x0, d0⟩ ⟨y0, e0⟩ ⟨h1, h2, h3, h4⟩
    simp only [] at h1 h2 h3 h4
    subst h1
    exact gsBackwardRow_rel_d A.length b i hi (A.getD i []) x0 d0 e0 h2 h3 h4

theorem jacobi_forward_overwrites_d (A : Matrix) (x d d1 b : Vec) (first : Bool)
    (hd : d.length = A.length) (hd1 : d1.length = A.length) :
    JacobiStepWithDefect.forward_apply A x d b first true
      = JacobiStepWithDefect.forward_apply A x d1 b first true := by
  have key := sweepRows_forward_rel (jacobiForwardRow true x b) (jacobiForwardRow true x b)
    (fun i s t => s.1 = t.1 ∧ s.2.length = A.length ∧ t.2.length = A.length ∧
      ∀ k < i, s.2[k]? = t.2[k]?)
    A (x, d) (x, d1) ⟨rfl, hd, hd1, fun k hk => absurd hk (Nat.not_lt_zero k)⟩ ?_
  · have h := OptRel_eq
      (OptRel_mono (fun s t h => state_eq_of_agree h.1 h.2.1 h.2.2.1 h.2.2.2) key)
    simp only [JacobiStepWithDefect.forward_apply, h]
  · rintro i _ ⟨x0, d0⟩ ⟨y0, e0⟩ ⟨h1, h2, h3, h4⟩
    simp only [] at h1 h2 h3 h4
    subst h1
    refine OptRel_mono ?_ (jacobiForwardRow_rel_d x b i (A.getD i []) x0 d0 e0
      (h2.trans h3.symm) h4)
    rintro s t ⟨g1, g2, g3, g4⟩
    exact ⟨g1, g2.trans h2, g3.trans h3, g4⟩

theorem jacobi_forward_keeps_d (A : Matrix) (x d d1 b : Vec) (first : Bool) :
    OptRel (fun s t => s.1 = t.1 ∧ s.2 = d ∧ t.2 = d1)
      (JacobiStepWithDefect.forward_apply A x d b first false)
      (JacobiStepWithDefect.forward_apply A x d1 b first false) := by
  have key := sweepRows_forward_rel (jacobiForwardRow false x b) (jacobiForwardRow false x b)
    (fun _ s t => s.1 = t.1 ∧ s.2 = d ∧ t.2 = d1) A (x, d) (x, d1) ⟨rfl, rfl, rfl⟩ ?_
  · simp only [JacobiStepWithDefect.forward_apply, Bool.false_eq_true, false_and, if_false]
    cases h1 : sweepRows (jacobiForwardRow false x b) (forwardOrder A) (x, d) <;>
      cases h2 : sweepRows (jacobiForwardRow false x b) (forwardOrder A) (x, d1) <;>
      rw [h1, h2] at key <;> exact key
  · rintro i _ ⟨x0, d0⟩ ⟨y0, e0⟩ ⟨h1, h2, h3⟩
    simp only [] at h1 h2 h3
    subst h1 h2 h3
    exact jacobiForwardRow_keeps_d x b i (A.getD i []) x0 d0 e0

theorem jacobi_backward_keeps_d (A : Matrix) (x d d1 b : Vec) :
    OptRel (fun s t => s.1 = t.1 ∧ s.2 = d ∧ t.2 = d1)
      (JacobiStepWithDefect.backward_apply A x d b)
      (JacobiStepWithDefect.backward_apply A x d1 b) := by
  apply sweepRows_backward_rel (jacobiBackwardRow A.length x b)
    (jacobiBackwardRow A.length x b)
    (fun _ s t => s.1 = t.1 ∧ s.2 = d ∧ t.2 = d1) A (x, d) (x, d1) ⟨rfl, rfl, rfl⟩
  rintro i _ ⟨x0, d0⟩ ⟨y0, e0⟩ ⟨h1, h2, h3⟩
  simp only [] at h1 h2 h3
  subst h1 h2 h3
  exact jacobiBackwardRow_keeps_d A.length x b i (A.getD i []) x0 d0 e0

/-- C12 (counterexample): on `[[2,1],[1,2]]` with `x = [0, 0]`, `b = [2, 2]` the
    backward Jacobi kernel, and the forward Jacobi kernel with
    `compDef = false`, return the incoming defect vector untouched, so the
    initial vectors `[0, 0]` and `[5, 5]` give different `d`. -/
theorem c12_jacobi_carries_defect_vector :
    JacobiStepWithDefect.backward_apply sym2 [0, 0] [0, 0] [2, 2] = some ([1, 1], [0, 0]) ∧
    JacobiStepWithDefect.backward_apply sym2 [0, 0] [5, 5] [2, 2] = some ([1, 1], [5, 5]) ∧
    JacobiStepWithDefect.forward_apply sym2 [0, 0] [0, 0] [2, 2] false false
      = some ([1, 1], [0, 0]) ∧
    JacobiStepWithDefect.forward_apply sym2 [0, 0] [5, 5] [2, 2] false false
      = some ([1, 1], [5, 5]) ∧
    ([0, 0] : Vec).length = ([5, 5] : Vec).length ∧ ([0, 0] : Vec) ≠ [5, 5] := by
  refine ⟨?_, ?_, ?_, ?_, rfl, by decide⟩
  · norm_num [JacobiStepWithDefect.backward_apply, sym2, backwardOrder, List.enum,
      List.enumFrom, sweepRows, jacobiBackwardRow, backwardAt, triangularLoop, restLoop, mmv,
      solve,
      List.getElem_cons]
  · norm_num [JacobiStepWithDefect.backward_apply, sym2, backwardOrder, List.enum,
      List.enumFrom, sweepRows, jacobiBackwardRow, backwardAt, triangularLoop, restLoop, mmv,
      solve,
      List.getElem_cons]
  · norm_num [JacobiStepWithDefect.forward_apply, sym2, forwardOrder, List.enum,
      List.enumFrom, sweepRows, jacobiForwardRow, triangularLoop, restLoop, mmv, solve,
      List.getElem_cons]
  · norm_num [JacobiStepWithDefect.forward_apply, sym2, forwardOrder, List.enum,
      List.enumFrom, sweepRows, jacobiForwardRow, triangularLoop, restLoop, mmv, solve,
      List.getElem_cons]

/-- C12 (amended): for every `A`, `x`, `b` and any two initial defect vectors
    `d`, `d1` with as many entries as `A` has rows, the forward Gauss-Seidel
    kernel (any flag values), the backward Gauss-Seidel kernel and the forward
    Jacobi kernel with `compDef = true` return the same result from `d1` as
    from `d`; the forward Jacobi kernel with `compDef = false` and the
    backward Jacobi kernel are defined for `d1` exactly when they are for `d`,
    return the same `x`, and return the incoming defect vector unchanged. -/
theorem c12_defect_vector_carries_no_state (A : Matrix) (x d d1 b : Vec)
    (hd : d.length = A.length) (hd1 : d1.length = A.length) :
    (∀ first compDef : Bool,
      GaussSeidelStepWithDefect.forward_apply A x d b first compDef
        = GaussSeidelStepWithDefect.forward_apply A x d1 b first compDef) ∧
    GaussSeidelStepWithDefect.backward_apply A x d b
      = GaussSeidelStepWithDefect.backward_apply A x d1 b ∧
    (∀ first : Bool,
      JacobiStepWithDefect.forward_apply A x d b first true
        = JacobiStepWithDefect.forward_apply A x d1 b first true) ∧
    (∀ first : Bool,
      OptRel (fun s t => s.1 = t.1 ∧ s.2 = d ∧ t.2 = d1)
        (JacobiStepWithDefect.forward_apply A x d b first false)
        (JacobiStepWithDefect.forward_apply A x d1 b first false)) ∧
    OptRel (fun s t => s.1 = t.1 ∧ s.2 = d ∧ t.2 = d1)
      (JacobiStepWithDefect.backward_apply A x d b)
      (JacobiStepWithDefect.backward_apply A x d1 b) :=
  ⟨fun first compDef => gs_forward_overwrites_d A x d d1 b first compDef hd hd1,
    gs_backward_overwrites_d A x d d1 b hd hd1,
    fun first => jacobi_forward_overwrites_d A x d d1 b first hd hd1,
    fun first => jacobi_forward_keeps_d A x d d1 b first,
    jacobi_backward_keeps_d A x d d1 b⟩

/-- Witness for C12 (amended): the tridiagonal matrix with the initial defect
    vectors `[0, 0, 0]` and `[7, -3, 1/2]`. -/
theorem c12_defect_vector_carries_no_state_witness :
    (([0, 0, 0] : Vec).length = tridiag3.length ∧
      ([7, -3, 1 / 2] : Vec).length = tridiag3.length) ∧
    (∀ first compDef : Bool,
      GaussSeidelStepWithDefect.forward_apply tridiag3 [1, 2, 3] [0, 0, 0] [1, 2, 3]
          first compDef
        = GaussSeidelStepWithDefect.forward_apply tridiag3 [1, 2, 3] [7, -3, 1 / 2] [1, 2, 3]
          first compDef) ∧
    GaussSeidelStepWithDefect.backward_apply tridiag3 [1, 2, 3] [0, 0, 0] [1, 2, 3]
      = GaussSeidelStepWithDefect.backward_apply tridiag3 [1, 2, 3] [7, -3, 1 / 2] [1, 2, 3] ∧
    (∀ first : Bool,
      JacobiStepWithDefect.forward_apply tridiag3 [1, 2, 3] [0, 0, 0] [1, 2, 3] first true
        = JacobiStepWithDefect.forward_apply tridiag3 [1, 2, 3] [7, -3, 1 / 2] [1, 2, 3]
          first true) ∧
    (∀ first : Bool,
      OptRel (fun s t => s.1 = t.1 ∧ s.2 = [0, 0, 0] ∧ t.2 = [7, -3, 1 / 2])
        (JacobiStepWithDefect.forward_apply tridiag3 [1, 2, 3] [0, 0, 0] [1, 2, 3] first false)
        (JacobiStepWithDefect.forward_apply tridiag3 [1, 2, 3] [7, -3, 1 / 2] [1, 2, 3]
          first false)) ∧
    OptRel (fun s t => s.1 = t.1 ∧ s.2 = [0, 0, 0] ∧ t.2 = [7, -3, 1 / 2])
      (JacobiStepWithDefect.backward_apply tridiag3 [1, 2, 3] [0, 0, 0] [1, 2, 3])
      (JacobiStepWithDefect.backward_apply tridiag3 [1, 2, 3] [7, -3, 1 / 2] [1, 2, 3]) :=
  ⟨⟨rfl, rfl⟩,
    c12_defect_vector_carries_no_state tridiag3 [1, 2, 3] [0, 0, 0] [7, -3, 1 / 2] [1, 2, 3]
      rfl rfl⟩

/-! ## Index reversal -/

theorem revMatrix_length (A : Matrix) : (revMatrix A).length = A.length := by
  simp [revMatrix]

theorem revMatrix_getD (A : Matrix) {k : Nat} (hk : k < A.length) :
    (revMatrix A).getD k [] = revRow A.length (A.getD (A.length - 1 - k) []) := by
  have h1 : k < (A.map (revRow A.length)).length := by simpa using hk
  have h2 : A.length - 1 - k < A.length := by omega
  simp only [revMatrix, List.getD_eq_getElem?_getD, List.getElem?_reverse h1, List.length_map,
    List.getElem?_map, List.getElem?_eq_getElem h2, Option.map_some', Option.getD_some]

theorem getD_reverse (v : Vec) {k : Nat} (hk : k < v.length) :
    v.reverse.getD k 0 = v.getD (v.length - 1 - k) 0 := by
  simp only [List.getD_eq_getElem?_getD, List.getElem?_reverse hk]

theorem reverse_set (v : Vec) {i : Nat} (hi : i < v.length) (a : ℚ) :
    (v.set i a).reverse = v.reverse.set (v.length - 1 - i) a := by
  apply vec_ext _ _ (by simp)
  intro k hk
  have hk1 : k < v.length := by simpa using hk
  rw [getD_reverse _ (by simpa using hk1), List.length_set]
  by_cases h : k = v.length - 1 - i
  · subst h
    rw [getD_set_self _ _ _ (by simp; omega),
      show v.length - 1 - (v.length - 1 - i) = i by omega, getD_set_self _ _ _ hi]
  · rw [getD_set_ne _ _ _ _ h, getD_set_ne _ _ _ _ (by omega), getD_reverse _ hk1]

theorem rowSum_reverse (p : Nat → Bool) (l : Row) (x : Vec) :
    rowSum p l.reverse x = rowSum p l x := by
  induction l with
  | nil => rfl
  | cons e l ih =>
    rw [List.reverse_cons, rowSum_append, rowSum_cons, rowSum_cons, ih]
    simp [rowSum]
    ring

/-- A row sum over the index-reversed row and the reversed vector is the row
    sum over the original row with the mirrored selection of columns. -/
theorem rowSum_revRow (n : Nat) (p q : Nat → Bool) (x : Vec) (hx : x.length = n) :
    ∀ (row : Row), (∀ e ∈ row, e.1 < n) → (∀ e ∈ row, p (n - 1 - e.1) = q e.1) →
      rowSum p (revRow n row) x.reverse = rowSum q row x := by
  intro row hn hpq
  rw [revRow, rowSum_reverse]
  induction row with
  | nil => rfl
  | cons e l ih =>
    have he := hn e (List.mem_cons_self _ _)
    rw [List.map_cons, rowSum_cons, rowSum_cons,
      ih (fun f hf => hn f (List.mem_cons_of_mem _ hf))
        (fun f hf => hpq f (List.mem_cons_of_mem _ hf)),
      hpq e (List.mem_cons_self _ _)]
    simp only []
    rw [getD_reverse x (by omega), show x.length - 1 - (n - 1 - e.1) = e.1 by omega]

theorem sorted_revRow (n : Nat) (row : Row) (hs : SortedRow row) (hn : ∀ e ∈ row, e.1 < n) :
    SortedRow (revRow n row) := by
  unfold SortedRow revRow
  rw [List.pairwise_reverse, List.pairwise_map]
  refine List.Pairwise.imp_of_mem ?_ hs
  intro a c ha hc hac
  have h1 := hn a ha
  have h2 := hn c hc
  simp only []
  omega

theorem coef_of_mem_sorted (l : Row) (hs : SortedRow l) (k : Nat) (a : ℚ) (h : (k, a) ∈ l) :
    coef l k = a := by
  obtain ⟨s, t, rfl⟩ := List.append_of_mem h
  have h1 := (List.pairwise_append.1 hs).2.2
  rw [coef_append_of_not_mem s _ k
    (fun f hf => Nat.ne_of_lt (h1 f hf (k, a) (List.mem_cons_self _ _)))]
  simp [coef]

theorem mem_revRow (n : Nat) (row : Row) (e : Entry) (h : e ∈ row) :
    (n - 1 - e.1, e.2) ∈ revRow n row := by
  rw [revRow, List.mem_reverse, List.mem_map]
  exact ⟨e, h, rfl⟩

theorem wf_revMatrix {A : Matrix} (hA : WellFormed A) : WellFormed (revMatrix A) := by
  intro k hk
  rw [revMatrix_length] at hk
  rw [revMatrix_getD A hk, revMatrix_length]
  have h := hA (A.length - 1 - k) (by omega)
  refine ⟨sorted_revRow _ _ h.1 h.2.1, ?_, ?_⟩
  · intro e he
    rw [revRow, List.mem_reverse, List.mem_map] at he
    obtain ⟨f, _, rfl⟩ := he
    simp only []
    omega
  · obtain ⟨e, he, hee⟩ := h.2.2
    exact ⟨_, mem_revRow A.length _ e he, by simp only []; omega⟩

theorem coef_revRow_diag {A : Matrix} (hA : WellFormed A) {k : Nat} (hk : k < A.length) :
    coef (revRow A.length (A.getD (A.length - 1 - k) [])) k
      = coef (A.getD (A.length - 1 - k) []) (A.length - 1 - k) := by
  have h := hA (A.length - 1 - k) (by omega)
  obtain ⟨⟨j, a⟩, he, hee⟩ := h.2.2
  simp only [] at hee
  subst hee
  have h1 : coef (A.getD (A.length - 1 - k) []) (A.length - 1 - k) = a :=
    coef_of_mem_sorted _ h.1 _ _ he
  have h2 := mem_revRow A.length _ _ he
  simp only [] at h2
  rw [show A.length - 1 - (A.length - 1 - k) = k by omega] at h2
  rw [h1]
  exact coef_of_mem_sorted _ (sorted_revRow _ _ h.1 h.2.1) _ _ h2

/-- Relational rule for a backward sweep over `A` run next to a forward sweep
    over the rows of `A` in reverse order, each transformed by `g`. -/
theorem sweepRows_mirror (stepB stepF : Nat → Row → State → Option State) (g : Row → Row)
    (R : Nat → State → State → Prop) :
    ∀ (A : Matrix) (c : Nat) (s t : State), R A.length s t →
      (∀ i, i < A.length → ∀ (s t : State), R (i + 1) s t →
        OptRel (R i) (stepB i (A.getD i []) s)
          (stepF (c + (A.length - 1 - i)) (g (A.getD i [])) t)) →
      OptRel (R 0) (sweepRows stepB (backwardOrder A) s)
        (sweepRows stepF (((A.map g).reverse).enumFrom c) t) := by
  intro A
  induction A using List.reverseRecOn with
  | nil => intro c s t h _; exact h
  | append_singleton A r ih =>
    intro c s t h hstep
    have h1 := hstep A.length (by simp) s t (by simpa using h)
    rw [List.getD_eq_getElem _ _ (by simp)] at h1
    simp only [List.getElem_concat_length, List.length_append, List.length_singleton,
      Nat.add_sub_cancel, Nat.sub_self, Nat.add_zero] at h1
    simp only [backwardOrder, List.enum_append, List.enumFrom_singleton, List.reverse_append,
      List.reverse_cons, List.reverse_nil, List.nil_append, List.singleton_append, sweepRows,
      List.map_append, List.map_cons, List.map_nil, List.enumFrom_cons]
    cases hs : stepB A.length r s with
    | none =>
      cases ht : stepF c (g r) t with
      | none => trivial
      | some t1 => rw [hs, ht] at h1; exact h1.elim
    | some s1 =>
      cases ht : stepF c (g r) t with
      | none => rw [hs, ht] at h1; exact h1.elim
      | some t1 =>
        rw [hs, ht] at h1
        simp only []
        apply ih (c + 1) s1 t1 h1
        intro i hi u v huv
        have := hstep i (by simp; omega) u v huv
        rw [List.getD_eq_getElem _ _ (by simp; omega), List.getElem_append_left hi] at this
        rw [List.getD_eq_getElem _ _ hi,
          show c + 1 + (A.length - 1 - i) = c + ((A ++ [r]).length - 1 - i) by
            simp only [List.length_append, List.length_singleton]; omega]
        exact this

/-- Row `i` of the backward Gauss-Seidel kernel on `A` and row `n - 1 - i` of
    the forward kernel (`first = false`, `compDef = false`) on the
    index-reversed matrix do the same thing to mirrored states. -/
theorem gs_mirror_row {A : Matrix} (hA : WellFormed A) {i : Nat} (hi : i < A.length)
    (b x d : Vec) (hx : x.length = A.length) (hd : d.length = A.length)
    (hb : b.length = A.length) :
    ∃ s, gsBackwardRow A.length b i (A.getD i []) (x, d) = some s ∧
      s.1.length = A.length ∧ s.2.length = A.length ∧
      gsForwardRow false false b.reverse (A.length - 1 - i) (revRow A.length (A.getD i []))
        (x.reverse, d.reverse) = some (s.1.reverse, s.2.reverse) := by
  have hk : A.length - 1 - i < (revMatrix A).length := by rw [revMatrix_length]; omega
  have hk1 : A.length - 1 - i < A.length := by omega
  have hik : A.length - 1 - (A.length - 1 - i) = i := by omega
  have hrow : (revMatrix A).getD (A.length - 1 - i) [] = revRow A.length (A.getD i []) := by
    rw [revMatrix_getD A hk1, hik]
  have hcols := (hA i hi).2.1
  obtain ⟨d1, e1, l1, f1⟩ := gsForwardRow_wf (wf_revMatrix hA) hk false false b.reverse
    x.reverse d.reverse (by simp [revMatrix_length, hx]) (by simp [revMatrix_length, hd])
    (by simp [revMatrix_length, hb])
  rw [hrow] at e1 f1
  rw [revMatrix_length] at l1
  have hlo : rowSum (fun j => decide (j < A.length - 1 - i)) (revRow A.length (A.getD i []))
      x.reverse = rowSum (fun j => decide (i < j)) (A.getD i []) x :=
    rowSum_revRow A.length _ _ x hx _ hcols (fun e he => by
      have := hcols e he
      simp only [decide_eq_decide]
      omega)
  have hup : rowSum (fun j => decide (A.length - 1 - i < j)) (revRow A.length (A.getD i []))
      x.reverse = rowSum (fun j => decide (j < i)) (A.getD i []) x :=
    rowSum_revRow A.length _ _ x hx _ hcols (fun e he => by
      have := hcols e he
      simp only [decide_eq_decide]
      omega)
  have hbk : b.reverse.getD (A.length - 1 - i) 0 = b.getD i 0 := by
    rw [getD_reverse b (by omega), hb, hik]
  have hco : coef (revRow A.length (A.getD i [])) (A.length - 1 - i) = coef (A.getD i []) i := by
    have := coef_revRow_diag hA hk1
    rwa [hik] at this
  have hv : gsValue false b.reverse (A.length - 1 - i) (revRow A.length (A.getD i []))
      x.reverse = gsValue false b i (A.getD i []) x := by
    rw [gsValue_false, gsValue_false, hlo, hup, hbk, hco]
    congr 1
    ring
  refine ⟨_, gsBackwardRow_wf hA hi b x d hx hd hb, by simpa using hx, by simpa using hd, ?_⟩
  simp only []
  rw [e1, hv, reverse_set x (hx ▸ hi), reverse_set d (hd ▸ hi), hx, hd]
  congr 2
  apply vec_ext _ _ (by rw [l1]; simp [hd])
  intro j _
  rw [f1 j]
  simp only [Bool.false_eq_true, if_false]
  by_cases hj : j = A.length - 1 - i
  · subst hj
    rw [if_pos rfl, getD_set_self _ _ _ (by simp [hd]; omega), hbk, hlo]
    simp only [gsUpper, Bool.false_eq_true, if_false, hup]
  · rw [if_neg hj, getD_set_ne _ _ _ _ hj]

/-- C14: for a well-formed matrix with nonzero diagonal and `x`, `d`, `b` of
    matching length, the backward Gauss-Seidel kernel returns `(x1, d1)`, and
    the forward Gauss-Seidel kernel with `first = false`, `compDef = false` run
    on the index-reversed matrix and the reversed vectors returns
    `(rev x1, rev d1)`. -/
theorem c14_backward_is_mirrored_forward (A : Matrix) (x d b : Vec)
    (hA : WellFormed A) (_hD : NonzeroDiag A)
    (hx : x.length = A.length) (hd : d.length = A.length) (hb : b.length = A.length) :
    ∃ x1 d1, GaussSeidelStepWithDefect.backward_apply A x d b = some (x1, d1) ∧
      GaussSeidelStepWithDefect.forward_apply (revMatrix A) x.reverse d.reverse b.reverse
        false false = some (x1.reverse, d1.reverse) := by
  have key := sweepRows_mirror (gsBackwardRow A.length b) (gsForwardRow false false b.reverse)
    (revRow A.length)
    (fun _ s t => s.1.length = A.length ∧ s.2.length = A.length ∧
      t = (s.1.reverse, s.2.reverse))
    A 0 (x, d) (x.reverse, d.reverse) ⟨hx, hd, rfl⟩ ?_
  · obtain ⟨⟨x1, d1⟩, h1, _⟩ := gs_backward_defined hA x d b hx hd hb
    refine ⟨x1, d1, h1, ?_⟩
    rw [GaussSeidelStepWithDefect.backward_apply] at h1
    rw [h1] at key
    rw [GaussSeidelStepWithDefect.forward_apply, forwardOrder, List.enum_eq_enumFrom, revMatrix]
    cases h2 : sweepRows (gsForwardRow false false b.reverse)
        (List.enumFrom 0 (List.map (revRow A.length) A).reverse) (x.reverse, d.reverse) with
    | none => rw [h2] at key; exact key.elim
    | some t => rw [h2] at key; rw [key.2.2]
  · rintro i hi ⟨x0, d0⟩ t ⟨h1, h2, h3⟩
    simp only [] at h1 h2 h3
    subst h3
    obtain ⟨s1, e1, l1, l2, e2⟩ := gs_mirror_row hA hi b x0 d0 h1 h2 hb
    rw [e1, Nat.zero_add, e2]
    exact ⟨l1, l2, rfl⟩

/-- Witness for C14: the tridiagonal matrix with `x = [1, 2, 3]`,
    `d = [4, 5, 6]`, `b = [1, 2, 3]`. -/
theorem c14_backward_is_mirrored_forward_witness :
    (WellFormed tridiag3 ∧ NonzeroDiag tridiag3) ∧
    ∃ x1 d1, GaussSeidelStepWithDefect.backward_apply tridiag3 [1, 2, 3] [4, 5, 6] [1, 2, 3]
        = some (x1, d1) ∧
      GaussSeidelStepWithDefect.forward_apply (revMatrix tridiag3) ([1, 2, 3] : Vec).reverse
        ([4, 5, 6] : Vec).reverse ([1, 2, 3] : Vec).reverse false false
        = some (x1.reverse, d1.reverse) :=
  ⟨⟨by decide, by decide⟩,
    c14_backward_is_mirrored_forward tridiag3 [1, 2, 3] [4, 5, 6] [1, 2, 3] (by decide)
      (by decide) rfl rfl rfl⟩

end Amg
end Dune
